import Mathlib

/-!
Verification of the nginx-1.6.2 pool allocator (`src/core/ngx_palloc.c`) and
bitwise radix tree (`src/core/ngx_radix_tree.c`) against their specification.

The C code is shallowly embedded:

* Machine integers (`uint32_t`, `uintptr_t`, `size_t`) become `Nat`, with
  wrap-around written explicitly (`% 2 ^ 32`, and a `size_t` subtraction
  helper) at the spots where the C arithmetic can wrap.
* The radix tree's pointer structure is embedded as the inductive type
  `RTree`: a `NULL` child pointer is `RTree.nil`, and a node's
  `right`/`left`/`value` fields are the constructor arguments of
  `RTree.node`.  The `parent` pointers of the C nodes are reified, during
  `ngx_radix32tree_delete`, as the explicit list of ancestors accumulated on
  the way down (`PathEntry`); the C code's upward walk through `parent`
  becomes a walk along that list.  Dereferencing the root's `NULL` parent
  (which the C code does when the delete target is a childless root) is
  modelled by the operation returning `none`.  The intrusive free list of
  recycled nodes and the page slabs only affect which memory addresses back
  the nodes, never the fields reachable from the root, so they have no
  counterpart in this value-level embedding.
* The bounded `while` loops of the C functions (whose loop bit starts at
  `0x80000000` and is shifted right each iteration, hence at most 32
  iterations) are written with an explicit fuel parameter; the top-level
  entry points pass fuel `33`, which the lemmas below show is never
  exhausted.
-/

set_option maxRecDepth 20000

namespace NginxVerify

/-- NGX_OK return code (`0`). -/
def NGX_OK : Int := 0

/-- NGX_ERROR return code (`-1`). -/
def NGX_ERROR : Int := -1

/-- NGX_BUSY return code (`-3`). -/
def NGX_BUSY : Int := -3

/-- NGX_DECLINED return code (`-5`). -/
def NGX_DECLINED : Int := -5

/-- NGX_RADIX_NO_VALUE is `(uintptr_t) -1`, i.e. the all-ones pattern of a
64-bit `uintptr_t`. -/
def NGX_RADIX_NO_VALUE : Nat := 2 ^ 64 - 1

/-- An `ngx_radix_node_t *`: `nil` is a `NULL` pointer, and
`node right left value` is a node whose `right`/`left` child pointers and
`value` field are the given arguments (the `parent` field is represented by
the position of the node inside the tree, see the file header). -/
inductive RTree where
  | nil : RTree
  | node (right left : RTree) (value : Nat) : RTree
deriving DecidableEq

/-- The chain of fresh nodes built by the second `while (bit & mask)` loop of
`ngx_radix32tree_insert`, returned as the subtree that the C code hangs off
the side `key & bit` of the node where the descent hit a `NULL` child.  The
node built at attach bit `bit` receives its own child at bit `bit >> 1`;
every intermediate node carries `NGX_RADIX_NO_VALUE` and the last node of the
chain receives `value` (the C code's trailing `node->value = value`). -/
def newPath (key mask value : Nat) : Nat → Nat → RTree
  | _bit, 0 => .node .nil .nil value
  | bit, fuel+1 =>
    if (bit >>> 1) &&& mask ≠ 0 then
      if key &&& (bit >>> 1) ≠ 0 then
        .node (newPath key mask value (bit >>> 1) fuel) .nil NGX_RADIX_NO_VALUE
      else
        .node .nil (newPath key mask value (bit >>> 1) fuel) NGX_RADIX_NO_VALUE
    else .node .nil .nil value

/-- The body of `ngx_radix32tree_insert`: the first `while (bit & mask)` loop
descends while the mask bit is set and the selected child is non-`NULL`; on
mask exhaustion it lands on the current node (`if (next)` in the C code,
which there coincides with `node`) and either reports `NGX_BUSY` or stores
the value; on a `NULL` child it grafts the `newPath` chain.  The fuel-zero
equation can only be reached with `bit = 0` (the lemmas below maintain
`2 * bit < 2 ^ fuel`), where the C loop condition `bit & mask` is also false,
so it repeats the mask-exhausted branch; the `.nil` equation is never reached
because the function is only applied to non-`NULL` nodes. -/
def insertGo (key mask value : Nat) : Nat → Nat → RTree → Int × RTree
  | _bit, _fuel, .nil => (NGX_ERROR, .nil)
  | _bit, 0, .node r l v =>
    if v ≠ NGX_RADIX_NO_VALUE then (NGX_BUSY, .node r l v)
    else (NGX_OK, .node r l value)
  | bit, fuel+1, .node r l v =>
    if bit &&& mask = 0 then
      if v ≠ NGX_RADIX_NO_VALUE then (NGX_BUSY, .node r l v)
      else (NGX_OK, .node r l value)
    else if key &&& bit ≠ 0 then
      match r with
      | .nil => (NGX_OK, .node (newPath key mask value bit fuel) l v)
      | .node r2 l2 v2 =>
        let res := insertGo key mask value (bit >>> 1) fuel (.node r2 l2 v2)
        (res.1, .node res.2 l v)
    else
      match l with
      | .nil => (NGX_OK, .node r (newPath key mask value bit fuel) v)
      | .node r2 l2 v2 =>
        let res := insertGo key mask value (bit >>> 1) fuel (.node r2 l2 v2)
        (res.1, .node r res.2 v)

/-- The function `ngx_radix32tree_insert` applied to the tree reachable from
`tree->root`.  Node allocation never fails in the embedding, so the
`NGX_ERROR` out-of-memory exit does not occur. -/
def ngx_radix32tree_insert (t : RTree) (key mask value : Nat) : Int × RTree :=
  insertGo key mask value (2 ^ 31) 33 t

/-- The `while (node)` loop of `ngx_radix32tree_find`: track the deepest
value different from `NGX_RADIX_NO_VALUE`, descend by the current key bit
(after 32 steps `bit` is `0` and the walk continues left, exactly as in C).
The loop is structural on the node, so it needs no fuel. -/
def findGo (key : Nat) : Nat → Nat → RTree → Nat
  | _bit, value, .nil => value
  | bit, value, .node r l v =>
    let value2 := if v ≠ NGX_RADIX_NO_VALUE then v else value
    if key &&& bit ≠ 0 then findGo key (bit >>> 1) value2 r
    else findGo key (bit >>> 1) value2 l

/-- The function `ngx_radix32tree_find` applied to the tree reachable from
`tree->root`. -/
def ngx_radix32tree_find (t : RTree) (key : Nat) : Nat :=
  findGo key (2 ^ 31) NGX_RADIX_NO_VALUE t

/-- Direction taken from a node during the delete descent. -/
inductive Dir where
  | left : Dir
  | right : Dir
deriving DecidableEq

/-- One reified `parent` pointer recorded during the descent of
`ngx_radix32tree_delete`: the direction the descent took from that ancestor,
the ancestor's other child, and the ancestor's `value`. -/
structure PathEntry where
  dir : Dir
  other : RTree
  value : Nat
deriving DecidableEq

/-- Reconstruct an ancestor node from a path entry and the (new) subtree on
the side the descent took. -/
def reattach (e : PathEntry) (t : RTree) : RTree :=
  match e.dir with
  | .right => .node t e.other e.value
  | .left => .node e.other t e.value

/-- Rebuild the whole tree from a subtree and its leaf-first ancestor path. -/
def rebuild (t : RTree) : List PathEntry → RTree
  | [] => t
  | e :: rest => rebuild (reattach e t) rest

/-- An ancestor node after the C code has set the child pointer on the
descent side to `NULL` (`node->parent->right = NULL` / `...->left = NULL`). -/
def detachChild (e : PathEntry) : RTree :=
  match e.dir with
  | .right => .node .nil e.other e.value
  | .left => .node e.other .nil e.value

/-- The `for ( ;; )` loop of `ngx_radix32tree_delete` that detaches a leaf
target and walks up through the `parent` pointers.  The C loop body first
dereferences `node->parent`; on an empty path this parent is the root's
`NULL` parent and the dereference faults before any of the loop's three exit
conditions is evaluated, which the embedding models as `none`.  Otherwise the
leaf is detached from its parent and the loop stops at the first ancestor
that still has a child (`e.other`), carries a value, or is the root
(`rest = []`); an ancestor that is none of these is itself detached (the C
code pushes it on `tree->free` and continues upward). -/
def deleteUp : List PathEntry → Option RTree
  | [] => none
  | e :: rest =>
    if e.other ≠ .nil ∨ e.value ≠ NGX_RADIX_NO_VALUE ∨ rest = [] then
      some (rebuild (detachChild e) rest)
    else deleteUp rest

/-- Result of the `while (node && (bit & mask))` descent of
`ngx_radix32tree_delete`: either the walk ran into a `NULL` pointer
(`node == NULL` after the loop) or it stopped on an existing node with the
reified ancestor path (leaf-first). -/
inductive DelOutcome where
  | notFound : DelOutcome
  | found (t : RTree) (path : List PathEntry) : DelOutcome
deriving DecidableEq

/-- The descent loop of `ngx_radix32tree_delete`.  The fuel-zero equation can
only be reached with `bit = 0`, where the loop condition `bit & mask` is
false and the loop stops on the current node, exactly what the equation
returns. -/
def delDescend (key mask : Nat) : Nat → Nat → RTree → List PathEntry → DelOutcome
  | _bit, _fuel, .nil, _path => .notFound
  | _bit, 0, t, path => .found t path
  | bit, fuel+1, .node r l v, path =>
    if bit &&& mask = 0 then .found (.node r l v) path
    else if key &&& bit ≠ 0 then
      delDescend key mask (bit >>> 1) fuel r (⟨.right, l, v⟩ :: path)
    else
      delDescend key mask (bit >>> 1) fuel l (⟨.left, r, v⟩ :: path)

/-- The function `ngx_radix32tree_delete` applied to the tree reachable from
`tree->root`.  Returns `none` when the C code dereferences the root's `NULL`
parent (delete of a childless root, see the `deleteUp` docstring); the
`found .nil` equation is unreachable since `delDescend` only stops on
existing nodes. -/
def ngx_radix32tree_delete (t : RTree) (key mask : Nat) : Option (Int × RTree) :=
  match delDescend key mask (2 ^ 31) 33 t [] with
  | .notFound => some (NGX_ERROR, t)
  | .found .nil _path => some (NGX_ERROR, t)
  | .found (.node r l v) path =>
    if r ≠ .nil ∨ l ≠ .nil then
      if v ≠ NGX_RADIX_NO_VALUE then
        some (NGX_OK, rebuild (.node r l NGX_RADIX_NO_VALUE) path)
      else some (NGX_ERROR, t)
    else
      match deleteUp path with
      | none => none
      | some t2 => some (NGX_OK, t2)

/-- The inner `do { ... } while (key)` loop of `ngx_radix_tree_create`:
insert `(key, mask, NGX_RADIX_NO_VALUE)`, step `key` by `inc` with 32-bit
wrap-around, stop when `key` wraps to `0`.  The fuel `2 ^ 32` passed by
`preallocLevels` bounds the at most `2 ^ 32` iterations. -/
def preallocLevel (mask inc : Nat) : Nat → Nat → RTree → RTree
  | _key, 0, t => t
  | key, fuel+1, t =>
    let t2 := (ngx_radix32tree_insert t key mask NGX_RADIX_NO_VALUE).2
    let key2 := (key + inc) % 2 ^ 32
    if key2 ≠ 0 then preallocLevel mask inc key2 fuel t2 else t2

/-- The outer `while (preallocate--)` loop of `ngx_radix_tree_create`:
per level, shift one more bit into `mask`, run the inner loop, halve `inc`. -/
def preallocLevels : Nat → Nat → Nat → RTree → RTree
  | 0, _mask, _inc, t => t
  | p+1, mask, inc, t =>
    let mask2 := (mask >>> 1) ||| 2 ^ 31
    let t2 := preallocLevel mask2 inc 0 (2 ^ 32) t
    preallocLevels p mask2 (inc >>> 1) t2

/-- The function `ngx_radix_tree_create`, returning the tree reachable from
`tree->root`.  Allocation never fails in the embedding, so the `NULL`
out-of-memory returns do not occur.  The `-1` default depth resolves to `6`:
the embedding fixes the 64-bit / 4K-page platform,
`ngx_pagesize / sizeof(ngx_radix_node_t) = 4096 / 32 = 128`.  A negative
`preallocate` other than `-1` makes the C loop wrap its counter and run
effectively forever (it would die of memory exhaustion); the embedding maps
that degenerate case to no preallocation via `Int.toNat`. -/
def ngx_radix_tree_create (preallocate : Int) : RTree :=
  let root : RTree := .node .nil .nil NGX_RADIX_NO_VALUE
  if preallocate = 0 then root
  else
    let pre : Int := if preallocate = -1 then 6 else preallocate
    preallocLevels pre.toNat 0 (2 ^ 31) root

/-!
The pool allocator.  The embedding fixes the 64-bit / 4K-page platform, so
the struct sizes and alignment constants below are concrete numbers.  A
chunk's `d.last` and `d.end` pointers are represented as byte offsets from
the chunk's base address; since every chunk base is `NGX_POOL_ALIGNMENT`
(16) aligned and `NGX_ALIGNMENT` (8) divides 16, aligning an offset is the
same as aligning the absolute address.  Pointers handed out by the
underlying allocator (`ngx_alloc` / `ngx_memalign`) are modelled by a
counter of fresh ids carried in the pool state; pointers returned by the
pool to callers are `PPtr`: a small allocation is `(chunk index, offset)`,
a large one carries its fresh id.  Distinct constructors never compare
equal, which models that distinct live allocations have distinct
addresses. -/

/-- NGX_POOL_ALIGNMENT: alignment of chunk allocations (16 bytes). -/
def NGX_POOL_ALIGNMENT : Nat := 16

/-- NGX_ALIGNMENT: small-allocation alignment, `sizeof(unsigned long)` = 8. -/
def NGX_ALIGNMENT : Nat := 8

/-- Size of `ngx_pool_data_t` (`last`, `end`, `next`, `failed`): 32 bytes. -/
def sizeof_ngx_pool_data_t : Nat := 32

/-- Size of `ngx_pool_t` (`d`, `max`, `current`, `chain`, `large`,
`cleanup`, `log`): 80 bytes. -/
def sizeof_ngx_pool_t : Nat := 80

/-- Size of `ngx_pool_large_t` (`next`, `alloc`): 16 bytes. -/
def sizeof_ngx_pool_large_t : Nat := 16

/-- Size of `ngx_pool_cleanup_t` (`handler`, `data`, `next`): 24 bytes. -/
def sizeof_ngx_pool_cleanup_t : Nat := 24

/-- Page size of the modelled platform. -/
def ngx_pagesize : Nat := 4096

/-- NGX_MAX_ALLOC_FROM_POOL is `ngx_pagesize - 1`. -/
def NGX_MAX_ALLOC_FROM_POOL : Nat := ngx_pagesize - 1

/-- The macro `ngx_align_ptr(p, a)`: round `p` up to a multiple of the
power-of-two `a`. -/
def ngx_align_ptr (p a : Nat) : Nat := (p + a - 1) / a * a

/-- C pointer subtraction cast to `size_t`, as in
`(size_t) (p->d.end - m)`: 64-bit wrap-around when `m` exceeds `end`. -/
def size_t_sub (a b : Nat) : Nat := (((a : Int) - b) % (2 ^ 64 : Int)).toNat

/-- One `ngx_pool_data_t` chunk header: the bump cursor `last` and upper
bound `end` as offsets from the chunk base, and the `failed` counter.  The
`next` link is the list structure of `NgxPool.chunks`. -/
structure PoolChunk where
  last : Nat
  end_ : Nat
  failed : Nat
deriving DecidableEq

/-- A pointer returned by the pool: either carved from chunk `chunk` at
offset `off`, or a large allocation with fresh id `p`. -/
inductive PPtr where
  | small (chunk off : Nat) : PPtr
  | large (p : Nat) : PPtr
deriving DecidableEq

/-- One `ngx_pool_cleanup_t` entry: `handler` (`NULL` until the caller
installs one; handlers are opaque ids) and `data`. -/
structure CleanupEntry where
  handler : Option Nat
  data : Option PPtr
deriving DecidableEq

/-- The pool handle plus the whole chunk chain.  `chunks` is the chain in
order (head = first chunk, the one the handle is embedded in), `current` is
the index of the chunk the allocation search starts at, `large` is the
large-allocation list (`none` = tombstone whose `alloc` was freed),
`cleanup` the cleanup stack (head = most recently registered), and
`nextPtr` the supply of fresh ids for the underlying allocator. -/
structure NgxPool where
  chunks : List PoolChunk
  max : Nat
  current : Nat
  chain : Option Nat
  large : List (Option Nat)
  cleanup : List CleanupEntry
  nextPtr : Nat
deriving DecidableEq

/-- The function `ngx_create_pool(size, log)`: one chunk, `last` just past
the pool handle, `max = min(size - sizeof(ngx_pool_t), page - 1)` (the
subtraction is the C `size_t` one). -/
def ngx_create_pool (size : Nat) : NgxPool :=
  { chunks := [{ last := sizeof_ngx_pool_t, end_ := size, failed := 0 }],
    max := min (size_t_sub size sizeof_ngx_pool_t) NGX_MAX_ALLOC_FROM_POOL,
    current := 0, chain := none, large := [], cleanup := [], nextPtr := 0 }

/-- A call to the underlying allocator: returns a fresh id. -/
def ngx_alloc_fresh (pool : NgxPool) : NgxPool × Nat :=
  ({ pool with nextPtr := pool.nextPtr + 1 }, pool.nextPtr)

/-- Replace the `last` cursor of chunk `i`. -/
def chunkBump : List PoolChunk → Nat → Nat → List PoolChunk
  | [], _, _ => []
  | c :: rest, 0, newLast => { c with last := newLast } :: rest
  | c :: rest, i+1, newLast => c :: chunkBump rest i newLast

/-- The `do { ... } while (p)` search of `ngx_palloc` / `ngx_pnalloc` over
the chunks from `current` on (the suffix is passed together with the index
`i` of its first chunk): align `last` when `alignFlag` is set, test
`(size_t) (p->d.end - m) >= size`, return the first fit. -/
def smallScan (size : Nat) (alignFlag : Bool) : Nat → List PoolChunk → Option (Nat × Nat)
  | _i, [] => none
  | i, c :: rest =>
    let m := if alignFlag then ngx_align_ptr c.last NGX_ALIGNMENT else c.last
    if size ≤ size_t_sub c.end_ m then some (i, m)
    else smallScan size alignFlag (i + 1) rest

/-- The `for (p = current; p->d.next; p = p->d.next)` loop of
`ngx_palloc_block` over the chunk suffix starting at `current` (index `i`):
every chunk that still has a successor gets `failed` post-incremented, and
the returned option records the index just past the last chunk whose
pre-increment `failed` exceeded 4 (the C code's running
`current = p->d.next`, of which the last assignment wins); `none` means
`current` was never moved.  The last chunk of the chain ends the loop and is
neither incremented nor tested. -/
def blockWalk : Nat → List PoolChunk → List PoolChunk × Option Nat
  | _i, [] => ([], none)
  | _i, [c] => ([c], none)
  | i, c :: c2 :: rest =>
    let adv : Option Nat := if c.failed > 4 then some (i + 1) else none
    let res := blockWalk (i + 1) (c2 :: rest)
    ({ c with failed := c.failed + 1 } :: res.1, res.2 <|> adv)

/-- The function `ngx_palloc_block(pool, size)`: allocate a chunk of the
pool's original size, place `last` past the aligned `ngx_pool_data_t`
header plus the `size` being served, run the `failed` walk, append the new
chunk, and move `current` (the C fallback `current ? current : new` is dead
code: the running `current` pointer is never `NULL`, which the `getD`
models by keeping the old index when no advance happened). -/
def ngx_palloc_block (pool : NgxPool) (size : Nat) : NgxPool × PPtr :=
  let psize := pool.chunks.head?.elim 0 fun c => c.end_
  let m := ngx_align_ptr sizeof_ngx_pool_data_t NGX_ALIGNMENT
  let newChunk : PoolChunk := { last := m + size, end_ := psize, failed := 0 }
  let walked := blockWalk pool.current (pool.chunks.drop pool.current)
  ({ pool with
      chunks := pool.chunks.take pool.current ++ walked.1 ++ [newChunk],
      current := walked.2.getD pool.current },
   PPtr.small pool.chunks.length m)

/-- The `size <= pool->max` branch shared by `ngx_palloc` (aligned) and
`ngx_pnalloc` (unaligned): scan from `current`, else grow. -/
def ngx_palloc_small (pool : NgxPool) (size : Nat) (alignFlag : Bool) : NgxPool × PPtr :=
  match smallScan size alignFlag pool.current (pool.chunks.drop pool.current) with
  | some (i, m) => ({ pool with chunks := chunkBump pool.chunks i (m + size) }, .small i m)
  | none => ngx_palloc_block pool size

/-- The tombstone search of `ngx_palloc_large`: starting with `n = 0`, each
entry is first inspected for `alloc == NULL` (result: its index); otherwise
the loop breaks once `n++ > 3`.  The post-increment makes the loop inspect
up to five entries: `n` reaches 4 only after four non-tombstone entries, so
a fifth entry still gets its tombstone test before the break. -/
def largeScan : List (Option Nat) → Nat → Option Nat
  | [], _n => none
  | entry :: rest, n =>
    if entry = none then some 0
    else if n > 3 then none
    else (largeScan rest (n + 1)).map (· + 1)

/-- Install pointer `p` in the large entry at index `i`
(`large->alloc = p`). -/
def setLargeAt : List (Option Nat) → Nat → Nat → List (Option Nat)
  | [], _, _ => []
  | _e :: rest, 0, p => some p :: rest
  | e :: rest, i+1, p => e :: setLargeAt rest i p

/-- The function `ngx_palloc_large(pool, size)`: call the underlying
allocator, reuse a tombstone entry if the bounded scan finds one, else
allocate a fresh `ngx_pool_large_t` through `ngx_palloc` (passed in as
`palloc` to close the mutual recursion) and push it at the head of the
large list. -/
def ngx_palloc_large_core (palloc : NgxPool → Nat → Option (NgxPool × PPtr))
    (pool : NgxPool) (_size : Nat) : Option (NgxPool × PPtr) :=
  let fresh := ngx_alloc_fresh pool
  let pool1 := fresh.1
  let p := fresh.2
  match largeScan pool1.large 0 with
  | some i => some ({ pool1 with large := setLargeAt pool1.large i p }, .large p)
  | none =>
    match palloc pool1 sizeof_ngx_pool_large_t with
    | none => none
    | some (pool2, _entryPtr) =>
      some ({ pool2 with large := some p :: pool2.large }, .large p)

/-- The pair `ngx_palloc` / `ngx_palloc_large`: sizes up to `pool->max` go
to the chunk path, larger ones to the large path, whose fresh
`ngx_pool_large_t` is in turn allocated by a recursive `ngx_palloc` call.
In C that recursion is unbounded when `pool->max < sizeof(ngx_pool_large_t)`
and no tombstone is ever found; the fuel cuts that degenerate case off as
`none` (the top-level entry points pass fuel 2, enough for every pool with
`sizeof(ngx_pool_large_t) ≤ max`). -/
def ngx_palloc_core : Nat → NgxPool → Nat → Bool → Option (NgxPool × PPtr)
  | 0, _pool, _size, _af => none
  | fuel+1, pool, size, af =>
    if size ≤ pool.max then some (ngx_palloc_small pool size af)
    else ngx_palloc_large_core (fun p s => ngx_palloc_core fuel p s true) pool size

/-- The function `ngx_palloc(pool, size)` (aligned). -/
def ngx_palloc (pool : NgxPool) (size : Nat) : Option (NgxPool × PPtr) :=
  ngx_palloc_core 2 pool size true

/-- The function `ngx_pnalloc(pool, size)` (unaligned). -/
def ngx_pnalloc (pool : NgxPool) (size : Nat) : Option (NgxPool × PPtr) :=
  ngx_palloc_core 2 pool size false

/-- The function `ngx_reset_pool(pool)`: free every non-`NULL` large
allocation (returned as the list of freed ids, in list order), then reset
every chunk's `last` to `(u_char *) p + sizeof(ngx_pool_t)` — note: the
full pool-handle size for every chunk, not just the first — zero every
`failed`, and clear `current`, `chain` and `large`.  The cleanup stack is
not touched. -/
def ngx_reset_pool (pool : NgxPool) : List Nat × NgxPool :=
  (pool.large.filterMap id,
   { pool with
      chunks := pool.chunks.map fun c => { c with last := sizeof_ngx_pool_t, failed := 0 },
      current := 0, chain := none, large := [] })

/-- The first-match search of `ngx_pfree`: `none` when no entry's `alloc`
equals `p`, otherwise the list with the matching entry's `alloc` nulled. -/
def pfreeScan (p : Nat) : List (Option Nat) → Option (List (Option Nat))
  | [] => none
  | entry :: rest =>
    if entry = some p then some (none :: rest)
    else (pfreeScan p rest).map (entry :: ·)

/-- The function `ngx_pfree(pool, p)`: walk the large list comparing
`p == l->alloc`; a hit frees the allocation and tombstones the entry
(`NGX_OK`), otherwise `NGX_DECLINED`.  A chunk-carved pointer can never
compare equal to a large `alloc` (distinct allocations have distinct
addresses), which the `PPtr.small` case models. -/
def ngx_pfree (pool : NgxPool) (ptr : PPtr) : Int × NgxPool :=
  match ptr with
  | .small _ _ => (NGX_DECLINED, pool)
  | .large p =>
    match pfreeScan p pool.large with
    | some L => (NGX_OK, { pool with large := L })
    | none => (NGX_DECLINED, pool)

/-- The function `ngx_pool_cleanup_add(p, size)`: allocate the
`ngx_pool_cleanup_t` from the pool, allocate `size` bytes of `data` when
`size > 0`, push the entry (with `handler = NULL`) on the cleanup stack. -/
def ngx_pool_cleanup_add (pool : NgxPool) (size : Nat) : Option NgxPool :=
  match ngx_palloc pool sizeof_ngx_pool_cleanup_t with
  | none => none
  | some (pool1, _c) =>
    if size > 0 then
      match ngx_palloc pool1 size with
      | none => none
      | some (pool2, d) => some { pool2 with cleanup := ⟨none, some d⟩ :: pool2.cleanup }
    else some { pool1 with cleanup := ⟨none, none⟩ :: pool1.cleanup }

/-- The caller-side `c->handler = H` on the entry just returned by
`ngx_pool_cleanup_add` (the head of the cleanup stack). -/
def installHandler (pool : NgxPool) (h : Nat) : NgxPool :=
  { pool with
      cleanup := match pool.cleanup with
        | [] => []
        | e :: rest => { e with handler := some h } :: rest }

/-- An observable action of `ngx_destroy_pool`: a cleanup handler invocation
`c->handler(c->data)`, an `ngx_free(l->alloc)` of a large allocation, or an
`ngx_free(p)` of the chunk at position `i` of the chain. -/
inductive DEvent where
  | cleanup (h : Nat) (data : Option PPtr) : DEvent
  | freeLarge (p : Nat) : DEvent
  | freeChunk (i : Nat) : DEvent
deriving DecidableEq

/-- The function `ngx_destroy_pool(pool)` as its trace of observable
actions: run every non-`NULL` cleanup handler in stack order, then free
every non-`NULL` large allocation in list order, then free the chunks in
chain order. -/
def ngx_destroy_pool (pool : NgxPool) : List DEvent :=
  pool.cleanup.filterMap (fun c => c.handler.map fun h => DEvent.cleanup h c.data) ++
  pool.large.filterMap (fun a => a.map DEvent.freeLarge) ++
  (List.range pool.chunks.length).map DEvent.freeChunk

/-!
Specification-side definitions: concrete pool states (reached by running the
embedded operations) used by the counterexamples, and abstractions of the
radix tree used to state the functional-correctness claims.
-/

/-- Iterate `n` aligned pool allocations of `size` bytes. -/
def pallocIter (size : Nat) : Nat → NgxPool → Option NgxPool
  | 0, pool => some pool
  | n+1, pool => (ngx_palloc pool size).bind fun r => pallocIter size n r.1

/-- A pool of chunk size 160 after six 80-byte allocations: the first fills
the first chunk, each later one grows the chain, driving the first chunk's
`failed` counter to 4. -/
def C2pool : Option NgxPool := pallocIter 80 6 (ngx_create_pool 160)

/-- A pool of chunk size 160 after five large (100-byte) allocations
followed by `ngx_pfree` of the first one: its large list is four live
entries followed by a tombstone in the fifth position. -/
def C3pool : Option NgxPool :=
  (pallocIter 100 5 (ngx_create_pool 160)).map fun q => (ngx_pfree q (.large 0)).2

/-- A pool of chunk size 160 after two 80-byte small allocations: the second
allocation grows the chain, so the pool has two chunks. -/
def C4pool : Option NgxPool := pallocIter 80 2 (ngx_create_pool 160)

/-- A concrete pool with two live large entries, used by the C7 witness. -/
def C7pool : NgxPool :=
  { chunks := [{ last := 80, end_ := 160, failed := 0 }], max := 80,
    current := 0, chain := none, large := [some 3, some 7],
    cleanup := [], nextPtr := 8 }

/-- The `failed` counter of the chunk at position `k` (0 past the end). -/
def failedAtD (S : List PoolChunk) (k : Nat) : Nat :=
  ((S[k]?).map fun c => c.failed).getD 0

/-- A concrete two-chunk pool whose first chunk has failed 7 times, used by
the C2 witness. -/
def C2wpool : NgxPool :=
  { chunks := [{ last := 160, end_ := 160, failed := 7 },
               { last := 112, end_ := 160, failed := 0 }],
    max := 80, current := 0, chain := none, large := [], cleanup := [], nextPtr := 0 }

/-- A concrete pool with two live large entries and no tombstone, used by
the C3 witness. -/
def C3wpool : NgxPool :=
  { chunks := [{ last := 80, end_ := 160, failed := 0 }], max := 80,
    current := 0, chain := none, large := [some 3, some 7],
    cleanup := [], nextPtr := 8 }

/-- Number of nodes reachable from (and including) the given node. -/
def countNodes : RTree → Nat
  | .nil => 0
  | .node r l _ => 1 + countNodes r + countNodes l

/-- The complete binary radix subtree of depth `d` with every node carrying
`NGX_RADIX_NO_VALUE`: the shape `ngx_radix_tree_create` preallocates. -/
def perfectTree : Nat → RTree
  | 0 => .node .nil .nil NGX_RADIX_NO_VALUE
  | d+1 => .node (perfectTree d) (perfectTree d) NGX_RADIX_NO_VALUE

/-- Height of the tree: length of its longest root-to-node path. -/
def treeDepth : RTree → Nat
  | .nil => 0
  | .node r l _ => 1 + max (treeDepth r) (treeDepth l)

/-- The contiguous high-bit mask of `l` leading ones
(`l = 16` gives `0xFFFF0000`). -/
def topMask (l : Nat) : Nat := (2 ^ l - 1) <<< (32 - l)

/-- Number of leading one bits of `mask`, scanning from `bit` downwards with
the given fuel: the number of descent steps the insert and delete loops take
when no `NULL` child interrupts them. -/
def leadingOnesAux (mask : Nat) : Nat → Nat → Nat
  | _bit, 0 => 0
  | bit, fuel+1 =>
    if bit &&& mask ≠ 0 then 1 + leadingOnesAux mask (bit >>> 1) fuel else 0

/-- Number of leading one bits of a 32-bit mask. -/
def maskLen (mask : Nat) : Nat := leadingOnesAux mask (2 ^ 31) 32

/-- The longest contiguous high-bit mask that is an upper part of `mask`:
the mask `ngx_radix32tree_insert` and `ngx_radix32tree_delete` effectively
use (`0xA0000000` collapses to `0x80000000`). -/
def topBits32 (mask : Nat) : Nat := topMask (maskLen mask)

/-- The keys the preallocation loop inserts at a level that is `u` bit
positions below the bit `2 ^ m`: every multiple of `2 ^ (m + 1 - u)` below
`2 ^ (m + 1)`, in increasing order. -/
def scaledKeys (u m : Nat) : List Nat :=
  (List.range (2 ^ u)).map fun i => i * 2 ^ (m + 1 - u)

/-- Fold a list of `NGX_RADIX_NO_VALUE` insertions (at a given bit and
fuel) over a tree: the shape of the preallocation inner loop. -/
def insGoFold (mask bit fuel : Nat) (keys : List Nat) (t : RTree) : RTree :=
  keys.foldl (fun t2 k => (insertGo k mask NGX_RADIX_NO_VALUE bit fuel t2).2) t

/-- A 32-bit mask is a contiguous run of high bits. -/
def ContiguousMask (mask : Nat) : Prop := mask < 2 ^ 32 ∧ mask = topMask (maskLen mask)

instance (mask : Nat) : Decidable (ContiguousMask mask) := by
  unfold ContiguousMask; infer_instance

/-- A tree holding one /16 prefix, used by the C5 witness. -/
def C5tree : RTree :=
  (ngx_radix32tree_insert (ngx_radix_tree_create 0) 0xC0A80000 0xFFFF0000 7).2

/-- Agreement of two masks along the descending bit chain
`bit, bit >> 1, ...` for `fuel` steps, up to and including the first clear
bit: exactly the part of a mask the radix-tree loops can observe. -/
def MaskSameDown (m1 m2 : Nat) : Nat → Nat → Prop
  | _bit, 0 => True
  | bit, fuel+1 =>
    (bit &&& m1 = 0 ↔ bit &&& m2 = 0) ∧
    (bit &&& m1 ≠ 0 → MaskSameDown m1 m2 (bit >>> 1) fuel)

/-- The first descent loop of `ngx_radix32tree_insert` in isolation: the
node on which the traversal of the mask-selected bits of `key` stops, or
`none` when the descent runs into a `NULL` child pointer with mask bits
remaining. -/
def probeGo (key mask : Nat) : Nat → Nat → RTree → Option RTree
  | _bit, _fuel, .nil => none
  | _bit, 0, t => some t
  | bit, fuel+1, .node r l v =>
    if bit &&& mask = 0 then some (.node r l v)
    else if key &&& bit ≠ 0 then probeGo key mask (bit >>> 1) fuel r
    else probeGo key mask (bit >>> 1) fuel l

/-- The node `ngx_radix32tree_insert` lands on when its first loop consumes
the whole mask (the C code's `next` being non-`NULL` after the loop). -/
def probe32 (t : RTree) (key mask : Nat) : Option RTree :=
  probeGo key mask (2 ^ 31) 33 t

/-- Overwrite the value of the node the insert traversal stops on, leaving
everything else unchanged: the effect of `node->value = value` in the
mask-exhausted branch of `ngx_radix32tree_insert`. -/
def setProbeGo (key mask value : Nat) : Nat → Nat → RTree → RTree
  | _bit, _fuel, .nil => .nil
  | _bit, 0, .node r l _v => .node r l value
  | bit, fuel+1, .node r l v =>
    if bit &&& mask = 0 then .node r l value
    else if key &&& bit ≠ 0 then .node (setProbeGo key mask value (bit >>> 1) fuel r) l v
    else .node r (setProbeGo key mask value (bit >>> 1) fuel l) v

/-- Top-level form of `setProbeGo`, matching `probe32`. -/
def setProbe32 (t : RTree) (key mask value : Nat) : RTree :=
  setProbeGo key mask value (2 ^ 31) 33 t

/-- The bits of `k` at positions `n-1` down to `0`, most significant first:
the directions a traversal guided by `k` takes (`true` = right). -/
def bitsDown (k : Nat) : Nat → List Bool
  | 0 => []
  | n+1 => k.testBit n :: bitsDown k n

/-- The value stored at the node reached from `t` by the given directions:
`none` if the node does not exist or carries `NGX_RADIX_NO_VALUE`. -/
def valueAtPath : RTree → List Bool → Option Nat
  | .nil, _ => none
  | .node _ _ v, [] => if v = NGX_RADIX_NO_VALUE then none else some v
  | .node r l _, b :: rest => valueAtPath (if b then r else l) rest

/-- A value as an optional payload: `NGX_RADIX_NO_VALUE` means absent. -/
def toOptVal (v : Nat) : Option Nat :=
  if v = NGX_RADIX_NO_VALUE then none else some v

/-- The hit of `f` on the longest prefix of `path`, preferring deeper
prefixes: what a root-to-leaf walk that remembers the last hit returns. -/
def deepestHit (f : List Bool → Option Nat) : List Bool → Option Nat
  | [] => f []
  | b :: rest => (deepestHit (fun q => f (b :: q)) rest).orElse fun _ => f []

/-- The tree position addressed by a CIDR prefix `(key, mask)`: the top
`maskLen mask` bits of `key`. -/
def pathOfPfx (k m : Nat) : List Bool := (bitsDown k 32).take (maskLen m)

/-- A radix-tree operation of claim C1. -/
inductive ROp where
  | ins (key mask value : Nat) : ROp
  | del (key mask : Nat) : ROp
deriving DecidableEq

/-- Run a sequence of operations on a tree; `none` as soon as a delete
dereferences the root's `NULL` parent. -/
def runOps : RTree → List ROp → Option RTree
  | t, [] => some t
  | t, .ins k m v :: rest => runOps (ngx_radix32tree_insert t k m v).2 rest
  | t, .del k m :: rest =>
    match ngx_radix32tree_delete t k m with
    | none => none
    | some r => runOps r.2 rest

/-- The reference store of claim C1: the list of prefixes inserted and not
subsequently deleted, with their values. -/
def storeStep (s : List (Nat × Nat × Nat)) : ROp → List (Nat × Nat × Nat)
  | .ins k m v => if ∃ e ∈ s, e.1 = k ∧ e.2.1 = m then s else (k, m, v) :: s
  | .del k m => s.filter fun e => !decide (e.1 = k ∧ e.2.1 = m)

/-- The reference store after a whole operation sequence. -/
def modelStore (ops : List ROp) : List (Nat × Nat × Nat) :=
  ops.foldl storeStep []

/-- Well-formedness of an operation sequence with respect to the evolving
store: keys are 32-bit canonical CIDR keys, masks are contiguous high-bit
runs, inserted values differ from `NGX_RADIX_NO_VALUE`, and an insert never
duplicates a currently stored prefix. -/
def OpsWF (s : List (Nat × Nat × Nat)) : List ROp → Prop
  | [] => True
  | .ins k m v :: rest =>
    k < 2 ^ 32 ∧ ContiguousMask m ∧ k &&& m = k ∧ v ≠ NGX_RADIX_NO_VALUE ∧
    (∀ e ∈ s, ¬(e.1 = k ∧ e.2.1 = m)) ∧ OpsWF (storeStep s (.ins k m v)) rest
  | .del k m :: rest =>
    k < 2 ^ 32 ∧ ContiguousMask m ∧ k &&& m = k ∧
    OpsWF (storeStep s (.del k m)) rest

/-- Decision procedure for `OpsWF`, so concrete sequences can be checked by
evaluation. -/
def OpsWF.dec (s : List (Nat × Nat × Nat)) : (ops : List ROp) → Decidable (OpsWF s ops)
  | [] => .isTrue trivial
  | .ins k m v :: rest =>
    have : Decidable (OpsWF (storeStep s (.ins k m v)) rest) :=
      OpsWF.dec (storeStep s (.ins k m v)) rest
    by unfold OpsWF; infer_instance
  | .del k m :: rest =>
    have : Decidable (OpsWF (storeStep s (.del k m)) rest) :=
      OpsWF.dec (storeStep s (.del k m)) rest
    by unfold OpsWF; infer_instance

instance (s : List (Nat × Nat × Nat)) (ops : List ROp) : Decidable (OpsWF s ops) :=
  OpsWF.dec s ops

/-- First-match lookup of a stored prefix by its tree position. -/
def lookupStore : List (Nat × Nat × Nat) → List Bool → Option Nat
  | [], _ => none
  | e :: rest, p => if pathOfPfx e.1 e.2.1 = p then some e.2.2 else lookupStore rest p

/-- The stored prefix matching `k` (`k & m = p`) with the most mask bits,
if any: the claim's longest-prefix winner. -/
def lpmBest (k : Nat) : List (Nat × Nat × Nat) → Option (Nat × Nat × Nat)
  | [] => none
  | e :: rest =>
    let b := lpmBest k rest
    if k &&& e.2.1 = e.1 then
      match b with
      | none => some e
      | some e2 => if maskLen e2.2.1 < maskLen e.2.1 then some e else some e2
    else b

/-- The value claim C1 specifies for `find`: the value of the longest
stored prefix matching `k`, or `NGX_RADIX_NO_VALUE`. -/
def lpmValue (s : List (Nat × Nat × Nat)) (k : Nat) : Nat :=
  match lpmBest k s with
  | none => NGX_RADIX_NO_VALUE
  | some e => e.2.2

/-- Result of the top-down reformulation of the delete walk used to reason
about the parent-pointer loop of `ngx_radix32tree_delete` within a subtree:
the target was not found (`NGX_ERROR`, tree untouched); the subtree was kept
with the target cleared or a leaf chain detached (`kept`); or the whole
subtree became removable and the detach cascade continues in the ancestors
above (`pruned`). -/
inductive DelRes where
  | notFound : DelRes
  | kept (t : RTree) : DelRes
  | pruned : DelRes
deriving DecidableEq

/-- Top-down counterpart of `delDescend` plus `deleteUp`, restricted to the
part of the cascade that stays inside the current subtree.  It is proved
equivalent to the zipper-based embedding of the C code
(`delDescend_delSpec`) and is only a proof device. -/
def delSpec (key mask : Nat) : Nat → Nat → RTree → DelRes
  | _bit, _fuel, .nil => .notFound
  | _bit, 0, .node r l v =>
    if r ≠ .nil ∨ l ≠ .nil then
      (if v ≠ NGX_RADIX_NO_VALUE then .kept (.node r l NGX_RADIX_NO_VALUE)
       else .notFound)
    else .pruned
  | bit, fuel+1, .node r l v =>
    if bit &&& mask = 0 then
      (if r ≠ .nil ∨ l ≠ .nil then
        (if v ≠ NGX_RADIX_NO_VALUE then .kept (.node r l NGX_RADIX_NO_VALUE)
         else .notFound)
       else .pruned)
    else if key &&& bit ≠ 0 then
      match delSpec key mask (bit >>> 1) fuel r with
      | .notFound => .notFound
      | .kept r2 => .kept (.node r2 l v)
      | .pruned =>
        if l = .nil ∧ v = NGX_RADIX_NO_VALUE then .pruned
        else .kept (.node .nil l v)
    else
      match delSpec key mask (bit >>> 1) fuel l with
      | .notFound => .notFound
      | .kept l2 => .kept (.node r l2 v)
      | .pruned =>
        if r = .nil ∧ v = NGX_RADIX_NO_VALUE then .pruned
        else .kept (.node r .nil v)

/-- The tail of `ngx_radix32tree_delete` after the descent, parameterized by
the tree returned on the `NGX_ERROR` paths. -/
def delFinish (t0 : RTree) : DelOutcome → Option (Int × RTree)
  | .notFound => some (NGX_ERROR, t0)
  | .found .nil _path => some (NGX_ERROR, t0)
  | .found (.node r l v) path =>
    if r ≠ .nil ∨ l ≠ .nil then
      if v ≠ NGX_RADIX_NO_VALUE then
        some (NGX_OK, rebuild (.node r l NGX_RADIX_NO_VALUE) path)
      else some (NGX_ERROR, t0)
    else
      match deleteUp path with
      | none => none
      | some t2 => some (NGX_OK, t2)

/-- Well-formedness of the reference store's entries: 32-bit canonical keys,
contiguous masks, values different from `NGX_RADIX_NO_VALUE`. -/
def StoreWF (s : List (Nat × Nat × Nat)) : Prop :=
  ∀ e ∈ s, e.1 < 2 ^ 32 ∧ ContiguousMask e.2.1 ∧ e.1 &&& e.2.1 = e.1 ∧
    e.2.2 ≠ NGX_RADIX_NO_VALUE

/-- No two store entries address the same tree position. -/
def StoreUniq (s : List (Nat × Nat × Nat)) : Prop :=
  s.Pairwise (fun a b => pathOfPfx a.1 a.2.1 ≠ pathOfPfx b.1 b.2.1)

/-- The simulation invariant of claim C1: the value the tree carries at every
position is the value the reference store holds for that position. -/
def TreeInv (s : List (Nat × Nat × Nat)) (t : RTree) : Prop :=
  ∀ q, valueAtPath t q = lookupStore s q

/-- The operation sequence of the C1 witness: two nested prefixes. -/
def C1ops : List ROp :=
  [.ins 0xC0000000 0xFF000000 1, .ins 0xC0A80000 0xFFFF0000 2]

/-- The operation sequence of the C1 counterexample: insert the zero-mask
prefix at the root, then delete it while the root is childless. -/
def C1crashOps : List ROp := [.ins 0 0 5, .del 0 0]

/-!
Theorems.
-/

/-- Claim C9: delete with an all-zero mask on a tree whose root has no
children takes the leaf-detach branch with the root as target and
dereferences the root's NULL parent. -/
theorem C9_delete_zero_mask_childless_root_faults (v key : Nat) :
    ngx_radix32tree_delete (.node .nil .nil v) key 0 = none := by
  simp [ngx_radix32tree_delete, delDescend, deleteUp]

theorem pfreeScan_none_iff (p : Nat) (L : List (Option Nat)) :
    pfreeScan p L = none ↔ some p ∉ L := by
  induction L with
  | nil => simp [pfreeScan]
  | cons e rest ih =>
    by_cases he : e = some p
    · simp [pfreeScan, he]
    · simp [pfreeScan, he, ih, Ne.symm he]

theorem pfreeScan_some_spec (p : Nat) (L M : List (Option Nat))
    (h : pfreeScan p L = some M) :
    ∃ i, L[i]? = some (some p) ∧ (∀ j, j < i → L[j]? ≠ some (some p)) ∧
      M = L.set i none := by
  induction L generalizing M with
  | nil => simp [pfreeScan] at h
  | cons e rest ih =>
    by_cases he : e = some p
    · refine ⟨0, ?_, ?_, ?_⟩
      · simp [he]
      · intro j hj; omega
      · simp [pfreeScan, he] at h; simp [← h]
    · simp only [pfreeScan, if_neg he] at h
      match hres : pfreeScan p rest with
      | none => rw [hres] at h; simp at h
      | some M2 =>
        rw [hres] at h
        simp at h
        obtain ⟨i, h1, h2, h3⟩ := ih M2 hres
        refine ⟨i + 1, by simpa using h1, ?_, ?_⟩
        · intro j hj
          cases j with
          | zero => simpa using he
          | succ j2 => simp; exact h2 j2 (by omega)
        · rw [← h, h3]; simp

/-- Claim C7: `ngx_pfree` succeeds and tombstones the matching large entry
exactly when some large entry holds the pointer; any other pointer — in
particular a chunk-carved small pointer — gets NGX_DECLINED with the pool
unchanged. -/
theorem C7_pfree_exact (pool : NgxPool) (p : Nat) :
    ((ngx_pfree pool (.large p)).1 = NGX_OK ↔ some p ∈ pool.large) ∧
    (some p ∉ pool.large → ngx_pfree pool (.large p) = (NGX_DECLINED, pool)) ∧
    (some p ∈ pool.large →
      ∃ i, pool.large[i]? = some (some p) ∧
        (∀ j, j < i → pool.large[j]? ≠ some (some p)) ∧
        ngx_pfree pool (.large p) =
          (NGX_OK, { pool with large := pool.large.set i none })) ∧
    (∀ chunk off, ngx_pfree pool (.small chunk off) = (NGX_DECLINED, pool)) := by
  have hnone := pfreeScan_none_iff p pool.large
  refine ⟨?_, ?_, ?_, ?_⟩
  · constructor
    · intro h
      by_contra hmem
      have : pfreeScan p pool.large = none := hnone.mpr hmem
      simp [ngx_pfree, this, NGX_OK, NGX_DECLINED] at h
    · intro hmem
      match hres : pfreeScan p pool.large with
      | none => exact absurd (hnone.mp hres) (by simpa using hmem)
      | some M => simp [ngx_pfree, hres]
  · intro hmem
    have : pfreeScan p pool.large = none := hnone.mpr hmem
    simp [ngx_pfree, this]
  · intro hmem
    match hres : pfreeScan p pool.large with
    | none => exact absurd (hnone.mp hres) (by simpa using hmem)
    | some M =>
      obtain ⟨i, h1, h2, h3⟩ := pfreeScan_some_spec p pool.large M hres
      exact ⟨i, h1, h2, by simp [ngx_pfree, hres, h3]⟩
  · intro chunk off
    simp [ngx_pfree]

/-- Witness for C7 at a concrete pool: freeing a tracked large pointer
succeeds and tombstones its entry. -/
theorem C7_pfree_exact_witness :
    ∃ i, C7pool.large[i]? = some (some 7) ∧
      (∀ j, j < i → C7pool.large[j]? ≠ some (some 7)) ∧
      ngx_pfree C7pool (.large 7) =
        (NGX_OK, { C7pool with large := C7pool.large.set i none }) :=
  (C7_pfree_exact C7pool 7).2.2.1 (by decide)

/-- Counterexample to claim C4: on a reachable two-chunk pool,
`ngx_reset_pool` resets the second chunk's `last` to
`sizeof(ngx_pool_t)` = 80, not to the aligned `sizeof(ngx_pool_data_t)`
= 32 that its bump region actually starts at (and that the claim
asserts). -/
theorem C4_counterexample :
    (C4pool.map fun q => ((ngx_reset_pool q).2.chunks.map fun c => c.last)) =
      some [sizeof_ngx_pool_t, sizeof_ngx_pool_t] ∧
    sizeof_ngx_pool_t ≠ ngx_align_ptr sizeof_ngx_pool_data_t NGX_ALIGNMENT := by
  constructor
  · decide
  · decide

/-- Claim C4 as amended: after reset, every non-null large allocation has
been freed and the list head cleared, every chunk's `failed` is zero and its
`last` points just past the full pool handle — for every chunk in the chain,
not only the first — `current` points to the first chunk, and the cleanup
stack is unchanged. -/
theorem C4_amended_reset_state (pool : NgxPool) :
    (ngx_reset_pool pool).1 = pool.large.filterMap id ∧
    (ngx_reset_pool pool).2.large = [] ∧
    (ngx_reset_pool pool).2.current = 0 ∧
    (ngx_reset_pool pool).2.chain = none ∧
    (ngx_reset_pool pool).2.cleanup = pool.cleanup ∧
    (∀ i : Nat, (ngx_reset_pool pool).2.chunks[i]? =
      (pool.chunks[i]?).map fun c =>
        ({ c with last := sizeof_ngx_pool_t, failed := 0 } : PoolChunk)) := by
  refine ⟨rfl, rfl, rfl, rfl, rfl, ?_⟩
  intro i
  simp [ngx_reset_pool]

theorem blockWalk_length (i : Nat) (S : List PoolChunk) :
    (blockWalk i S).1.length = S.length := by
  induction S generalizing i with
  | nil => rfl
  | cons c S2 ih =>
    cases S2 with
    | nil => rfl
    | cons c2 rest => simpa [blockWalk] using ih (i + 1)

theorem blockWalk_fst (i : Nat) (S : List PoolChunk) (j : Nat) :
    ((blockWalk i S).1)[j]? = (S[j]?).map fun c =>
      if j + 1 < S.length then ({ c with failed := c.failed + 1 } : PoolChunk) else c := by
  induction S generalizing i j with
  | nil => simp [blockWalk]
  | cons c S2 ih =>
    cases S2 with
    | nil =>
      cases j with
      | zero => simp [blockWalk]
      | succ j2 => simp [blockWalk]
    | cons c2 rest =>
      cases j with
      | zero => simp [blockWalk]
      | succ j2 =>
        have := ih (i + 1) j2
        simpa [blockWalk] using this

theorem blockWalk_snd_spec (S : List PoolChunk) (i : Nat) :
    ((blockWalk i S).2 = none ∧ ∀ k, k + 1 < S.length → failedAtD S k ≤ 4) ∨
    (∃ k, k + 1 < S.length ∧ 4 < failedAtD S k ∧ (blockWalk i S).2 = some (i + k + 1) ∧
      ∀ k2, k < k2 → k2 + 1 < S.length → failedAtD S k2 ≤ 4) := by
  induction S generalizing i with
  | nil => left; exact ⟨rfl, by intro k hk; simp at hk⟩
  | cons c S2 ih =>
    cases S2 with
    | nil =>
      left
      refine ⟨rfl, ?_⟩
      intro k hk
      simp at hk
    | cons c2 rest =>
      have hAt0 : failedAtD (c :: c2 :: rest) 0 = c.failed := by simp [failedAtD]
      have hAtS : ∀ k : Nat, failedAtD (c :: c2 :: rest) (k + 1) = failedAtD (c2 :: rest) k := by
        intro k; simp [failedAtD]
      rcases ih (i + 1) with ⟨hnone, hall⟩ | ⟨k, hk1, hk2, hk3, hk4⟩
      · by_cases hc : 4 < c.failed
        · right
          refine ⟨0, by simp, by simpa [hAt0], ?_, ?_⟩
          · simp [blockWalk, hnone, hc]
          · intro k2 hk2 hlen
            obtain ⟨k3, rfl⟩ : ∃ k3, k2 = k3 + 1 := ⟨k2 - 1, by omega⟩
            rw [hAtS]
            exact hall k3 (by simpa using hlen)
        · left
          constructor
          · simp [blockWalk, hnone, hc]
          · intro k hlen
            cases k with
            | zero => rw [hAt0]; omega
            | succ k3 => rw [hAtS]; exact hall k3 (by simpa using hlen)
      · right
        refine ⟨k + 1, by simpa using hk1, by rwa [hAtS], ?_, ?_⟩
        · have heq : (blockWalk i (c :: c2 :: rest)).2 =
              ((blockWalk (i + 1) (c2 :: rest)).2 <|>
                (if c.failed > 4 then some (i + 1) else none)) := by simp [blockWalk]
          rw [heq, hk3]
          simp only [Option.some_orElse, Option.some.injEq]
          omega
        · intro k2 hgt hlen
          obtain ⟨k3, rfl⟩ : ∃ k3, k2 = k3 + 1 := ⟨k2 - 1, by omega⟩
          rw [hAtS]
          exact hk4 k3 (by omega) (by simpa using hlen)

/-- Counterexample to claim C2: on the reachable pool `C2pool` the first
chunk's `failed` counter is 4, so the next grow is its 5th failure; the
claim then demands that `current` advance past it (to index 1), but the C
test `p->d.failed++ > 4` compares the pre-increment value (4 > 4 is false),
so `current` stays at the first chunk, and the last chunk of the chain is
not incremented at all (its counter stays 0 although it is visited). -/
theorem C2_counterexample :
    (C2pool.map fun q => q.chunks.map fun c => c.failed) = some [4, 3, 2, 1, 0, 0] ∧
    (C2pool.map fun q => q.current) = some 0 ∧
    ((C2pool.bind fun q => ngx_palloc q 80).map fun r => r.1.chunks.map fun c => c.failed) =
      some [5, 4, 3, 2, 1, 0, 0] ∧
    ((C2pool.bind fun q => ngx_palloc q 80).map fun r => r.1.current) = some 0 ∧
    ((C2pool.bind fun q => ngx_palloc q 80).map fun r => r.1.current) ≠ some 1 := by
  refine ⟨by decide, by decide, by decide, by decide, by decide⟩

/-- Claim C2 as amended: the grow walks from `current`, post-incrementing
the `failed` counter of every chunk that still has a successor (the final
chunk of the chain ends the loop unincremented), and moves `current` to the
chunk after the last walked chunk whose pre-increment `failed` counter
exceeds 4 — i.e. `current` advances past a chunk on that chunk's
6th-or-later failure; if no walked chunk qualifies, `current` is
unchanged. -/
theorem C2_amended_grow_walk (pool : NgxPool) (size : Nat)
    (hcur : pool.current < pool.chunks.length) :
    (∀ j : Nat, j < pool.chunks.length →
      ((ngx_palloc_block pool size).1.chunks)[j]? = (pool.chunks[j]?).map fun c =>
        if pool.current ≤ j ∧ j + 1 < pool.chunks.length then
          ({ c with failed := c.failed + 1 } : PoolChunk) else c) ∧
    (ngx_palloc_block pool size).1.chunks.length = pool.chunks.length + 1 ∧
    ((ngx_palloc_block pool size).1.chunks)[pool.chunks.length]? =
      some { last := ngx_align_ptr sizeof_ngx_pool_data_t NGX_ALIGNMENT + size,
             end_ := pool.chunks.head?.elim 0 fun c => c.end_, failed := 0 } ∧
    (((ngx_palloc_block pool size).1.current = pool.current ∧
        ∀ k, pool.current ≤ k → k + 1 < pool.chunks.length →
          failedAtD pool.chunks k ≤ 4) ∨
      (∃ k, pool.current ≤ k ∧ k + 1 < pool.chunks.length ∧
        4 < failedAtD pool.chunks k ∧
        (ngx_palloc_block pool size).1.current = k + 1 ∧
        ∀ k2, k < k2 → k2 + 1 < pool.chunks.length →
          failedAtD pool.chunks k2 ≤ 4)) := by
  have hlen : (pool.chunks.take pool.current).length = pool.current := by
    simp [List.length_take]
    omega
  have hdroplen : (pool.chunks.drop pool.current).length =
      pool.chunks.length - pool.current := by simp
  have hwalklen : (blockWalk pool.current (pool.chunks.drop pool.current)).1.length =
      pool.chunks.length - pool.current := by
    rw [blockWalk_length, hdroplen]
  have hdropAt : ∀ k : Nat, (pool.chunks.drop pool.current)[k]? =
      pool.chunks[pool.current + k]? := by
    intro k
    rw [List.getElem?_drop]
  have hfailedAt : ∀ k : Nat, failedAtD (pool.chunks.drop pool.current) k =
      failedAtD pool.chunks (pool.current + k) := by
    intro k
    simp [failedAtD, hdropAt]
  refine ⟨?_, ?_, ?_, ?_⟩
  · intro j hj
    show ((pool.chunks.take pool.current ++
      (blockWalk pool.current (pool.chunks.drop pool.current)).1 ++ _))[j]? = _
    rw [List.getElem?_append]
    rw [if_pos (by simp [hlen, hwalklen]; omega)]
    rw [List.getElem?_append]
    by_cases hjc : j < pool.current
    · rw [if_pos (by omega)]
      rw [List.getElem?_take_of_lt hjc]
      have hno : ¬ (pool.current ≤ j ∧ j + 1 < pool.chunks.length) := by omega
      simp [if_neg hno]
    · rw [if_neg (by omega)]
      rw [hlen, blockWalk_fst, hdropAt, hdroplen]
      have hj2 : pool.current + (j - pool.current) = j := by omega
      rw [hj2]
      by_cases hlast : j + 1 < pool.chunks.length
      · have h1 : j - pool.current + 1 < pool.chunks.length - pool.current := by omega
        have h2 : pool.current ≤ j ∧ j + 1 < pool.chunks.length := ⟨by omega, hlast⟩
        simp only [if_pos h1, if_pos h2]
      · have h1 : ¬ (j - pool.current + 1 < pool.chunks.length - pool.current) := by omega
        have h2 : ¬ (pool.current ≤ j ∧ j + 1 < pool.chunks.length) := by omega
        simp only [if_neg h1, if_neg h2]
  · show (pool.chunks.take pool.current ++
      (blockWalk pool.current (pool.chunks.drop pool.current)).1 ++ [_]).length = _
    rw [List.length_append, List.length_append, hlen, hwalklen]
    simp
    omega
  · show ((pool.chunks.take pool.current ++
      (blockWalk pool.current (pool.chunks.drop pool.current)).1 ++ [_]))[pool.chunks.length]? = _
    rw [List.getElem?_append]
    rw [if_neg (by rw [List.length_append, hlen, hwalklen]; omega)]
    rw [List.length_append, hlen, hwalklen]
    have hidx : pool.chunks.length - (pool.current + (pool.chunks.length - pool.current)) = 0 := by
      omega
    rw [hidx]
    rfl
  · rcases blockWalk_snd_spec (pool.chunks.drop pool.current) pool.current with
      ⟨hnone, hall⟩ | ⟨k, hk1, hk2, hk3, hk4⟩
    · left
      constructor
      · show (blockWalk pool.current (pool.chunks.drop pool.current)).2.getD pool.current = _
        rw [hnone]; rfl
      · intro k hk hlen2
        have hres := hall (k - pool.current) (by omega)
        rw [hfailedAt] at hres
        have hk2 : pool.current + (k - pool.current) = k := by omega
        rwa [hk2] at hres
    · right
      refine ⟨pool.current + k, by omega, by rw [hdroplen] at hk1; omega, ?_, ?_, ?_⟩
      · rw [← hfailedAt]; exact hk2
      · show (blockWalk pool.current (pool.chunks.drop pool.current)).2.getD pool.current = _
        rw [hk3]; rfl
      · intro k2 hgt hlen2
        have hres := hk4 (k2 - pool.current) (by omega) (by rw [hdroplen]; omega)
        rw [hfailedAt] at hres
        have hk5 : pool.current + (k2 - pool.current) = k2 := by omega
        rwa [hk5] at hres

/-- Witness for the amended C2 on the concrete pool `C2wpool` (first chunk
with `failed = 7`): the grow increments the walked chunk. -/
theorem C2_amended_grow_walk_witness :
    ((ngx_palloc_block C2wpool 80).1.chunks)[0]? =
      some { last := 160, end_ := 160, failed := 8 } := by
  have h := (C2_amended_grow_walk C2wpool 80 (by decide)).1 0 (by decide)
  rw [h]
  decide

theorem setLargeAt_eq_set (L : List (Option Nat)) : ∀ i p, setLargeAt L i p = L.set i (some p) := by
  induction L with
  | nil => intro i p; cases i <;> rfl
  | cons e rest ih =>
    intro i p
    cases i with
    | zero => rfl
    | succ i2 => simp [setLargeAt, List.set, ih]

theorem largeScan_eq_some (L : List (Option Nat)) : ∀ n i,
    (largeScan L n = some i ↔
      i ≤ 4 - n ∧ L[i]? = some none ∧ ∀ j, j < i → L[j]? ≠ some none) := by
  induction L with
  | nil =>
    intro n i
    simp [largeScan]
  | cons e rest ih =>
    intro n i
    by_cases he : e = none
    · subst he
      constructor
      · intro h
        simp [largeScan] at h
        subst h
        exact ⟨Nat.zero_le _, by simp, by intro j hj; omega⟩
      · rintro ⟨h1, h2, h3⟩
        cases i with
        | zero => simp [largeScan]
        | succ i2 =>
          exact absurd (show ((none : Option Nat) :: rest)[0]? = some none by simp)
            (h3 0 (by omega))
    · by_cases hn : n > 3
      · constructor
        · intro h
          simp [largeScan, he, hn] at h
        · rintro ⟨h1, h2, h3⟩
          have hi : i = 0 := by omega
          subst hi
          simp [he] at h2
      · constructor
        · intro h
          simp only [largeScan, if_neg (by simpa using he), if_neg hn] at h
          match hres : largeScan rest (n + 1) with
          | none => rw [hres] at h; simp at h
          | some i2 =>
            rw [hres] at h
            simp at h
            obtain ⟨h1, h2, h3⟩ := (ih (n + 1) i2).mp hres
            subst h
            refine ⟨by omega, by simpa using h2, ?_⟩
            intro j hj
            cases j with
            | zero => simpa using he
            | succ j2 => simpa using h3 j2 (by omega)
        · rintro ⟨h1, h2, h3⟩
          cases i with
          | zero => simp [he] at h2
          | succ i2 =>
            simp only [largeScan, if_neg (by simpa using he), if_neg hn]
            have : largeScan rest (n + 1) = some i2 := by
              refine (ih (n + 1) i2).mpr ⟨by omega, by simpa using h2, ?_⟩
              intro j hj
              simpa using h3 (j + 1) (by omega)
            rw [this]
            rfl

theorem largeScan_eq_none (L : List (Option Nat)) : ∀ n,
    (largeScan L n = none ↔ ∀ i, i ≤ 4 - n → L[i]? ≠ some none) := by
  induction L with
  | nil =>
    intro n
    simp [largeScan]
  | cons e rest ih =>
    intro n
    by_cases he : e = none
    · subst he
      simp only [largeScan, if_pos rfl]
      constructor
      · intro h; simp at h
      · intro h
        exact absurd (show ((none : Option Nat) :: rest)[0]? = some none by simp)
          (h 0 (by omega))
    · by_cases hn : n > 3
      · simp only [largeScan, if_neg (by simpa using he), if_pos hn]
        constructor
        · intro _ i hi
          have : i = 0 := by omega
          subst this
          simpa using he
        · intro _; trivial
      · simp only [largeScan, if_neg (by simpa using he), if_neg hn]
        constructor
        · intro h i hi
          have hrest : largeScan rest (n + 1) = none := by
            match hres : largeScan rest (n + 1) with
            | none => rfl
            | some i2 => rw [hres] at h; simp at h
          cases i with
          | zero => simpa using he
          | succ i2 =>
            have := (ih (n + 1)).mp hrest i2 (by omega)
            simpa using this
        · intro h
          have hrest : largeScan rest (n + 1) = none := by
            refine (ih (n + 1)).mpr ?_
            intro i hi
            have := h (i + 1) (by omega)
            simpa using this
          rw [hrest]
          rfl

/-- Counterexample to claim C3: on the reachable pool `C3pool` the large
list is four live entries followed by a tombstone in position 5 (index 4).
The claim says at most the first 4 entries are inspected, so this tombstone
should not be found and a fresh entry should be pushed at the head (making
6 entries); but the `n++ > 3` post-increment lets `ngx_palloc_large`
inspect a fifth entry, so the code installs the new pointer in the
tombstone and the list keeps 5 entries. -/
theorem C3_counterexample :
    (C3pool.map fun q => q.large) = some [some 4, some 3, some 2, some 1, none] ∧
    ((C3pool.bind fun q => ngx_palloc q 100).map fun r => r.1.large) =
      some [some 4, some 3, some 2, some 1, some 5] ∧
    ((C3pool.bind fun q => ngx_palloc q 100).map fun r => r.1.large.length) ≠ some 6 := by
  refine ⟨by decide, by decide, by decide⟩

/-- Claim C3 as amended: a large allocation inspects at most the first five
entries of the large list (the `n++ > 3` break fires after the fifth
inspection); the first tombstone among them, if any, receives the new
pointer and no entry is created; otherwise a fresh entry is allocated from
the small path, its `alloc` set, and it is pushed at the head. -/
theorem ngx_palloc_core_succ (fuel : Nat) (pool : NgxPool) (size : Nat) (af : Bool) :
    ngx_palloc_core (fuel+1) pool size af =
      if size ≤ pool.max then some (ngx_palloc_small pool size af)
      else ngx_palloc_large_core (fun p s => ngx_palloc_core fuel p s true) pool size := rfl

theorem ngx_palloc_large_core_eq (palloc : NgxPool → Nat → Option (NgxPool × PPtr))
    (pool : NgxPool) (size : Nat) :
    ngx_palloc_large_core palloc pool size =
      match largeScan pool.large 0 with
      | some i =>
        some ({ pool with nextPtr := pool.nextPtr + 1,
                          large := setLargeAt pool.large i pool.nextPtr },
              .large pool.nextPtr)
      | none =>
        match palloc { pool with nextPtr := pool.nextPtr + 1 } sizeof_ngx_pool_large_t with
        | none => none
        | some (pool2, _entryPtr) =>
          some ({ pool2 with large := some pool.nextPtr :: pool2.large },
                .large pool.nextPtr) := rfl

theorem C3_amended_large_alloc (pool : NgxPool) (size : Nat)
    (hbig : pool.max < size) (hent : sizeof_ngx_pool_large_t ≤ pool.max) :
    (∀ i : Nat, i ≤ 4 → pool.large[i]? = some none →
      (∀ j, j < i → pool.large[j]? ≠ some none) →
      ngx_palloc pool size =
        some ({ pool with nextPtr := pool.nextPtr + 1,
                          large := pool.large.set i (some pool.nextPtr) },
              .large pool.nextPtr)) ∧
    ((∀ i : Nat, i ≤ 4 → pool.large[i]? ≠ some none) →
      ngx_palloc pool size =
        some ({ (ngx_palloc_small { pool with nextPtr := pool.nextPtr + 1 }
                  sizeof_ngx_pool_large_t true).1 with
                large := some pool.nextPtr ::
                  (ngx_palloc_small { pool with nextPtr := pool.nextPtr + 1 }
                    sizeof_ngx_pool_large_t true).1.large },
              .large pool.nextPtr)) := by
  have hstep : ngx_palloc pool size =
      ngx_palloc_large_core (fun p s => ngx_palloc_core 1 p s true) pool size := by
    show ngx_palloc_core 2 pool size true = _
    rw [ngx_palloc_core_succ, if_neg (by omega)]
  constructor
  · intro i hi h1 h2
    have hscan : largeScan pool.large 0 = some i :=
      (largeScan_eq_some pool.large 0 i).mpr ⟨by omega, h1, h2⟩
    rw [hstep, ngx_palloc_large_core_eq]
    simp only [hscan, setLargeAt_eq_set]
  · intro hall
    have hscan : largeScan pool.large 0 = none :=
      (largeScan_eq_none pool.large 0).mpr (by simpa using hall)
    have hinner : ngx_palloc_core 1 { pool with nextPtr := pool.nextPtr + 1 }
        sizeof_ngx_pool_large_t true =
        some (ngx_palloc_small { pool with nextPtr := pool.nextPtr + 1 }
          sizeof_ngx_pool_large_t true) := by
      rw [ngx_palloc_core_succ, if_pos hent]
    rw [hstep, ngx_palloc_large_core_eq]
    simp only [hscan, hinner]

/-- Witness for the amended C3 on the concrete pool `C3wpool` (no
tombstones): the large allocation pushes a fresh entry at the head. -/
theorem C3_amended_large_alloc_witness :
    ngx_palloc C3wpool 100 =
      some ({ (ngx_palloc_small { C3wpool with nextPtr := C3wpool.nextPtr + 1 }
                sizeof_ngx_pool_large_t true).1 with
              large := some C3wpool.nextPtr ::
                (ngx_palloc_small { C3wpool with nextPtr := C3wpool.nextPtr + 1 }
                  sizeof_ngx_pool_large_t true).1.large },
            .large C3wpool.nextPtr) :=
  (C3_amended_large_alloc C3wpool 100 (by decide) (by decide)).2 (by decide)

theorem ngx_palloc_small_cleanup (pool : NgxPool) (size : Nat) (af : Bool) :
    (ngx_palloc_small pool size af).1.cleanup = pool.cleanup := by
  unfold ngx_palloc_small
  cases smallScan size af pool.current (pool.chunks.drop pool.current) <;>
    simp [ngx_palloc_block]

theorem ngx_palloc_small_max (pool : NgxPool) (size : Nat) (af : Bool) :
    (ngx_palloc_small pool size af).1.max = pool.max := by
  unfold ngx_palloc_small
  cases smallScan size af pool.current (pool.chunks.drop pool.current) <;>
    simp [ngx_palloc_block]

theorem ngx_palloc_small_large (pool : NgxPool) (size : Nat) (af : Bool) :
    (ngx_palloc_small pool size af).1.large = pool.large := by
  unfold ngx_palloc_small
  cases smallScan size af pool.current (pool.chunks.drop pool.current) <;>
    simp [ngx_palloc_block]

/-- Registering a size-0 cleanup on a pool whose `max` admits the
`ngx_pool_cleanup_t` allocation pushes a handler-less entry on the cleanup
stack and leaves `max`, the large list and the earlier cleanups intact. -/
theorem cleanup_add_zero_spec (pool : NgxPool)
    (h24 : sizeof_ngx_pool_cleanup_t ≤ pool.max) :
    ∃ pool1 : NgxPool, ngx_pool_cleanup_add pool 0 = some pool1 ∧
      pool1.cleanup = ⟨none, none⟩ :: pool.cleanup ∧
      pool1.max = pool.max ∧ pool1.large = pool.large := by
  have hp : ngx_palloc pool sizeof_ngx_pool_cleanup_t =
      some (ngx_palloc_small pool sizeof_ngx_pool_cleanup_t true) := by
    show ngx_palloc_core 2 pool sizeof_ngx_pool_cleanup_t true = _
    rw [ngx_palloc_core_succ, if_pos h24]
  refine ⟨{ (ngx_palloc_small pool sizeof_ngx_pool_cleanup_t true).1 with
      cleanup := ⟨none, none⟩ ::
        (ngx_palloc_small pool sizeof_ngx_pool_cleanup_t true).1.cleanup },
    ?_, ?_, ?_, ?_⟩
  · unfold ngx_pool_cleanup_add
    rw [hp]
    rfl
  · simp [ngx_palloc_small_cleanup]
  · simp [ngx_palloc_small_max]
  · simp [ngx_palloc_small_large]

theorem installHandler_max (pool : NgxPool) (h : Nat) :
    (installHandler pool h).max = pool.max := rfl

theorem installHandler_large (pool : NgxPool) (h : Nat) :
    (installHandler pool h).large = pool.large := rfl

theorem installHandler_cleanup_cons (pool : NgxPool) (h : Nat) (e : CleanupEntry)
    (rest : List CleanupEntry) (hc : pool.cleanup = e :: rest) :
    (installHandler pool h).cleanup = { e with handler := some h } :: rest := by
  show (match pool.cleanup with
    | [] => ([] : List CleanupEntry)
    | e :: rest => { e with handler := some h } :: rest) = _
  rw [hc]

/-- Claim C6: registering cleanups H1, H2, H3 in that order and destroying
the pool invokes H3, then H2, then H1 (then any previously registered
handlers), strictly before the large-allocation frees and the chunk
frees. -/
theorem C6_destroy_cleanup_order (pool : NgxPool) (H1 H2 H3 : Nat)
    (h24 : sizeof_ngx_pool_cleanup_t ≤ pool.max) :
    ∃ p1 p2 p3 : NgxPool,
      (ngx_pool_cleanup_add pool 0).map (installHandler · H1) = some p1 ∧
      (ngx_pool_cleanup_add p1 0).map (installHandler · H2) = some p2 ∧
      (ngx_pool_cleanup_add p2 0).map (installHandler · H3) = some p3 ∧
      p3.large = pool.large ∧
      ngx_destroy_pool p3 =
        [DEvent.cleanup H3 none, DEvent.cleanup H2 none, DEvent.cleanup H1 none] ++
        pool.cleanup.filterMap (fun c => c.handler.map fun h => DEvent.cleanup h c.data) ++
        pool.large.filterMap (fun a => a.map DEvent.freeLarge) ++
        (List.range p3.chunks.length).map DEvent.freeChunk := by
  obtain ⟨q1, hq1, hc1, hm1, hl1⟩ := cleanup_add_zero_spec pool h24
  obtain ⟨q2, hq2, hc2, hm2, hl2⟩ :=
    cleanup_add_zero_spec (installHandler q1 H1) (by rw [installHandler_max, hm1]; exact h24)
  obtain ⟨q3, hq3, hc3, hm3, hl3⟩ :=
    cleanup_add_zero_spec (installHandler q2 H2)
      (by rw [installHandler_max, hm2, installHandler_max, hm1]; exact h24)
  have hi1 : (installHandler q1 H1).cleanup = ⟨some H1, none⟩ :: pool.cleanup :=
    installHandler_cleanup_cons q1 H1 _ _ hc1
  have hi2 : (installHandler q2 H2).cleanup =
      ⟨some H2, none⟩ :: ⟨some H1, none⟩ :: pool.cleanup := by
    have := installHandler_cleanup_cons q2 H2 _ _ hc2
    rw [this, hi1]
  have hi3 : (installHandler q3 H3).cleanup =
      ⟨some H3, none⟩ :: ⟨some H2, none⟩ :: ⟨some H1, none⟩ :: pool.cleanup := by
    have := installHandler_cleanup_cons q3 H3 _ _ hc3
    rw [this, hi2]
  have hlrg : (installHandler q3 H3).large = pool.large := by
    rw [installHandler_large, hl3, installHandler_large, hl2, installHandler_large, hl1]
  refine ⟨installHandler q1 H1, installHandler q2 H2, installHandler q3 H3,
    by rw [hq1]; rfl, by rw [hq2]; rfl, by rw [hq3]; rfl, hlrg, ?_⟩
  unfold ngx_destroy_pool
  rw [hi3, hlrg]
  simp [List.filterMap_cons]

/-- Witness for C6 on a freshly created pool with handlers 1, 2, 3. -/
theorem C6_destroy_cleanup_order_witness :
    ∃ p1 p2 p3 : NgxPool,
      (ngx_pool_cleanup_add (ngx_create_pool 200) 0).map (installHandler · 1) = some p1 ∧
      (ngx_pool_cleanup_add p1 0).map (installHandler · 2) = some p2 ∧
      (ngx_pool_cleanup_add p2 0).map (installHandler · 3) = some p3 ∧
      p3.large = (ngx_create_pool 200).large ∧
      ngx_destroy_pool p3 =
        [DEvent.cleanup 3 none, DEvent.cleanup 2 none, DEvent.cleanup 1 none] ++
        (ngx_create_pool 200).cleanup.filterMap
          (fun c => c.handler.map fun h => DEvent.cleanup h c.data) ++
        (ngx_create_pool 200).large.filterMap (fun a => a.map DEvent.freeLarge) ++
        (List.range p3.chunks.length).map DEvent.freeChunk :=
  C6_destroy_cleanup_order (ngx_create_pool 200) 1 2 3 (by decide)

theorem ok_ne_busy : NGX_OK ≠ NGX_BUSY := by decide

theorem err_ne_busy : NGX_ERROR ≠ NGX_BUSY := by decide

theorem insert_busy_iff (k m v : Nat) : ∀ fuel bit t,
    ((insertGo k m v bit fuel t).1 = NGX_BUSY ↔
      ∃ r l v0, probeGo k m bit fuel t = some (.node r l v0) ∧
        v0 ≠ NGX_RADIX_NO_VALUE) := by
  intro fuel
  induction fuel with
  | zero =>
    intro bit t
    cases t with
    | nil => simp [insertGo, probeGo, err_ne_busy]
    | node r l v0 =>
      by_cases hv : v0 = NGX_RADIX_NO_VALUE
      · simp [insertGo, probeGo, hv, ok_ne_busy]
      · simp [insertGo, probeGo, hv]
        exact ⟨r, l, v0, ⟨rfl, rfl, rfl⟩, hv⟩
  | succ fuel ih =>
    intro bit t
    cases t with
    | nil => simp [insertGo, probeGo, err_ne_busy]
    | node r l v0 =>
      by_cases hm : bit &&& m = 0
      · by_cases hv : v0 = NGX_RADIX_NO_VALUE
        · simp [insertGo, probeGo, hm, hv, ok_ne_busy]
        · simp [insertGo, probeGo, hm, hv]
          exact ⟨r, l, v0, ⟨rfl, rfl, rfl⟩, hv⟩
      · by_cases hk : k &&& bit ≠ 0
        · cases r with
          | nil => simp [insertGo, probeGo, hm, hk, ok_ne_busy]
          | node r2 l2 v2 =>
            simpa [insertGo, probeGo, hm, hk] using ih (bit >>> 1) (.node r2 l2 v2)
        · cases l with
          | nil => simp [insertGo, probeGo, hm, hk, ok_ne_busy]
          | node r2 l2 v2 =>
            simpa [insertGo, probeGo, hm, hk] using ih (bit >>> 1) (.node r2 l2 v2)

theorem insert_busy_unchanged (k m v : Nat) : ∀ fuel bit t,
    (insertGo k m v bit fuel t).1 = NGX_BUSY → (insertGo k m v bit fuel t).2 = t := by
  intro fuel
  induction fuel with
  | zero =>
    intro bit t
    cases t with
    | nil => intro _; rfl
    | node r l v0 =>
      by_cases hv : v0 = NGX_RADIX_NO_VALUE
      · simp [insertGo, hv, ok_ne_busy]
      · simp [insertGo, hv]
  | succ fuel ih =>
    intro bit t
    cases t with
    | nil => intro _; rfl
    | node r l v0 =>
      by_cases hm : bit &&& m = 0
      · by_cases hv : v0 = NGX_RADIX_NO_VALUE
        · simp [insertGo, hm, hv, ok_ne_busy]
        · simp [insertGo, hm, hv]
      · by_cases hk : k &&& bit ≠ 0
        · cases r with
          | nil => simp [insertGo, hm, hk, ok_ne_busy]
          | node r2 l2 v2 =>
            intro hbusy
            have h1 : (insertGo k m v (bit >>> 1) fuel (.node r2 l2 v2)).1 = NGX_BUSY := by
              simpa [insertGo, hm, hk] using hbusy
            have h2 := ih (bit >>> 1) (.node r2 l2 v2) h1
            simp [insertGo, hm, hk, h2]
        · cases l with
          | nil => simp [insertGo, hm, hk, ok_ne_busy]
          | node r2 l2 v2 =>
            intro hbusy
            have h1 : (insertGo k m v (bit >>> 1) fuel (.node r2 l2 v2)).1 = NGX_BUSY := by
              simpa [insertGo, hm, hk] using hbusy
            have h2 := ih (bit >>> 1) (.node r2 l2 v2) h1
            simp [insertGo, hm, hk, h2]

theorem insert_nv_sets (k m v : Nat) : ∀ fuel bit t r l,
    probeGo k m bit fuel t = some (.node r l NGX_RADIX_NO_VALUE) →
    insertGo k m v bit fuel t = (NGX_OK, setProbeGo k m v bit fuel t) := by
  intro fuel
  induction fuel with
  | zero =>
    intro bit t r l hp
    cases t with
    | nil => simp [probeGo] at hp
    | node r0 l0 v0 =>
      have hv : v0 = NGX_RADIX_NO_VALUE := by
        simp [probeGo] at hp
        exact hp.2.2
      simp [insertGo, setProbeGo, hv]
  | succ fuel ih =>
    intro bit t r l hp
    cases t with
    | nil => simp [probeGo] at hp
    | node r0 l0 v0 =>
      by_cases hm : bit &&& m = 0
      · have hv : v0 = NGX_RADIX_NO_VALUE := by
          simp [probeGo, hm] at hp
          exact hp.2.2
        simp [insertGo, setProbeGo, hm, hv]
      · by_cases hk : k &&& bit ≠ 0
        · cases r0 with
          | nil => simp [probeGo, hm, hk] at hp
          | node r2 l2 v2 =>
            have hrec := ih (bit >>> 1) (.node r2 l2 v2) r l
              (by simpa [probeGo, hm, hk] using hp)
            simp [insertGo, setProbeGo, hm, hk, hrec]
        · cases l0 with
          | nil => simp [probeGo, hm, hk] at hp
          | node r2 l2 v2 =>
            have hrec := ih (bit >>> 1) (.node r2 l2 v2) r l
              (by simpa [probeGo, hm, hk] using hp)
            simp [insertGo, setProbeGo, hm, hk, hrec]

/-- Claim C5: insert returns NGX_BUSY exactly when the traversal of the
mask-selected bits of `key` lands on an existing node carrying a value
other than NGX_RADIX_NO_VALUE, and then the tree is unchanged; if the
traversal lands on an existing node carrying NGX_RADIX_NO_VALUE, that
node's value is set and NGX_OK is returned. -/
theorem C5_insert_busy_exact (t : RTree) (key mask value : Nat) :
    ((ngx_radix32tree_insert t key mask value).1 = NGX_BUSY ↔
      ∃ r l v0, probe32 t key mask = some (.node r l v0) ∧
        v0 ≠ NGX_RADIX_NO_VALUE) ∧
    ((ngx_radix32tree_insert t key mask value).1 = NGX_BUSY →
      (ngx_radix32tree_insert t key mask value).2 = t) ∧
    (∀ r l, probe32 t key mask = some (.node r l NGX_RADIX_NO_VALUE) →
      ngx_radix32tree_insert t key mask value =
        (NGX_OK, setProbe32 t key mask value)) :=
  ⟨insert_busy_iff key mask value 33 (2 ^ 31) t,
   insert_busy_unchanged key mask value 33 (2 ^ 31) t,
   fun r l h => insert_nv_sets key mask value 33 (2 ^ 31) t r l h⟩

/-- Witness for C5: re-inserting an occupied /16 prefix reports NGX_BUSY
and leaves the tree unchanged. -/
theorem C5_insert_busy_exact_witness :
    (ngx_radix32tree_insert C5tree 0xC0A80000 0xFFFF0000 9).1 = NGX_BUSY ∧
    (ngx_radix32tree_insert C5tree 0xC0A80000 0xFFFF0000 9).2 = C5tree :=
  ⟨by decide, (C5_insert_busy_exact C5tree 0xC0A80000 0xFFFF0000 9).2.1 (by decide)⟩

theorem land_two_pow_eq_zero_iff (m j : Nat) : (2 ^ j &&& m = 0) ↔ m.testBit j = false := by
  rw [Nat.and_comm, Nat.and_two_pow]
  cases hb : m.testBit j <;> simp [hb]

theorem land_two_pow_ne_zero_iff (m j : Nat) : (2 ^ j &&& m ≠ 0) ↔ m.testBit j = true := by
  rw [Nat.and_comm, Nat.and_two_pow]
  cases hb : m.testBit j <;> simp [hb]

theorem two_pow_succ_shiftRight (j : Nat) : (2 ^ (j + 1)) >>> 1 = 2 ^ j := by
  rw [Nat.shiftRight_eq_div_pow, pow_one, Nat.pow_succ, Nat.mul_div_cancel]
  omega

theorem one_shiftRight : (2 ^ 0 : Nat) >>> 1 = 0 := rfl

theorem maskSameDown_bit_zero (m1 m2 : Nat) : ∀ fuel, MaskSameDown m1 m2 0 fuel := by
  intro fuel
  cases fuel with
  | zero => trivial
  | succ fuel =>
    refine ⟨by simp, ?_⟩
    intro h
    simp at h

theorem leadingOnesAux_bit_zero (m : Nat) : ∀ fuel, leadingOnesAux m 0 fuel = 0 := by
  intro fuel
  cases fuel with
  | zero => rfl
  | succ fuel => simp [leadingOnesAux]

theorem leadingOnesAux_spec (m : Nat) : ∀ fuel j,
    leadingOnesAux m (2 ^ j) fuel ≤ min fuel (j + 1) ∧
    (∀ s, s < leadingOnesAux m (2 ^ j) fuel → m.testBit (j - s) = true) ∧
    (leadingOnesAux m (2 ^ j) fuel < fuel → leadingOnesAux m (2 ^ j) fuel < j + 1 →
      m.testBit (j - leadingOnesAux m (2 ^ j) fuel) = false) := by
  intro fuel
  induction fuel with
  | zero =>
    intro j
    refine ⟨by simp [leadingOnesAux], ?_, ?_⟩
    · intro s hs; simp [leadingOnesAux] at hs
    · intro h; simp [leadingOnesAux] at h
  | succ fuel ih =>
    intro j
    by_cases hbit : 2 ^ j &&& m ≠ 0
    · have hni : leadingOnesAux m (2 ^ j) (fuel + 1) =
          1 + leadingOnesAux m ((2 ^ j) >>> 1) fuel := by
        simp [leadingOnesAux, hbit]
      have htb : m.testBit j = true := (land_two_pow_ne_zero_iff m j).mp hbit
      cases j with
      | zero =>
        rw [hni, one_shiftRight, leadingOnesAux_bit_zero]
        refine ⟨by omega, ?_, by omega⟩
        intro s hs
        have : s = 0 := by omega
        subst this
        simpa using htb
      | succ jj =>
        rw [hni, two_pow_succ_shiftRight]
        obtain ⟨ih1, ih2, ih3⟩ := ih jj
        refine ⟨by omega, ?_, ?_⟩
        · intro s hs
          cases s with
          | zero => simpa using htb
          | succ s2 =>
            have : jj + 1 - (s2 + 1) = jj - s2 := by omega
            rw [this]
            exact ih2 s2 (by omega)
        · intro h1 h2
          have : jj + 1 - (1 + leadingOnesAux m (2 ^ jj) fuel) =
              jj - leadingOnesAux m (2 ^ jj) fuel := by omega
          rw [this]
          exact ih3 (by omega) (by omega)
    · have h0 : leadingOnesAux m (2 ^ j) (fuel + 1) = 0 := by
        simp [leadingOnesAux, hbit]
      refine ⟨by omega, ?_, ?_⟩
      · intro s hs; omega
      · intro _ _
        rw [h0, Nat.sub_zero]
        simpa using (land_two_pow_eq_zero_iff m j).mp (by simpa using hbit)

theorem maskLen_le (m : Nat) : maskLen m ≤ 32 := by
  have := (leadingOnesAux_spec m 32 31).1
  unfold maskLen
  omega

theorem topBits32_testBit (m j : Nat) (hj : j ≤ 31) :
    ((topBits32 m).testBit j = true ↔ ∀ i, j ≤ i → i ≤ 31 → m.testBit i = true) := by
  have hdef : maskLen m = leadingOnesAux m (2 ^ 31) 32 := rfl
  obtain ⟨h1, h2, h3⟩ := leadingOnesAux_spec m 32 31
  rw [← hdef] at h1 h2 h3
  have hK : maskLen m ≤ 32 := by omega
  have htb : (topBits32 m).testBit j = true ↔ 32 - maskLen m ≤ j := by
    unfold topBits32 topMask
    rw [Nat.testBit_shiftLeft, Nat.testBit_two_pow_sub_one]
    constructor
    · intro h
      simp at h
      omega
    · intro h
      simp
      omega
  rw [htb]
  constructor
  · intro h i hji hi31
    have := h2 (31 - i) (by omega)
    have heq : 31 - (31 - i) = i := by omega
    rwa [heq] at this
  · intro h
    by_contra hlt
    have hfalse := h3 (by omega) (by omega)
    have := h (31 - maskLen m) (by omega) (by omega)
    rw [this] at hfalse
    simp at hfalse

theorem maskSameDown_topBits (m : Nat) : ∀ fuel j, j ≤ 31 →
    (∀ i, j < i → i ≤ 31 → m.testBit i = true) →
    MaskSameDown m (topBits32 m) (2 ^ j) fuel := by
  intro fuel
  induction fuel with
  | zero => intro j _ _; trivial
  | succ fuel ih =>
    intro j hj habove
    constructor
    · rw [land_two_pow_eq_zero_iff, land_two_pow_eq_zero_iff]
      cases hb : m.testBit j with
      | true =>
        have : (topBits32 m).testBit j = true := by
          rw [topBits32_testBit m j hj]
          intro i hji hi31
          rcases Nat.eq_or_lt_of_le hji with h | h
          · rwa [← h]
          · exact habove i h hi31
        simp [this]
      | false =>
        have : ¬ ((topBits32 m).testBit j = true) := by
          rw [topBits32_testBit m j hj]
          intro hcon
          have := hcon j (le_refl j) hj
          rw [this] at hb
          exact absurd hb (by simp)
        simp at this
        simp [this]
    · intro hne
      have htb : m.testBit j = true := (land_two_pow_ne_zero_iff m j).mp hne
      cases j with
      | zero =>
        rw [one_shiftRight]
        exact maskSameDown_bit_zero _ _ fuel
      | succ jj =>
        rw [two_pow_succ_shiftRight]
        refine ih jj (by omega) ?_
        intro i hgt hle
        rcases Nat.eq_or_lt_of_le (Nat.succ_le_of_lt hgt) with h | h
        · rw [← h]; exact htb
        · exact habove i (by omega) hle

theorem newPath_mask_eq (k v m1 m2 : Nat) : ∀ fuel bit,
    MaskSameDown m1 m2 (bit >>> 1) fuel →
    newPath k m1 v bit fuel = newPath k m2 v bit fuel := by
  intro fuel
  induction fuel with
  | zero => intro bit _; rfl
  | succ fuel ih =>
    intro bit hms
    obtain ⟨hiff, hrec⟩ := hms
    by_cases hb : (bit >>> 1) &&& m1 ≠ 0
    · have hb2 : (bit >>> 1) &&& m2 ≠ 0 := by
        intro h
        exact hb (hiff.mpr h)
      have := ih (bit >>> 1) (hrec hb)
      simp [newPath, hb, hb2, this]
    · have hb1 : (bit >>> 1) &&& m1 = 0 := by simpa using hb
      have hb2 : (bit >>> 1) &&& m2 = 0 := hiff.mp hb1
      simp [newPath, hb1, hb2]

theorem insertGo_mask_eq (k v m1 m2 : Nat) : ∀ fuel bit t,
    MaskSameDown m1 m2 bit fuel →
    insertGo k m1 v bit fuel t = insertGo k m2 v bit fuel t := by
  intro fuel
  induction fuel with
  | zero => intro bit t _; cases t <;> rfl
  | succ fuel ih =>
    intro bit t hms
    obtain ⟨hiff, hrec⟩ := hms
    cases t with
    | nil => rfl
    | node r l v0 =>
      by_cases hb : bit &&& m1 = 0
      · have hb2 : bit &&& m2 = 0 := hiff.mp hb
        simp [insertGo, hb, hb2]
      · have hb2 : ¬ (bit &&& m2 = 0) := fun h => hb (hiff.mpr h)
        have hmsd := hrec hb
        by_cases hk : k &&& bit ≠ 0
        · cases r with
          | nil =>
            have := newPath_mask_eq k v m1 m2 fuel bit hmsd
            simp [insertGo, hb, hb2, hk, this]
          | node r2 l2 v2 =>
            have := ih (bit >>> 1) (.node r2 l2 v2) hmsd
            simp [insertGo, hb, hb2, hk, this]
        · cases l with
          | nil =>
            have := newPath_mask_eq k v m1 m2 fuel bit hmsd
            simp [insertGo, hb, hb2, hk, this]
          | node r2 l2 v2 =>
            have := ih (bit >>> 1) (.node r2 l2 v2) hmsd
            simp [insertGo, hb, hb2, hk, this]

theorem delDescend_mask_eq (k m1 m2 : Nat) : ∀ fuel bit t path,
    MaskSameDown m1 m2 bit fuel →
    delDescend k m1 bit fuel t path = delDescend k m2 bit fuel t path := by
  intro fuel
  induction fuel with
  | zero => intro bit t path _; cases t <;> rfl
  | succ fuel ih =>
    intro bit t path hms
    obtain ⟨hiff, hrec⟩ := hms
    cases t with
    | nil => rfl
    | node r l v0 =>
      by_cases hb : bit &&& m1 = 0
      · have hb2 : bit &&& m2 = 0 := hiff.mp hb
        simp [delDescend, hb, hb2]
      · have hb2 : ¬ (bit &&& m2 = 0) := fun h => hb (hiff.mpr h)
        have hmsd := hrec hb
        by_cases hk : k &&& bit ≠ 0
        · simp [delDescend, hb, hb2, hk, ih (bit >>> 1) r _ hmsd]
        · simp [delDescend, hb, hb2, hk, ih (bit >>> 1) l _ hmsd]

/-- Claim C10: insert and delete consume mask bits from the most
significant downwards and stop at the first clear bit, so an arbitrary
(possibly non-contiguous) mask acts exactly like its longest contiguous
high-bit prefix `topBits32 mask` (e.g. `0xA0000000` acts like
`0x80000000`). -/
theorem C10_mask_contiguous_collapse (t : RTree) (key mask value : Nat) :
    ngx_radix32tree_insert t key mask value =
      ngx_radix32tree_insert t key (topBits32 mask) value ∧
    ngx_radix32tree_delete t key mask =
      ngx_radix32tree_delete t key (topBits32 mask) := by
  have hms : MaskSameDown mask (topBits32 mask) (2 ^ 31) 33 :=
    maskSameDown_topBits mask 33 31 (le_refl 31) (by intro i h1 h2; omega)
  constructor
  · exact insertGo_mask_eq key value mask (topBits32 mask) 33 (2 ^ 31) t hms
  · unfold ngx_radix32tree_delete
    rw [delDescend_mask_eq key mask (topBits32 mask) 33 (2 ^ 31) t [] hms]

theorem topMask_testBit (l i : Nat) (hl : l ≤ 32) :
    ((topMask l).testBit i = true ↔ 32 - l ≤ i ∧ i < 32) := by
  unfold topMask
  rw [Nat.testBit_shiftLeft, Nat.testBit_two_pow_sub_one]
  constructor
  · intro h
    simp at h
    omega
  · intro h
    simp
    omega

theorem topMask_testBit_eq (l i : Nat) (hl : l ≤ 32) :
    (topMask l).testBit i = decide (32 - l ≤ i ∧ i < 32) := by
  cases htb : (topMask l).testBit i with
  | true => exact (decide_eq_true ((topMask_testBit l i hl).mp htb)).symm
  | false =>
    have hnp : ¬ (32 - l ≤ i ∧ i < 32) := by
      intro hp
      rw [(topMask_testBit l i hl).mpr hp] at htb
      exact absurd htb (by simp)
    exact (decide_eq_false hnp).symm

theorem topMask_step (k : Nat) :
    (topMask (min k 32) >>> 1) ||| 2 ^ 31 = topMask (min (k + 1) 32) := by
  apply Nat.eq_of_testBit_eq
  intro j
  rw [Nat.testBit_or, Nat.testBit_shiftRight, Nat.testBit_two_pow,
    topMask_testBit_eq _ _ (by omega), topMask_testBit_eq _ _ (by omega),
    ← Bool.decide_or]
  exact decide_eq_decide.mpr (by omega)

theorem land_pow_eq_zero_iff (k j : Nat) : (k &&& 2 ^ j = 0) ↔ k.testBit j = false := by
  rw [Nat.and_two_pow]
  cases hb : k.testBit j <;> simp [hb]

theorem testBit_eq_of_mod_eq {k1 k2 n j : Nat} (h : k1 % 2 ^ n = k2 % 2 ^ n)
    (hj : j < n) : k1.testBit j = k2.testBit j := by
  have h2 := congrArg (fun x => x.testBit j) h
  simpa [Nat.testBit_mod_two_pow, hj] using h2

theorem land_pow_congr {k1 k2 n j : Nat} (h : k1 % 2 ^ n = k2 % 2 ^ n) (hj : j < n) :
    (k1 &&& 2 ^ j = 0) ↔ (k2 &&& 2 ^ j = 0) := by
  rw [land_pow_eq_zero_iff, land_pow_eq_zero_iff, testBit_eq_of_mod_eq h hj]

theorem mod_pow_congr_down {k1 k2 n : Nat} (h : k1 % 2 ^ (n + 1) = k2 % 2 ^ (n + 1)) :
    k1 % 2 ^ n = k2 % 2 ^ n := by
  have h1 : k1 % 2 ^ n = (k1 % 2 ^ (n + 1)) % 2 ^ n := by
    rw [Nat.mod_mod_of_dvd]
    exact pow_dvd_pow 2 (by omega)
  have h2 : k2 % 2 ^ n = (k2 % 2 ^ (n + 1)) % 2 ^ n := by
    rw [Nat.mod_mod_of_dvd]
    exact pow_dvd_pow 2 (by omega)
  rw [h1, h2, h]

theorem newPath_key_congr (mask v : Nat) : ∀ fuel m k1 k2,
    k1 % 2 ^ (m + 1) = k2 % 2 ^ (m + 1) →
    newPath k1 mask v (2 ^ m) fuel = newPath k2 mask v (2 ^ m) fuel := by
  intro fuel
  induction fuel with
  | zero => intro m k1 k2 _; rfl
  | succ fuel ih =>
    intro m k1 k2 hk
    cases m with
    | zero =>
      simp only [newPath, one_shiftRight]
      simp
    | succ mm =>
      simp only [newPath, two_pow_succ_shiftRight]
      by_cases hb : 2 ^ mm &&& mask ≠ 0
      · have hrec := ih mm k1 k2 (mod_pow_congr_down hk)
        have hkb : (k1 &&& 2 ^ mm = 0) ↔ (k2 &&& 2 ^ mm = 0) :=
          land_pow_congr hk (by omega)
        by_cases hk1 : k1 &&& 2 ^ mm ≠ 0
        · have hk2 : k2 &&& 2 ^ mm ≠ 0 := fun h => hk1 (hkb.mpr h)
          simp [hb, hk1, hk2, hrec]
        · have hk2 : ¬ (k2 &&& 2 ^ mm ≠ 0) := fun h => hk1 (by
            intro h2
            exact h (hkb.mp h2))
          simp [hb, hk1, hk2, hrec]
      · simp [hb]

theorem insertGo_bit_zero_key_congr (mask v : Nat) (fuel : Nat) (t : RTree) (k1 k2 : Nat) :
    insertGo k1 mask v 0 fuel t = insertGo k2 mask v 0 fuel t := by
  cases fuel with
  | zero => cases t <;> rfl
  | succ fuel => cases t with
    | nil => rfl
    | node r l v0 => simp [insertGo]

theorem insertGo_key_congr (mask v : Nat) : ∀ fuel m t k1 k2,
    k1 % 2 ^ (m + 1) = k2 % 2 ^ (m + 1) →
    insertGo k1 mask v (2 ^ m) fuel t = insertGo k2 mask v (2 ^ m) fuel t := by
  intro fuel
  induction fuel with
  | zero => intro m t k1 k2 _; cases t <;> rfl
  | succ fuel ih =>
    intro m t k1 k2 hk
    cases t with
    | nil => rfl
    | node r l v0 =>
      by_cases hb : 2 ^ m &&& mask = 0
      · simp [insertGo, hb]
      · have hkb : (k1 &&& 2 ^ m = 0) ↔ (k2 &&& 2 ^ m = 0) :=
          land_pow_congr hk (by omega)
        have hnp := newPath_key_congr mask v fuel m k1 k2 hk
        have hrec : ∀ t2 : RTree,
            insertGo k1 mask v (2 ^ m >>> 1) fuel t2 =
            insertGo k2 mask v (2 ^ m >>> 1) fuel t2 := by
          intro t2
          cases m with
          | zero => rw [one_shiftRight]; exact insertGo_bit_zero_key_congr mask v fuel t2 k1 k2
          | succ mm =>
            rw [two_pow_succ_shiftRight]
            exact ih mm t2 k1 k2 (mod_pow_congr_down hk)
        by_cases hk1 : k1 &&& 2 ^ m ≠ 0
        · have hk2 : k2 &&& 2 ^ m ≠ 0 := fun h => hk1 (hkb.mpr h)
          cases r with
          | nil => simp [insertGo, hb, hk1, hk2, hnp]
          | node r2 l2 v2 => simp [insertGo, hb, hk1, hk2, hrec]
        · have hk2 : ¬ (k2 &&& 2 ^ m ≠ 0) := by
            intro h
            exact hk1 (by intro h2; exact h (by simpa using hkb.mp h2))
          cases l with
          | nil => simp [insertGo, hb, hk1, hk2, hnp]
          | node r2 l2 v2 => simp [insertGo, hb, hk1, hk2, hrec]

theorem insertGo_snd_ne_nil (k mask v : Nat) : ∀ fuel bit r l v0,
    (insertGo k mask v bit fuel (.node r l v0)).2 ≠ .nil := by
  intro fuel
  cases fuel with
  | zero =>
    intro bit r l v0
    by_cases hv : v0 = NGX_RADIX_NO_VALUE <;> simp [insertGo, hv]
  | succ fuel =>
    intro bit r l v0
    by_cases hb : bit &&& mask = 0
    · by_cases hv : v0 = NGX_RADIX_NO_VALUE <;> simp [insertGo, hb, hv]
    · by_cases hk : k &&& bit ≠ 0
      · cases r <;> simp [insertGo, hb, hk]
      · cases l <;> simp [insertGo, hb, hk]

theorem insGoFold_nil_keys (mask bit fuel : Nat) (t : RTree) :
    insGoFold mask bit fuel [] t = t := rfl

theorem insGoFold_cons (mask bit fuel k : Nat) (keys : List Nat) (t : RTree) :
    insGoFold mask bit fuel (k :: keys) t =
      insGoFold mask bit fuel keys (insertGo k mask NGX_RADIX_NO_VALUE bit fuel t).2 := rfl

theorem insGoFold_append (mask bit fuel : Nat) (ks1 ks2 : List Nat) (t : RTree) :
    insGoFold mask bit fuel (ks1 ++ ks2) t =
      insGoFold mask bit fuel ks2 (insGoFold mask bit fuel ks1 t) := by
  unfold insGoFold
  rw [List.foldl_append]

theorem insGoFold_key_congr (mask : Nat) : ∀ (keys1 keys2 : List Nat) (m fuel : Nat) (t : RTree),
    List.Forall₂ (fun k1 k2 => k1 % 2 ^ (m + 1) = k2 % 2 ^ (m + 1)) keys1 keys2 →
    insGoFold mask (2 ^ m) fuel keys1 t = insGoFold mask (2 ^ m) fuel keys2 t := by
  intro keys1
  induction keys1 with
  | nil =>
    intro keys2 m fuel t hf
    cases hf
    rfl
  | cons k1 rest ih =>
    intro keys2 m fuel t hf
    cases hf with
    | cons hk hrest =>
      rw [insGoFold_cons, insGoFold_cons,
        insertGo_key_congr mask NGX_RADIX_NO_VALUE fuel m t _ _ hk]
      exact ih _ m fuel _ hrest

theorem insGoFold_left (mask m fuel : Nat) (hmask : 2 ^ m &&& mask ≠ 0) :
    ∀ (keys : List Nat) (r a b : RTree) (c v0 : Nat),
    (∀ k ∈ keys, k &&& 2 ^ m = 0) →
    insGoFold mask (2 ^ m) (fuel + 1) keys (.node r (.node a b c) v0) =
      .node r (insGoFold mask (2 ^ m >>> 1) fuel keys (.node a b c)) v0 := by
  intro keys
  induction keys with
  | nil => intro r a b c v0 _; rfl
  | cons k rest ih =>
    intro r a b c v0 hks
    have hk : k &&& 2 ^ m = 0 := hks k (by simp)
    rw [insGoFold_cons]
    have hstep : (insertGo k mask NGX_RADIX_NO_VALUE (2 ^ m) (fuel + 1)
        (.node r (.node a b c) v0)).2 =
        .node r (insertGo k mask NGX_RADIX_NO_VALUE (2 ^ m >>> 1) fuel (.node a b c)).2 v0 := by
      simp [insertGo, hmask, hk]
    rw [hstep]
    have hne := insertGo_snd_ne_nil k mask NGX_RADIX_NO_VALUE fuel (2 ^ m >>> 1) a b c
    match hres : (insertGo k mask NGX_RADIX_NO_VALUE (2 ^ m >>> 1) fuel (.node a b c)).2 with
    | .nil => exact absurd hres hne
    | .node a2 b2 c2 =>
      rw [ih r a2 b2 c2 v0 (fun k2 hk2 => hks k2 (by simp [hk2]))]
      rw [insGoFold_cons, hres]

theorem insGoFold_right (mask m fuel : Nat) (hmask : 2 ^ m &&& mask ≠ 0) :
    ∀ (keys : List Nat) (l a b : RTree) (c v0 : Nat),
    (∀ k ∈ keys, k &&& 2 ^ m ≠ 0) →
    insGoFold mask (2 ^ m) (fuel + 1) keys (.node (.node a b c) l v0) =
      .node (insGoFold mask (2 ^ m >>> 1) fuel keys (.node a b c)) l v0 := by
  intro keys
  induction keys with
  | nil => intro l a b c v0 _; rfl
  | cons k rest ih =>
    intro l a b c v0 hks
    have hk : k &&& 2 ^ m ≠ 0 := hks k (by simp)
    rw [insGoFold_cons]
    have hstep : (insertGo k mask NGX_RADIX_NO_VALUE (2 ^ m) (fuel + 1)
        (.node (.node a b c) l v0)).2 =
        .node (insertGo k mask NGX_RADIX_NO_VALUE (2 ^ m >>> 1) fuel (.node a b c)).2 l v0 := by
      simp [insertGo, hmask, hk]
    rw [hstep]
    have hne := insertGo_snd_ne_nil k mask NGX_RADIX_NO_VALUE fuel (2 ^ m >>> 1) a b c
    match hres : (insertGo k mask NGX_RADIX_NO_VALUE (2 ^ m >>> 1) fuel (.node a b c)).2 with
    | .nil => exact absurd hres hne
    | .node a2 b2 c2 =>
      rw [ih l a2 b2 c2 v0 (fun k2 hk2 => hks k2 (by simp [hk2]))]
      rw [insGoFold_cons, hres]

theorem land_self_pow_ne_zero (m : Nat) : 2 ^ m &&& 2 ^ m ≠ 0 := by
  rw [Nat.and_self]
  positivity

theorem newPath_one_node (k mask v bit : Nat) (h : (bit >>> 1) &&& mask = 0) :
    ∀ fuel, newPath k mask v bit fuel = .node .nil .nil v := by
  intro fuel
  cases fuel with
  | zero => rfl
  | succ fuel => simp [newPath, h]

theorem perfectTree_eq_node (u : Nat) :
    ∃ a b, perfectTree u = .node a b NGX_RADIX_NO_VALUE := by
  cases u with
  | zero => exact ⟨.nil, .nil, rfl⟩
  | succ u2 => exact ⟨perfectTree u2, perfectTree u2, rfl⟩

theorem lt_pow_land_eq_zero {k j : Nat} (h : k < 2 ^ j) : k &&& 2 ^ j = 0 := by
  rw [land_pow_eq_zero_iff]
  exact Nat.testBit_lt_two_pow h

theorem add_pow_land_ne_zero {k j : Nat} (h : k < 2 ^ j) : (2 ^ j + k) &&& 2 ^ j ≠ 0 := by
  rw [Ne, land_pow_eq_zero_iff]
  rw [Nat.testBit_two_pow_add_eq, Nat.testBit_lt_two_pow h]
  simp

theorem forall₂_mod_add_pow (n c : Nat) (hc : c % n = 0) : ∀ ks : List Nat,
    List.Forall₂ (fun k1 k2 => k1 % n = k2 % n) (ks.map fun k => c + k) ks := by
  intro ks
  induction ks with
  | nil => simp
  | cons k rest ih =>
    simp only [List.map_cons]
    exact List.Forall₂.cons (by rw [Nat.add_mod, hc]; simp) ih

theorem scaledKeys_split (u mm : Nat) (hum : u + 1 ≤ mm + 1) :
    scaledKeys (u + 2) (mm + 1) =
      scaledKeys (u + 1) mm ++ (scaledKeys (u + 1) mm).map fun k => 2 ^ (mm + 1) + k := by
  unfold scaledKeys
  rw [show (2:Nat) ^ (u + 2) = 2 ^ (u + 1) + 2 ^ (u + 1) by ring, List.range_add]
  rw [List.map_append, List.map_map, List.map_map]
  congr 1
  · apply List.map_congr_left
    intro i _
    have he : mm + 1 + 1 - (u + 2) = mm + 1 - (u + 1) := by omega
    rw [he]
  · apply List.map_congr_left
    intro i hi
    simp only [Function.comp]
    have he1 : mm + 1 + 1 - (u + 2) = mm - u := by omega
    have he2 : mm + 1 - (u + 1) = mm - u := by omega
    rw [he1, he2, Nat.add_mul, ← pow_add]
    congr 2
    omega

theorem scaledKeys_lt (u m : Nat) (hum : u + 1 ≤ m + 1) :
    ∀ k ∈ scaledKeys (u + 1) m, k < 2 ^ (m + 1) := by
  intro k hk
  unfold scaledKeys at hk
  rw [List.mem_map] at hk
  obtain ⟨i, hi, rfl⟩ := hk
  rw [List.mem_range] at hi
  calc i * 2 ^ (m + 1 - (u + 1)) < 2 ^ (u + 1) * 2 ^ (m + 1 - (u + 1)) :=
        Nat.mul_lt_mul_of_pos_right hi (Nat.pos_pow_of_pos _ (by omega))
    _ = 2 ^ (m + 1) := by rw [← pow_add]; congr 1; omega

theorem levelFill : ∀ u m mask, u + 1 ≤ m + 1 →
    (∀ i, i ≤ m → (2 ^ i &&& mask ≠ 0 ↔ m < i + (u + 1))) →
    insGoFold mask (2 ^ m) (m + 2) (scaledKeys (u + 1) m) (perfectTree u) =
      perfectTree (u + 1) := by
  intro u
  induction u with
  | zero =>
    intro m mask _ hmask
    have hmaskm : 2 ^ m &&& mask ≠ 0 := (hmask m le_rfl).mpr (by omega)
    have hmaskd : (2 ^ m >>> 1) &&& mask = 0 := by
      cases m with
      | zero => rw [one_shiftRight]; simp
      | succ mm =>
        rw [two_pow_succ_shiftRight]
        have := hmask mm (by omega)
        simp only [ne_eq] at this
        by_contra hne
        have := this.mp hne
        omega
    have hkeys : scaledKeys 1 m = [0, 2 ^ m] := by
      unfold scaledKeys
      have he : m + 1 - 1 = m := by omega
      rw [he]
      simp [List.range_succ]
    rw [hkeys]
    have hz : (0 : Nat) &&& 2 ^ m = 0 := by simp
    have hs : 2 ^ m &&& 2 ^ m ≠ 0 := land_self_pow_ne_zero m
    show insGoFold mask (2 ^ m) (m + 2) [0, 2 ^ m] (.node .nil .nil NGX_RADIX_NO_VALUE) = _
    rw [insGoFold_cons]
    have h1 : (insertGo 0 mask NGX_RADIX_NO_VALUE (2 ^ m) (m + 2)
        (.node .nil .nil NGX_RADIX_NO_VALUE)).2 =
        .node .nil (.node .nil .nil NGX_RADIX_NO_VALUE) NGX_RADIX_NO_VALUE := by
      show (insertGo 0 mask NGX_RADIX_NO_VALUE (2 ^ m) (m + 1 + 1)
        (.node .nil .nil NGX_RADIX_NO_VALUE)).2 = _
      simp [insertGo, hmaskm, hz, newPath_one_node 0 mask NGX_RADIX_NO_VALUE (2 ^ m) hmaskd]
    rw [h1, insGoFold_cons]
    have h2 : (insertGo (2 ^ m) mask NGX_RADIX_NO_VALUE (2 ^ m) (m + 2)
        (.node .nil (.node .nil .nil NGX_RADIX_NO_VALUE) NGX_RADIX_NO_VALUE)).2 =
        .node (.node .nil .nil NGX_RADIX_NO_VALUE) (.node .nil .nil NGX_RADIX_NO_VALUE)
          NGX_RADIX_NO_VALUE := by
      show (insertGo (2 ^ m) mask NGX_RADIX_NO_VALUE (2 ^ m) (m + 1 + 1) _).2 = _
      simp [insertGo, hmaskm, hs,
        newPath_one_node (2 ^ m) mask NGX_RADIX_NO_VALUE (2 ^ m) hmaskd]
    rw [h2]
    rfl
  | succ u ih =>
    intro m mask hum hmask
    obtain ⟨mm, rfl⟩ : ∃ mm, m = mm + 1 := ⟨m - 1, by omega⟩
    have hmaskm : 2 ^ (mm + 1) &&& mask ≠ 0 := (hmask (mm + 1) le_rfl).mpr (by omega)
    have hmaskmm : ∀ i, i ≤ mm → (2 ^ i &&& mask ≠ 0 ↔ mm < i + (u + 1)) := by
      intro i hi
      rw [hmask i (by omega)]
      omega
    have hlt : ∀ k ∈ scaledKeys (u + 1) mm, k < 2 ^ (mm + 1) :=
      scaledKeys_lt u mm (by omega)
    obtain ⟨a, b, hP⟩ := perfectTree_eq_node u
    have hPT : perfectTree (u + 1) =
        .node (perfectTree u) (perfectTree u) NGX_RADIX_NO_VALUE := rfl
    rw [scaledKeys_split u mm (by omega), insGoFold_append, hPT, hP]
    have hfirst : insGoFold mask (2 ^ (mm + 1)) (mm + 1 + 2) (scaledKeys (u + 1) mm)
        (.node (.node a b NGX_RADIX_NO_VALUE) (.node a b NGX_RADIX_NO_VALUE)
          NGX_RADIX_NO_VALUE) =
        .node (.node a b NGX_RADIX_NO_VALUE) (perfectTree (u + 1)) NGX_RADIX_NO_VALUE := by
      rw [show mm + 1 + 2 = (mm + 2) + 1 by omega]
      rw [insGoFold_left mask (mm + 1) (mm + 2) hmaskm _ _ _ _ _ _
        (fun k hk => lt_pow_land_eq_zero (hlt k hk))]
      rw [two_pow_succ_shiftRight]
      rw [← hP, ih mm mask (by omega) hmaskmm]
    rw [hfirst, hPT]
    have hsecond : insGoFold mask (2 ^ (mm + 1)) (mm + 1 + 2)
        ((scaledKeys (u + 1) mm).map fun k => 2 ^ (mm + 1) + k)
        (.node (.node a b NGX_RADIX_NO_VALUE)
          (.node (perfectTree u) (perfectTree u) NGX_RADIX_NO_VALUE) NGX_RADIX_NO_VALUE) =
        .node (perfectTree (u + 1))
          (.node (perfectTree u) (perfectTree u) NGX_RADIX_NO_VALUE) NGX_RADIX_NO_VALUE := by
      rw [show mm + 1 + 2 = (mm + 2) + 1 by omega]
      rw [insGoFold_right mask (mm + 1) (mm + 2) hmaskm _ _ _ _ _ _ ?_]
      · rw [two_pow_succ_shiftRight]
        rw [insGoFold_key_congr mask _ (scaledKeys (u + 1) mm) mm (mm + 2) _
          (forall₂_mod_add_pow (2 ^ (mm + 1)) (2 ^ (mm + 1)) (by simp) _)]
        rw [← hP, ih mm mask (by omega) hmaskmm]
      · intro k hk
        simp at hk
        obtain ⟨k2, hk2, rfl⟩ := hk
        exact add_pow_land_ne_zero (hlt k2 hk2)
    rw [hsecond, ← hPT]
    rfl

theorem preallocLevel_eq_fold (mask l : Nat) (hl1 : 1 ≤ l) (hl2 : l ≤ 32) :
    ∀ fuel i t, i < 2 ^ l → 2 ^ l - i ≤ fuel →
    preallocLevel mask (2 ^ (32 - l)) (i * 2 ^ (32 - l)) fuel t =
      insGoFold mask (2 ^ 31) 33
        ((List.range (2 ^ l - i)).map fun s => (i + s) * 2 ^ (32 - l)) t := by
  intro fuel
  induction fuel with
  | zero =>
    intro i t hi hfuel
    omega
  | succ fuel ih =>
    intro i t hi hfuel
    have hpow : (2 : Nat) ^ l * 2 ^ (32 - l) = 2 ^ 32 := by
      rw [← pow_add]
      congr 1
      omega
    have hkey2 : (i * 2 ^ (32 - l) + 2 ^ (32 - l)) = (i + 1) * 2 ^ (32 - l) := by ring
    have hrange : List.range (2 ^ l - i) =
        0 :: (List.range (2 ^ l - i - 1)).map (· + 1) := by
      rw [show 2 ^ l - i = (2 ^ l - i - 1) + 1 by omega]
      exact List.range_succ_eq_map _
    rw [hrange]
    simp only [List.map_cons, List.map_map]
    rw [insGoFold_cons]
    by_cases hend : i + 1 < 2 ^ l
    · have hlt : (i + 1) * 2 ^ (32 - l) < 2 ^ 32 := by
        calc (i + 1) * 2 ^ (32 - l) < 2 ^ l * 2 ^ (32 - l) :=
              Nat.mul_lt_mul_of_pos_right hend (Nat.pos_pow_of_pos _ (by omega))
          _ = 2 ^ 32 := hpow
      have hne : (i + 1) * 2 ^ (32 - l) ≠ 0 := by
        have : 0 < 2 ^ (32 - l) := Nat.pos_pow_of_pos _ (by omega)
        positivity
      have hbody : preallocLevel mask (2 ^ (32 - l)) (i * 2 ^ (32 - l)) (fuel + 1) t =
          preallocLevel mask (2 ^ (32 - l)) ((i + 1) * 2 ^ (32 - l)) fuel
            (ngx_radix32tree_insert t (i * 2 ^ (32 - l)) mask NGX_RADIX_NO_VALUE).2 := by
        show (let t2 := _; let key2 := _; if key2 ≠ 0 then _ else t2) = _
        simp only []
        rw [hkey2, Nat.mod_eq_of_lt hlt, if_pos hne]
      rw [hbody, ih (i + 1) _ hend (by omega)]
      have hlist : ((List.range (2 ^ l - (i + 1))).map fun s => (i + 1 + s) * 2 ^ (32 - l)) =
          (List.range (2 ^ l - i - 1)).map ((fun s => (i + s) * 2 ^ (32 - l)) ∘ (· + 1)) := by
        rw [show 2 ^ l - (i + 1) = 2 ^ l - i - 1 by omega]
        apply List.map_congr_left
        intro s _
        simp [Function.comp]
        ring_nf
      rw [hlist]
      rfl
    · have hiex : i + 1 = 2 ^ l := by omega
      have hkey0 : ((i + 1) * 2 ^ (32 - l)) % 2 ^ 32 = 0 := by
        rw [hiex, hpow]
        simp
      have hbody : preallocLevel mask (2 ^ (32 - l)) (i * 2 ^ (32 - l)) (fuel + 1) t =
          (ngx_radix32tree_insert t (i * 2 ^ (32 - l)) mask NGX_RADIX_NO_VALUE).2 := by
        show (let t2 := _; let key2 := _; if key2 ≠ 0 then _ else t2) = _
        simp only []
        rw [hkey2, hkey0]
        simp
      rw [hbody]
      have hsingle : 2 ^ l - i - 1 = 0 := by omega
      rw [hsingle]
      rfl

theorem insertGo_step_exhaust (k mask v bit fuel : Nat) (r l : RTree) (v0 : Nat)
    (hb : bit &&& mask = 0) (hv : v0 = NGX_RADIX_NO_VALUE) :
    insertGo k mask v bit (fuel + 1) (.node r l v0) = (NGX_OK, .node r l v) := by
  subst hv
  simp [insertGo, hb]

theorem insertGo_step_right (k mask v bit fuel : Nat) (l : RTree) (v0 : Nat)
    (r2 l2 : RTree) (v2 : Nat) (hb : bit &&& mask ≠ 0) (hk : k &&& bit ≠ 0) :
    insertGo k mask v bit (fuel + 1) (.node (.node r2 l2 v2) l v0) =
      ((insertGo k mask v (bit >>> 1) fuel (.node r2 l2 v2)).1,
       .node (insertGo k mask v (bit >>> 1) fuel (.node r2 l2 v2)).2 l v0) := by
  simp [insertGo, hb, hk]

theorem insertGo_step_left (k mask v bit fuel : Nat) (r : RTree) (v0 : Nat)
    (r2 l2 : RTree) (v2 : Nat) (hb : bit &&& mask ≠ 0) (hk : ¬ k &&& bit ≠ 0) :
    insertGo k mask v bit (fuel + 1) (.node r (.node r2 l2 v2) v0) =
      ((insertGo k mask v (bit >>> 1) fuel (.node r2 l2 v2)).1,
       .node r (insertGo k mask v (bit >>> 1) fuel (.node r2 l2 v2)).2 v0) := by
  simp [insertGo, hb, hk]

theorem insert_full_perfect_noop (k mask : Nat) : ∀ m,
    (insertGo k mask NGX_RADIX_NO_VALUE (2 ^ m) (m + 2) (perfectTree (m + 1))).2 =
      perfectTree (m + 1) := by
  intro m
  induction m with
  | zero =>
    by_cases hb : (2 : Nat) ^ 0 &&& mask = 0
    · simp [perfectTree, insertGo, hb]
    · by_cases hk : k &&& 2 ^ 0 ≠ 0 <;>
        simp [perfectTree, insertGo, hb, hk, one_shiftRight]
  | succ m ih =>
    obtain ⟨a, b, hP⟩ := perfectTree_eq_node (m + 1)
    have hPT2 : perfectTree (m + 1 + 1) =
        .node (perfectTree (m + 1)) (perfectTree (m + 1)) NGX_RADIX_NO_VALUE := rfl
    by_cases hb : 2 ^ (m + 1) &&& mask = 0
    · rw [hPT2, show m + 1 + 2 = (m + 2) + 1 from rfl,
        insertGo_step_exhaust k mask NGX_RADIX_NO_VALUE (2 ^ (m + 1)) (m + 2) _ _ _ hb rfl]
    · have hrec : (insertGo k mask NGX_RADIX_NO_VALUE (2 ^ (m + 1) >>> 1) (m + 2)
          (.node a b NGX_RADIX_NO_VALUE)).2 = .node a b NGX_RADIX_NO_VALUE := by
        rw [two_pow_succ_shiftRight, ← hP]
        exact ih
      by_cases hk : k &&& 2 ^ (m + 1) ≠ 0
      · rw [hPT2, show m + 1 + 2 = (m + 2) + 1 from rfl, hP,
          insertGo_step_right k mask NGX_RADIX_NO_VALUE (2 ^ (m + 1)) (m + 2) _ _ _ _ _ hb hk]
        show RTree.node _ _ _ = _
        rw [hrec, ← hP]
      · rw [hPT2, show m + 1 + 2 = (m + 2) + 1 from rfl, hP,
          insertGo_step_left k mask NGX_RADIX_NO_VALUE (2 ^ (m + 1)) (m + 2) _ _ _ _ _ hb hk]
        show RTree.node _ _ _ = _
        rw [hrec, ← hP]

theorem two_pow_shiftRight_le (k : Nat) (hk : k ≤ 31) : (2 ^ 31 : Nat) >>> k = 2 ^ (31 - k) := by
  rw [Nat.shiftRight_eq_div_pow, Nat.pow_div hk (by omega)]

theorem two_pow_shiftRight_big (k : Nat) (hk : 32 ≤ k) : (2 ^ 31 : Nat) >>> k = 0 := by
  rw [Nat.shiftRight_eq_div_pow]
  exact Nat.div_eq_of_lt (Nat.pow_lt_pow_right (by omega) (by omega))

theorem preallocLevel_zero_inc (mask : Nat) (t : RTree) (fuel : Nat) :
    preallocLevel mask 0 0 (fuel + 1) t =
      (ngx_radix32tree_insert t 0 mask NGX_RADIX_NO_VALUE).2 := by
  simp [preallocLevel]

theorem topMask_mask_cond (k : Nat) (hk : k ≤ 31) :
    ∀ i, i ≤ 31 → (2 ^ i &&& topMask (k + 1) ≠ 0 ↔ 31 < i + (k + 1)) := by
  intro i hi
  rw [land_two_pow_ne_zero_iff]
  constructor
  · intro h
    have := (topMask_testBit (k + 1) i (by omega)).mp h
    omega
  · intro h
    exact (topMask_testBit (k + 1) i (by omega)).mpr ⟨by omega, by omega⟩

theorem preallocLevel_level (k : Nat) (hk : k ≤ 31) :
    preallocLevel (topMask (k + 1)) (2 ^ 31 >>> k) 0 (2 ^ 32) (perfectTree k) =
      perfectTree (k + 1) := by
  rw [two_pow_shiftRight_le k hk]
  have he : (31 : Nat) - k = 32 - (k + 1) := by omega
  rw [he]
  have hfold := preallocLevel_eq_fold (topMask (k + 1)) (k + 1) (by omega) (by omega)
    (2 ^ 32) 0 (perfectTree k) (Nat.pos_pow_of_pos _ (by omega))
    (by have h1 : (2 : Nat) ^ (k + 1) ≤ 2 ^ 32 := Nat.pow_le_pow_right (by omega) (by omega)
        omega)
  rw [Nat.zero_mul] at hfold
  rw [hfold]
  have hlist : ((List.range (2 ^ (k + 1) - 0)).map fun s => (0 + s) * 2 ^ (32 - (k + 1))) =
      scaledKeys (k + 1) 31 := by
    unfold scaledKeys
    rw [Nat.sub_zero]
    apply List.map_congr_left
    intro i _
    have he2 : (31 : Nat) + 1 - (k + 1) = 32 - (k + 1) := by omega
    rw [he2, Nat.zero_add]
  rw [hlist]
  exact levelFill k 31 (topMask (k + 1)) (by omega) (topMask_mask_cond k hk)

theorem preallocLevels_spec : ∀ p k,
    preallocLevels p (topMask (min k 32)) (2 ^ 31 >>> k) (perfectTree (min k 32)) =
      perfectTree (min (k + p) 32) := by
  intro p
  induction p with
  | zero =>
    intro k
    show perfectTree (min k 32) = _
    congr 1
  | succ p ih =>
    intro k
    show preallocLevels p ((topMask (min k 32) >>> 1) ||| 2 ^ 31) ((2 ^ 31 >>> k) >>> 1)
      (preallocLevel ((topMask (min k 32) >>> 1) ||| 2 ^ 31) (2 ^ 31 >>> k) 0 (2 ^ 32)
        (perfectTree (min k 32))) = _
    rw [topMask_step k, ← Nat.shiftRight_add]
    by_cases hk : k ≤ 31
    · have hmin1 : min k 32 = k := by omega
      have hmin2 : min (k + 1) 32 = k + 1 := by omega
      rw [hmin1, hmin2]
      rw [preallocLevel_level k hk]
      have := ih (k + 1)
      rw [hmin2] at this
      rw [this]
      congr 1
      omega
    · have hmin1 : min k 32 = 32 := by omega
      have hmin2 : min (k + 1) 32 = 32 := by omega
      rw [hmin1, hmin2]
      have hinc : (2 ^ 31 : Nat) >>> k = 0 := two_pow_shiftRight_big k (by omega)
      rw [hinc]
      have hone : preallocLevel (topMask 32) 0 0 (2 ^ 32) (perfectTree 32) =
          perfectTree 32 := by
        rw [show (2 : Nat) ^ 32 = (2 ^ 32 - 1) + 1 by omega]
        rw [preallocLevel_zero_inc]
        show (insertGo 0 (topMask 32) NGX_RADIX_NO_VALUE (2 ^ 31) (31 + 2)
          (perfectTree (31 + 1))).2 = _
        exact insert_full_perfect_noop 0 (topMask 32) 31
      rw [hone]
      rw [show (2 ^ 31 : Nat) >>> (k + 1) = 0 from
        two_pow_shiftRight_big (k + 1) (by omega)]
      have := ih (k + 1)
      rw [hmin2, show (2 ^ 31 : Nat) >>> (k + 1) = 0 from
        two_pow_shiftRight_big (k + 1) (by omega)] at this
      rw [this]
      congr 1
      omega

theorem create_eq_perfect (d : Nat) :
    ngx_radix_tree_create (d : Int) = perfectTree (min d 32) := by
  cases d with
  | zero => rfl
  | succ d2 =>
    have h0 : ((d2 + 1 : Nat) : Int) ≠ 0 := by
      omega
    have h1 : ((d2 + 1 : Nat) : Int) ≠ -1 := by
      omega
    simp only [ngx_radix_tree_create]
    rw [if_neg h0, if_neg h1]
    have htn : ((d2 + 1 : Nat) : Int).toNat = d2 + 1 := by omega
    rw [htn]
    have := preallocLevels_spec (d2 + 1) 0
    simp only [Nat.zero_add] at this
    have hm0 : topMask (min 0 32) = 0 := rfl
    have hs0 : (2 ^ 31 : Nat) >>> 0 = 2 ^ 31 := rfl
    rw [hm0, hs0] at this
    exact this

theorem countNodes_perfect : ∀ d, countNodes (perfectTree d) = 2 ^ (d + 1) - 1 := by
  intro d
  induction d with
  | zero => rfl
  | succ d ih =>
    show 1 + countNodes (perfectTree d) + countNodes (perfectTree d) = _
    rw [ih]
    have : (2 : Nat) ^ (d + 1) ≥ 1 := Nat.pos_pow_of_pos _ (by omega)
    rw [pow_succ]
    omega

/-- Counterexample to claim C8 as universally stated: for depth d = 33 the
tree created by preallocation has only the 2^33 - 1 nodes of a depth-32
complete subtree (the 32-bit masks saturate at 32 set bits), not the
2 + 4 + ... + 2^33 = 2^34 - 2 non-root nodes the claim demands. -/
theorem C8_counterexample :
    countNodes (ngx_radix_tree_create (33 : Int)) = 2 ^ 33 - 1 ∧
    (2 ^ 33 - 1 : Nat) ≠ 2 ^ 34 - 2 + 1 := by
  constructor
  · have h := create_eq_perfect 33
    rw [show ((33 : Nat) : Int) = (33 : Int) from rfl] at h
    rw [h, show min 33 32 = 32 from rfl, countNodes_perfect]
  · decide

/-- Claim C8 as amended: for every depth 0 < d ≤ 32, creating a tree with
`preallocate = d` yields exactly the complete binary subtree of depth `d`
with every node (root included) carrying NGX_RADIX_NO_VALUE and every
depth-d node childless — the tree `perfectTree d` — and hence
2^(d+1) - 2 non-root nodes plus the root. -/
theorem C8_amended_prealloc_depth (d : Nat) (h1 : 0 < d) (h2 : d ≤ 32) :
    ngx_radix_tree_create (d : Int) = perfectTree d ∧
    countNodes (ngx_radix_tree_create (d : Int)) = 2 ^ (d + 1) - 2 + 1 := by
  have h := create_eq_perfect d
  rw [min_eq_left h2] at h
  refine ⟨h, ?_⟩
  rw [h, countNodes_perfect]
  have : (2 : Nat) ^ (d + 1) ≥ 2 ^ 1 := Nat.pow_le_pow_right (by omega) (by omega)
  omega

/-- Witness for the amended C8 at depth 3: the created tree is the complete
depth-3 subtree with 14 non-root nodes plus the root. -/
theorem C8_amended_prealloc_depth_witness :
    ngx_radix_tree_create (3 : Int) = perfectTree 3 ∧
    countNodes (ngx_radix_tree_create (3 : Int)) = 2 ^ (3 + 1) - 2 + 1 :=
  C8_amended_prealloc_depth 3 (by decide) (by decide)

theorem bitsDown_length (k : Nat) : ∀ n, (bitsDown k n).length = n := by
  intro n
  induction n with
  | zero => rfl
  | succ n ih => simp [bitsDown, ih]

theorem bitsDown_getElem (k : Nat) : ∀ n i, i < n →
    (bitsDown k n)[i]? = some (k.testBit (n - 1 - i)) := by
  intro n
  induction n with
  | zero => intro i h; omega
  | succ n ih =>
    intro i h
    cases i with
    | zero => simp [bitsDown]
    | succ i2 =>
      have hrec := ih i2 (by omega)
      have heq : n + 1 - 1 - (i2 + 1) = n - 1 - i2 := by omega
      simp only [bitsDown, List.getElem?_cons_succ, heq]
      exact hrec

theorem valueAtPath_nil : ∀ q, valueAtPath RTree.nil q = none := by
  intro q
  cases q <;> rfl

theorem deepestHit_congr : ∀ (p : List Bool) (f g : List Bool → Option Nat),
    (∀ q, f q = g q) → deepestHit f p = deepestHit g p := by
  intro p
  induction p with
  | nil => intro f g h; simpa [deepestHit] using h []
  | cons b rest ih =>
    intro f g h
    simp only [deepestHit]
    rw [ih _ _ (fun q => h (b :: q)), h []]

theorem deepestHit_none : ∀ (p : List Bool) (f : List Bool → Option Nat),
    (∀ q, f q = none) → deepestHit f p = none := by
  intro p
  induction p with
  | nil => intro f h; simpa [deepestHit] using h []
  | cons b rest ih =>
    intro f h
    simp only [deepestHit]
    rw [ih _ (fun q => h (b :: q)), h []]
    rfl

theorem orElse_getD (a b : Option Nat) (c : Nat) :
    (a.orElse fun _ => b).getD c = a.getD (b.getD c) := by
  cases a <;> cases b <;> rfl

theorem treeDepth_zero (t : RTree) (h : treeDepth t = 0) : t = .nil := by
  cases t with
  | nil => rfl
  | node r l v => simp [treeDepth] at h

theorem findGo_bit0_depth1 (key acc : Nat) (t : RTree) (h : treeDepth t ≤ 1) :
    findGo key 0 acc t = (valueAtPath t []).getD acc := by
  cases t with
  | nil => rfl
  | node r l v =>
    have hnode : treeDepth (.node r l v) = 1 + max (treeDepth r) (treeDepth l) := rfl
    have hmax : max (treeDepth r) (treeDepth l) ≤ 0 := by omega
    have hr : r = RTree.nil :=
      treeDepth_zero r (Nat.le_zero.mp (le_trans (le_max_left _ _) hmax))
    have hl : l = RTree.nil :=
      treeDepth_zero l (Nat.le_zero.mp (le_trans (le_max_right _ _) hmax))
    subst hr
    subst hl
    by_cases hv : v = NGX_RADIX_NO_VALUE <;>
      simp [findGo, valueAtPath, toOptVal, hv]

theorem findGo_deepest (key : Nat) : ∀ t j acc, treeDepth t ≤ j + 2 →
    findGo key (2 ^ j) acc t =
      (deepestHit (valueAtPath t) (bitsDown key (j + 1))).getD acc := by
  intro t
  induction t with
  | nil =>
    intro j acc _
    rw [deepestHit_none _ (valueAtPath RTree.nil) valueAtPath_nil]
    rfl
  | node r l v ihr ihl =>
    intro j acc hd
    have hd2 : max (treeDepth r) (treeDepth l) ≤ j + 1 := by
      have hnode : treeDepth (.node r l v) = 1 + max (treeDepth r) (treeDepth l) := rfl
      omega
    have hdr : treeDepth r ≤ j + 1 := le_trans (le_max_left _ _) hd2
    have hdl : treeDepth l ≤ j + 1 := le_trans (le_max_right _ _) hd2
    have hfold : deepestHit (valueAtPath (.node r l v)) (bitsDown key (j + 1)) =
        (deepestHit (valueAtPath (if key.testBit j then r else l)) (bitsDown key j)).orElse
          (fun _ => if v = NGX_RADIX_NO_VALUE then none else some v) := by
      show (deepestHit (fun q => valueAtPath (.node r l v) (key.testBit j :: q))
          (bitsDown key j)).orElse (fun _ => valueAtPath (.node r l v) []) = _
      rw [deepestHit_congr _ _ _ (fun q => rfl)]
      rfl
    have hv2 : (if v ≠ NGX_RADIX_NO_VALUE then v else acc) =
        ((if v = NGX_RADIX_NO_VALUE then none else some v) : Option Nat).getD acc := by
      by_cases hv : v = NGX_RADIX_NO_VALUE <;> simp [hv]
    have hlhs : findGo key (2 ^ j) acc (.node r l v) =
        if key &&& 2 ^ j ≠ 0 then
          findGo key ((2 ^ j) >>> 1)
            (((if v = NGX_RADIX_NO_VALUE then none else some v) : Option Nat).getD acc) r
        else
          findGo key ((2 ^ j) >>> 1)
            (((if v = NGX_RADIX_NO_VALUE then none else some v) : Option Nat).getD acc) l := by
      simp only [findGo]
      rw [hv2]
    rw [hfold, orElse_getD, hlhs]
    cases hb : key.testBit j with
    | false =>
      have hz : key &&& 2 ^ j = 0 := (land_pow_eq_zero_iff key j).mpr hb
      rw [if_neg (by simpa using hz)]
      cases j with
      | zero =>
        have hite : (if (false = true) then r else l) = l := by simp
        rw [hite, one_shiftRight, findGo_bit0_depth1 key _ l (by omega)]
        rfl
      | succ jj =>
        rw [two_pow_succ_shiftRight, ihl jj _ (by omega)]
        rfl
    | true =>
      have hnz : key &&& 2 ^ j ≠ 0 := by
        intro hc
        have := (land_pow_eq_zero_iff key j).mp hc
        simp [hb] at this
      rw [if_pos hnz]
      cases j with
      | zero =>
        have hite : (if (true = true) then r else l) = r := by simp
        rw [hite, one_shiftRight, findGo_bit0_depth1 key _ r (by omega)]
        rfl
      | succ jj =>
        rw [two_pow_succ_shiftRight, ihr jj _ (by omega)]
        rfl

theorem find32_deepest (t : RTree) (key : Nat) (hd : treeDepth t ≤ 33) :
    ngx_radix32tree_find t key =
      (deepestHit (valueAtPath t) (bitsDown key 32)).getD NGX_RADIX_NO_VALUE :=
  findGo_deepest key t 31 NGX_RADIX_NO_VALUE hd

theorem bitsDown_take_eq_iff (k p n L : Nat) (hL : L ≤ n) :
    ((bitsDown k n).take L = (bitsDown p n).take L) ↔
      (∀ i, n - L ≤ i → i < n → k.testBit i = p.testBit i) := by
  constructor
  · intro h i h1 h2
    have hs : n - 1 - i < L := by omega
    have e1 := congrArg (fun X => X[n - 1 - i]?) h
    simp only at e1
    rw [List.getElem?_take_of_lt hs, List.getElem?_take_of_lt hs,
      bitsDown_getElem k n _ (by omega), bitsDown_getElem p n _ (by omega)] at e1
    have heq : n - 1 - (n - 1 - i) = i := by omega
    rw [heq] at e1
    exact Option.some.inj e1
  · intro h
    apply List.ext_getElem?
    intro i
    by_cases hi : i < L
    · rw [List.getElem?_take_of_lt hi, List.getElem?_take_of_lt hi,
        bitsDown_getElem k n i (by omega), bitsDown_getElem p n i (by omega),
        h (n - 1 - i) (by omega) (by omega)]
    · have hlen1 : ((bitsDown k n).take L).length = L := by
        rw [List.length_take, bitsDown_length]; omega
      have hlen2 : ((bitsDown p n).take L).length = L := by
        rw [List.length_take, bitsDown_length]; omega
      rw [List.getElem?_eq_none (by omega), List.getElem?_eq_none (by omega)]

theorem match_iff_take (k p L : Nat) (hL : L ≤ 32)
    (hcanon : p &&& topMask L = p) :
    (k &&& topMask L = p) ↔ (bitsDown k 32).take L = (bitsDown p 32).take L := by
  rw [bitsDown_take_eq_iff k p 32 L hL]
  constructor
  · intro h i h1 h2
    have e := congrArg (fun x => x.testBit i) h
    simp only [Nat.testBit_and] at e
    rw [topMask_testBit_eq L i hL, decide_eq_true ⟨h1, h2⟩, Bool.and_true] at e
    exact e
  · intro h
    apply Nat.eq_of_testBit_eq
    intro i
    rw [Nat.testBit_and, topMask_testBit_eq L i hL]
    by_cases hi : 32 - L ≤ i ∧ i < 32
    · rw [decide_eq_true hi, Bool.and_true]
      exact h i hi.1 hi.2
    · rw [decide_eq_false hi, Bool.and_false]
      have e := congrArg (fun x => x.testBit i) hcanon
      simp only [Nat.testBit_and] at e
      rw [topMask_testBit_eq L i hL, decide_eq_false hi, Bool.and_false] at e
      exact e

theorem maskLen_topMask (L : Nat) (hL : L ≤ 32) : maskLen (topMask L) = L := by
  have hdef : maskLen (topMask L) = leadingOnesAux (topMask L) (2 ^ 31) 32 := rfl
  obtain ⟨h1, h2, h3⟩ := leadingOnesAux_spec (topMask L) 32 31
  rw [← hdef] at h1 h2 h3
  by_cases hlt : maskLen (topMask L) < L
  · exfalso
    have hf := h3 (by omega) (by omega)
    have ht : (topMask L).testBit (31 - maskLen (topMask L)) = true :=
      (topMask_testBit L _ hL).mpr ⟨by omega, by omega⟩
    rw [ht] at hf
    exact absurd hf (by simp)
  · by_cases hgt : L < maskLen (topMask L)
    · exfalso
      have ht := h2 L (by omega)
      have hf : ¬ ((topMask L).testBit (31 - L) = true) := by
        intro hc
        have := (topMask_testBit L _ hL).mp hc
        omega
      exact hf ht
    · omega

theorem pathOfPfx_topMask (k L : Nat) (hL : L ≤ 32) :
    pathOfPfx k (topMask L) = (bitsDown k 32).take L := by
  unfold pathOfPfx
  rw [maskLen_topMask L hL]

theorem pathOfPfx_length (k m : Nat) : (pathOfPfx k m).length = maskLen m := by
  unfold pathOfPfx
  rw [List.length_take, bitsDown_length]
  have := maskLen_le m
  omega

theorem pathOfPfx_inj {k1 m1 k2 m2 : Nat}
    (h1 : ContiguousMask m1) (h2 : ContiguousMask m2)
    (hc1 : k1 &&& m1 = k1) (hc2 : k2 &&& m2 = k2)
    (heq : pathOfPfx k1 m1 = pathOfPfx k2 m2) : k1 = k2 ∧ m1 = m2 := by
  have hlen : maskLen m1 = maskLen m2 := by
    have := congrArg List.length heq
    rwa [pathOfPfx_length, pathOfPfx_length] at this
  have hm : m1 = m2 := by
    rw [h1.2, h2.2, hlen]
  refine ⟨?_, hm⟩
  subst hm
  have hml := maskLen_le m1
  have htake : (bitsDown k1 32).take (maskLen m1) = (bitsDown k2 32).take (maskLen m1) := by
    unfold pathOfPfx at heq
    exact heq
  have hcanon2 : k2 &&& topMask (maskLen m1) = k2 := by
    rw [← h1.2]
    exact hc2
  have h' : k1 &&& topMask (maskLen m1) = k2 :=
    (match_iff_take k1 k2 (maskLen m1) hml hcanon2).mpr htake
  rw [← h1.2, hc1] at h'
  exact h'

theorem valueAtPath_node_nil_path (r l : RTree) (v : Nat) :
    valueAtPath (.node r l v) [] = toOptVal v := rfl

theorem valueAtPath_node_true (r l : RTree) (v : Nat) (q : List Bool) :
    valueAtPath (.node r l v) (true :: q) = valueAtPath r q := rfl

theorem valueAtPath_node_false (r l : RTree) (v : Nat) (q : List Bool) :
    valueAtPath (.node r l v) (false :: q) = valueAtPath l q := rfl

theorem insertGo_step_right_nil (k mask v bit fuel : Nat) (l : RTree) (v0 : Nat)
    (hb : bit &&& mask ≠ 0) (hk : k &&& bit ≠ 0) :
    insertGo k mask v bit (fuel + 1) (.node .nil l v0) =
      (NGX_OK, .node (newPath k mask v bit fuel) l v0) := by
  simp [insertGo, hb, hk]

theorem insertGo_step_left_nil (k mask v bit fuel : Nat) (r : RTree) (v0 : Nat)
    (hb : bit &&& mask ≠ 0) (hk : ¬ k &&& bit ≠ 0) :
    insertGo k mask v bit (fuel + 1) (.node r .nil v0) =
      (NGX_OK, .node r (newPath k mask v bit fuel) v0) := by
  simp [insertGo, hb, hk]

theorem insertGo_step_busy (k mask v bit fuel : Nat) (r l : RTree) (v0 : Nat)
    (hb : bit &&& mask = 0) (hv : v0 ≠ NGX_RADIX_NO_VALUE) :
    insertGo k mask v bit (fuel + 1) (.node r l v0) = (NGX_BUSY, .node r l v0) := by
  simp [insertGo, hb, hv]

theorem insertGo_bit_zero_pw (k m v : Nat) (fuel : Nat) (r l : RTree) (v0 : Nat)
    (q : List Bool) :
    valueAtPath (insertGo k m v 0 fuel (.node r l v0)).2 q =
      (if q = [] then ((valueAtPath (.node r l v0) []).orElse fun _ => toOptVal v)
       else valueAtPath (.node r l v0) q) := by
  have hres : (insertGo k m v 0 fuel (.node r l v0)).2 =
      if v0 ≠ NGX_RADIX_NO_VALUE then .node r l v0 else .node r l v := by
    cases fuel with
    | zero =>
      by_cases hv : v0 = NGX_RADIX_NO_VALUE <;> simp [insertGo, hv]
    | succ f =>
      by_cases hv : v0 = NGX_RADIX_NO_VALUE <;> simp [insertGo, hv, Nat.zero_and]
  rw [hres]
  by_cases hv : v0 = NGX_RADIX_NO_VALUE
  · rw [if_neg (not_not_intro hv)]
    cases q with
    | nil =>
      rw [if_pos rfl]
      simp [valueAtPath_node_nil_path, toOptVal, hv]
    | cons b rest =>
      rw [if_neg (by simp)]
      cases b with
      | true => rw [valueAtPath_node_true, valueAtPath_node_true]
      | false => rw [valueAtPath_node_false, valueAtPath_node_false]
  · rw [if_pos hv]
    cases q with
    | nil =>
      rw [if_pos rfl]
      simp [valueAtPath_node_nil_path, toOptVal, hv]
    | cons b rest =>
      rw [if_neg (by simp)]

theorem newPath_pw (k m v : Nat) : ∀ j L, L ≤ j + 1 → 1 ≤ L →
    (∀ i, i ≤ j → (2 ^ i &&& m ≠ 0 ↔ j < i + L)) →
    ∀ q, valueAtPath (newPath k m v (2 ^ j) (j + 1)) q =
      (if q = (bitsDown k j).take (L - 1) then toOptVal v else none) := by
  intro j
  induction j with
  | zero =>
    intro L hL1 hL2 hm q
    have hLeq : L = 1 := by omega
    subst hLeq
    have hnp : newPath k m v (2 ^ 0) (0 + 1) = .node .nil .nil v := by
      simp [newPath, Nat.zero_and]
    rw [hnp]
    cases q with
    | nil => simp [valueAtPath_node_nil_path]
    | cons b rest =>
      rw [if_neg (by simp)]
      cases b with
      | true => rw [valueAtPath_node_true, valueAtPath_nil]
      | false => rw [valueAtPath_node_false, valueAtPath_nil]
  | succ jj ih =>
    intro L hL1 hL2 hm q
    by_cases hbit : 2 ^ jj &&& m = 0
    · have hLeq : L = 1 := by
        have h := hm jj (by omega)
        have : ¬ (jj + 1 < jj + L) := fun hc => (h.mpr hc) hbit
        omega
      subst hLeq
      have hnp : newPath k m v (2 ^ (jj + 1)) (jj + 1 + 1) = .node .nil .nil v := by
        simp only [newPath, two_pow_succ_shiftRight]
        rw [if_neg (fun hc => hc hbit)]
      rw [hnp]
      cases q with
      | nil => simp [valueAtPath_node_nil_path]
      | cons b rest =>
        rw [if_neg (by simp)]
        cases b with
        | true => rw [valueAtPath_node_true, valueAtPath_nil]
        | false => rw [valueAtPath_node_false, valueAtPath_nil]
    · have hL2' : 2 ≤ L := by
        have h := (hm jj (by omega)).mp hbit
        omega
      have hmm : ∀ i, i ≤ jj → (2 ^ i &&& m ≠ 0 ↔ jj < i + (L - 1)) := by
        intro i hi
        rw [hm i (by omega)]
        omega
      have hT : (bitsDown k (jj + 1)).take (L - 1) =
          k.testBit jj :: (bitsDown k jj).take (L - 2) := by
        have h1 : L - 1 = (L - 2) + 1 := by omega
        rw [h1]
        rfl
      have hL21 : L - 1 - 1 = L - 2 := by omega
      by_cases hkb : k &&& 2 ^ jj ≠ 0
      · have hkbt : k.testBit jj = true := by
          cases htb : k.testBit jj with
          | true => rfl
          | false => exact absurd ((land_pow_eq_zero_iff k jj).mpr htb) hkb
        have hnp : newPath k m v (2 ^ (jj + 1)) (jj + 1 + 1) =
            .node (newPath k m v (2 ^ jj) (jj + 1)) .nil NGX_RADIX_NO_VALUE := by
          simp only [newPath, two_pow_succ_shiftRight]
          rw [if_pos hbit, if_pos hkb]
        rw [hnp, hT]
        cases q with
        | nil =>
          rw [if_neg (by simp)]
          simp [valueAtPath_node_nil_path, toOptVal]
        | cons b rest =>
          cases b with
          | true =>
            rw [valueAtPath_node_true, ih (L - 1) (by omega) (by omega) hmm rest, hL21,
              hkbt]
            by_cases hr : rest = (bitsDown k jj).take (L - 2)
            · rw [if_pos hr, if_pos (by rw [hr])]
            · rw [if_neg hr, if_neg (by simp [hr])]
          | false =>
            rw [valueAtPath_node_false, valueAtPath_nil,
              if_neg (by rw [hkbt]; simp)]
      · have hkbt : k.testBit jj = false := by
          cases htb : k.testBit jj with
          | false => rfl
          | true =>
            exfalso
            apply hkb
            intro hc
            rw [(land_pow_eq_zero_iff k jj).mp hc] at htb
            exact Bool.noConfusion htb
        have hnp : newPath k m v (2 ^ (jj + 1)) (jj + 1 + 1) =
            .node .nil (newPath k m v (2 ^ jj) (jj + 1)) NGX_RADIX_NO_VALUE := by
          simp only [newPath, two_pow_succ_shiftRight]
          rw [if_pos hbit, if_neg hkb]
        rw [hnp, hT]
        cases q with
        | nil =>
          rw [if_neg (by simp)]
          simp [valueAtPath_node_nil_path, toOptVal]
        | cons b rest =>
          cases b with
          | true =>
            rw [valueAtPath_node_true, valueAtPath_nil,
              if_neg (by rw [hkbt]; simp)]
          | false =>
            rw [valueAtPath_node_false, ih (L - 1) (by omega) (by omega) hmm rest, hL21,
              hkbt]
            by_cases hr : rest = (bitsDown k jj).take (L - 2)
            · rw [if_pos hr, if_pos (by rw [hr])]
            · rw [if_neg hr, if_neg (by simp [hr])]

theorem none_orElse_val (f : Unit → Option Nat) : (Option.none).orElse f = f () := rfl

theorem some_orElse_val (a : Nat) (f : Unit → Option Nat) :
    (Option.some a).orElse f = some a := rfl

theorem insertGo_exhaust_pw (k m v bit fuel : Nat) (r l : RTree) (v0 : Nat)
    (hb : bit &&& m = 0) (q : List Bool) :
    valueAtPath (insertGo k m v bit (fuel + 1) (.node r l v0)).2 q =
      (if q = [] then ((valueAtPath (.node r l v0) q).orElse fun _ => toOptVal v)
       else valueAtPath (.node r l v0) q) := by
  have hres : (insertGo k m v bit (fuel + 1) (.node r l v0)).2 =
      if v0 ≠ NGX_RADIX_NO_VALUE then .node r l v0 else .node r l v := by
    by_cases hv : v0 = NGX_RADIX_NO_VALUE <;> simp [insertGo, hb, hv]
  rw [hres]
  by_cases hv : v0 = NGX_RADIX_NO_VALUE
  · rw [if_neg (not_not_intro hv)]
    cases q with
    | nil =>
      rw [if_pos rfl]
      simp [valueAtPath_node_nil_path, toOptVal, hv]
    | cons b rest =>
      rw [if_neg (by simp)]
      cases b with
      | true => rw [valueAtPath_node_true, valueAtPath_node_true]
      | false => rw [valueAtPath_node_false, valueAtPath_node_false]
  · rw [if_pos hv]
    cases q with
    | nil =>
      rw [if_pos rfl]
      simp [valueAtPath_node_nil_path, toOptVal, hv]
    | cons b rest =>
      rw [if_neg (by simp)]

theorem insertGo_pw (k m v : Nat) : ∀ j L (r0 l0 : RTree) (v0 : Nat), L ≤ j + 1 →
    (∀ i, i ≤ j → (2 ^ i &&& m ≠ 0 ↔ j < i + L)) →
    ∀ q, valueAtPath (insertGo k m v (2 ^ j) (j + 2) (.node r0 l0 v0)).2 q =
      (if q = (bitsDown k (j + 1)).take L
       then ((valueAtPath (.node r0 l0 v0) q).orElse fun _ => toOptVal v)
       else valueAtPath (.node r0 l0 v0) q) := by
  intro j
  induction j with
  | zero =>
    intro L r0 l0 v0 hL1 hm q
    by_cases hbit : 2 ^ 0 &&& m = 0
    · have hL0 : L = 0 := by
        have h := hm 0 (le_refl 0)
        have : ¬ (0 < 0 + L) := fun hc => (h.mpr hc) hbit
        omega
      subst hL0
      rw [show (0:Nat) + 2 = 1 + 1 from rfl, List.take_zero]
      exact insertGo_exhaust_pw k m v (2 ^ 0) 1 r0 l0 v0 hbit q
    · have hLeq : L = 1 := by
        have h := (hm 0 (le_refl 0)).mp hbit
        omega
      subst hLeq
      have hT : (bitsDown k (0 + 1)).take 1 = [k.testBit 0] := rfl
      rw [show (0:Nat) + 2 = 1 + 1 from rfl, hT]
      by_cases hkb : k &&& 2 ^ 0 ≠ 0
      · have hkbt : k.testBit 0 = true := by
          cases htb : k.testBit 0 with
          | true => rfl
          | false => exact absurd ((land_pow_eq_zero_iff k 0).mpr htb) hkb
        rw [hkbt]
        cases r0 with
        | nil =>
          rw [insertGo_step_right_nil k m v (2 ^ 0) 1 l0 v0 hbit hkb]
          dsimp only
          have hnp : newPath k m v (2 ^ 0) 1 = .node .nil .nil v := by
            simp [newPath, Nat.zero_and]
          rw [hnp]
          cases q with
          | nil =>
            rw [if_neg (by simp)]
            simp only [valueAtPath_node_nil_path]
          | cons b rest =>
            cases b with
            | false =>
              rw [if_neg (by simp)]
              simp only [valueAtPath_node_false]
            | true =>
              cases rest with
              | nil =>
                rw [if_pos rfl]
                simp only [valueAtPath_node_true, valueAtPath_node_nil_path,
                  valueAtPath_nil, none_orElse_val]
              | cons b2 rest2 =>
                rw [if_neg (by simp)]
                simp only [valueAtPath_node_true]
                cases b2 <;>
                  simp only [valueAtPath_node_true, valueAtPath_node_false, valueAtPath_nil]
        | node r2 l2 v2 =>
          rw [insertGo_step_right k m v (2 ^ 0) 1 l0 v0 r2 l2 v2 hbit hkb, one_shiftRight]
          dsimp only
          cases q with
          | nil =>
            rw [if_neg (by simp)]
            simp only [valueAtPath_node_nil_path]
          | cons b rest =>
            cases b with
            | false =>
              rw [if_neg (by simp)]
              simp only [valueAtPath_node_false]
            | true =>
              simp only [valueAtPath_node_true]
              rw [insertGo_bit_zero_pw k m v 1 r2 l2 v2 rest]
              cases rest with
              | nil =>
                rw [if_pos rfl, if_pos rfl]
              | cons b2 rest2 =>
                rw [if_neg (by simp), if_neg (by simp)]
      · have hkbt : k.testBit 0 = false := by
          cases htb : k.testBit 0 with
          | false => rfl
          | true =>
            exfalso
            apply hkb
            intro hc
            rw [(land_pow_eq_zero_iff k 0).mp hc] at htb
            exact Bool.noConfusion htb
        rw [hkbt]
        cases l0 with
        | nil =>
          rw [insertGo_step_left_nil k m v (2 ^ 0) 1 r0 v0 hbit hkb]
          dsimp only
          have hnp : newPath k m v (2 ^ 0) 1 = .node .nil .nil v := by
            simp [newPath, Nat.zero_and]
          rw [hnp]
          cases q with
          | nil =>
            rw [if_neg (by simp)]
            simp only [valueAtPath_node_nil_path]
          | cons b rest =>
            cases b with
            | true =>
              rw [if_neg (by simp)]
              simp only [valueAtPath_node_true]
            | false =>
              cases rest with
              | nil =>
                rw [if_pos rfl]
                simp only [valueAtPath_node_false, valueAtPath_node_nil_path,
                  valueAtPath_nil, none_orElse_val]
              | cons b2 rest2 =>
                rw [if_neg (by simp)]
                simp only [valueAtPath_node_false]
                cases b2 <;>
                  simp only [valueAtPath_node_true, valueAtPath_node_false, valueAtPath_nil]
        | node r2 l2 v2 =>
          rw [insertGo_step_left k m v (2 ^ 0) 1 r0 v0 r2 l2 v2 hbit hkb, one_shiftRight]
          dsimp only
          cases q with
          | nil =>
            rw [if_neg (by simp)]
            simp only [valueAtPath_node_nil_path]
          | cons b rest =>
            cases b with
            | true =>
              rw [if_neg (by simp)]
              simp only [valueAtPath_node_true]
            | false =>
              simp only [valueAtPath_node_false]
              rw [insertGo_bit_zero_pw k m v 1 r2 l2 v2 rest]
              cases rest with
              | nil =>
                rw [if_pos rfl, if_pos rfl]
              | cons b2 rest2 =>
                rw [if_neg (by simp), if_neg (by simp)]
  | succ jj ih =>
    intro L r0 l0 v0 hL1 hm q
    by_cases hbit : 2 ^ (jj + 1) &&& m = 0
    · have hL0 : L = 0 := by
        have h := hm (jj + 1) (le_refl _)
        have : ¬ (jj + 1 < jj + 1 + L) := fun hc => (h.mpr hc) hbit
        omega
      subst hL0
      rw [show jj + 1 + 2 = (jj + 2) + 1 from rfl, List.take_zero]
      exact insertGo_exhaust_pw k m v (2 ^ (jj + 1)) (jj + 2) r0 l0 v0 hbit q
    · have hge1 : 1 ≤ L := by
        have h := (hm (jj + 1) (le_refl _)).mp hbit
        omega
      obtain ⟨L2, rfl⟩ : ∃ L2, L = L2 + 1 := ⟨L - 1, by omega⟩
      have hmm : ∀ i, i ≤ jj → (2 ^ i &&& m ≠ 0 ↔ jj < i + (L2 + 1 - 1)) := by
        intro i hi
        rw [hm i (by omega)]
        omega
      have hT : (bitsDown k (jj + 1 + 1)).take (L2 + 1) =
          k.testBit (jj + 1) :: (bitsDown k (jj + 1)).take L2 := rfl
      rw [hT]
      by_cases hkb : k &&& 2 ^ (jj + 1) ≠ 0
      · have hkbt : k.testBit (jj + 1) = true := by
          cases htb : k.testBit (jj + 1) with
          | true => rfl
          | false => exact absurd ((land_pow_eq_zero_iff k (jj + 1)).mpr htb) hkb
        rw [hkbt]
        cases r0 with
        | nil =>
          rw [show jj + 1 + 2 = (jj + 2) + 1 from rfl,
            insertGo_step_right_nil k m v (2 ^ (jj + 1)) (jj + 2) l0 v0 hbit hkb]
          dsimp only
          have hNP := newPath_pw k m v (jj + 1) (L2 + 1) (by omega) (by omega) hm
          simp only [Nat.add_sub_cancel] at hNP
          cases q with
          | nil =>
            rw [if_neg (by simp)]
            simp only [valueAtPath_node_nil_path]
          | cons b rest =>
            cases b with
            | false =>
              rw [if_neg (by simp)]
              simp only [valueAtPath_node_false]
            | true =>
              simp only [valueAtPath_node_true]
              rw [hNP rest]
              by_cases hr : rest = (bitsDown k (jj + 1)).take L2
              · rw [if_pos hr, if_pos (by rw [hr]), valueAtPath_nil, none_orElse_val]
              · rw [if_neg hr, if_neg (by simp [hr]), valueAtPath_nil]
        | node r2 l2 v2 =>
          rw [show jj + 1 + 2 = (jj + 2) + 1 from rfl,
            insertGo_step_right k m v (2 ^ (jj + 1)) (jj + 2) l0 v0 r2 l2 v2 hbit hkb,
            two_pow_succ_shiftRight]
          dsimp only
          have hIH := ih (L2 + 1 - 1) r2 l2 v2 (by omega) hmm
          simp only [Nat.add_sub_cancel] at hIH
          cases q with
          | nil =>
            rw [if_neg (by simp)]
            simp only [valueAtPath_node_nil_path]
          | cons b rest =>
            cases b with
            | false =>
              rw [if_neg (by simp)]
              simp only [valueAtPath_node_false]
            | true =>
              simp only [valueAtPath_node_true]
              rw [hIH rest]
              by_cases hr : rest = (bitsDown k (jj + 1)).take L2
              · rw [if_pos hr, if_pos (by rw [hr])]
              · rw [if_neg hr, if_neg (by simp [hr])]
      · have hkbt : k.testBit (jj + 1) = false := by
          cases htb : k.testBit (jj + 1) with
          | false => rfl
          | true =>
            exfalso
            apply hkb
            intro hc
            rw [(land_pow_eq_zero_iff k (jj + 1)).mp hc] at htb
            exact Bool.noConfusion htb
        rw [hkbt]
        cases l0 with
        | nil =>
          rw [show jj + 1 + 2 = (jj + 2) + 1 from rfl,
            insertGo_step_left_nil k m v (2 ^ (jj + 1)) (jj + 2) r0 v0 hbit hkb]
          dsimp only
          have hNP := newPath_pw k m v (jj + 1) (L2 + 1) (by omega) (by omega) hm
          simp only [Nat.add_sub_cancel] at hNP
          cases q with
          | nil =>
            rw [if_neg (by simp)]
            simp only [valueAtPath_node_nil_path]
          | cons b rest =>
            cases b with
            | true =>
              rw [if_neg (by simp)]
              simp only [valueAtPath_node_true]
            | false =>
              simp only [valueAtPath_node_false]
              rw [hNP rest]
              by_cases hr : rest = (bitsDown k (jj + 1)).take L2
              · rw [if_pos hr, if_pos (by rw [hr]), valueAtPath_nil, none_orElse_val]
              · rw [if_neg hr, if_neg (by simp [hr]), valueAtPath_nil]
        | node r2 l2 v2 =>
          rw [show jj + 1 + 2 = (jj + 2) + 1 from rfl,
            insertGo_step_left k m v (2 ^ (jj + 1)) (jj + 2) r0 v0 r2 l2 v2 hbit hkb,
            two_pow_succ_shiftRight]
          dsimp only
          have hIH := ih (L2 + 1 - 1) r2 l2 v2 (by omega) hmm
          simp only [Nat.add_sub_cancel] at hIH
          cases q with
          | nil =>
            rw [if_neg (by simp)]
            simp only [valueAtPath_node_nil_path]
          | cons b rest =>
            cases b with
            | true =>
              rw [if_neg (by simp)]
              simp only [valueAtPath_node_true]
            | false =>
              simp only [valueAtPath_node_false]
              rw [hIH rest]
              by_cases hr : rest = (bitsDown k (jj + 1)).take L2
              · rw [if_pos hr, if_pos (by rw [hr])]
              · rw [if_neg hr, if_neg (by simp [hr])]


theorem treeDepth_node (r l : RTree) (v : Nat) :
    treeDepth (.node r l v) = 1 + max (treeDepth r) (treeDepth l) := rfl

theorem one_add_max (x y : Nat) : 1 + max x y = max (1 + x) (1 + y) := by
  rcases Nat.le_total x y with h | h
  · rw [Nat.max_eq_right h, Nat.max_eq_right (by omega)]
  · rw [Nat.max_eq_left h, Nat.max_eq_left (by omega)]

theorem max_branch_le (rec other d L : Nat) (hrec : rec ≤ max d L) :
    1 + max rec other ≤ max (1 + max d other) (L + 1) := by
  rcases Nat.le_total rec other with h2 | h2
  · rw [Nat.max_eq_right h2]
    have ho : other ≤ max d other := Nat.le_max_right _ _
    exact le_trans (by omega) (Nat.le_max_left (1 + max d other) (L + 1))
  · rw [Nat.max_eq_left h2]
    rcases Nat.le_total d L with h3 | h3
    · have hrL : rec ≤ L := le_trans hrec (by rw [Nat.max_eq_right h3])
      exact le_trans (by omega) (Nat.le_max_right (1 + max d other) (L + 1))
    · have hrd : rec ≤ d := le_trans hrec (by rw [Nat.max_eq_left h3])
      have hd : d ≤ max d other := Nat.le_max_left _ _
      exact le_trans (by omega) (Nat.le_max_left (1 + max d other) (L + 1))

theorem max_branch_le_left (rec other d L : Nat) (hrec : rec ≤ max d L) :
    1 + max other rec ≤ max (1 + max other d) (L + 1) := by
  rcases Nat.le_total rec other with h2 | h2
  · rw [Nat.max_eq_left h2]
    have ho : other ≤ max other d := Nat.le_max_left _ _
    exact le_trans (by omega) (Nat.le_max_left (1 + max other d) (L + 1))
  · rw [Nat.max_eq_right h2]
    rcases Nat.le_total d L with h3 | h3
    · have hrL : rec ≤ L := le_trans hrec (by rw [Nat.max_eq_right h3])
      exact le_trans (by omega) (Nat.le_max_right (1 + max other d) (L + 1))
    · have hrd : rec ≤ d := le_trans hrec (by rw [Nat.max_eq_left h3])
      have hd : d ≤ max other d := Nat.le_max_right _ _
      exact le_trans (by omega) (Nat.le_max_left (1 + max other d) (L + 1))

theorem contiguous_mask_cond (m : Nat) (hm : ContiguousMask m) :
    ∀ i, i ≤ 31 → (2 ^ i &&& m ≠ 0 ↔ 31 < i + maskLen m) := by
  intro i hi
  rw [land_two_pow_ne_zero_iff]
  constructor
  · intro h
    have h2 : (topMask (maskLen m)).testBit i = true := by rw [← hm.2]; exact h
    have := (topMask_testBit (maskLen m) i (maskLen_le m)).mp h2
    omega
  · intro h
    rw [hm.2]
    exact (topMask_testBit (maskLen m) i (maskLen_le m)).mpr ⟨by omega, by omega⟩

theorem treeDepth_newPath_mask (k m v : Nat) : ∀ j L, L ≤ j + 1 → 1 ≤ L →
    (∀ i, i ≤ j → (2 ^ i &&& m ≠ 0 ↔ j < i + L)) →
    treeDepth (newPath k m v (2 ^ j) (j + 1)) ≤ L := by
  intro j
  induction j with
  | zero =>
    intro L hL1 hL2 hm
    have hnp : newPath k m v (2 ^ 0) (0 + 1) = .node .nil .nil v := by
      simp [newPath, Nat.zero_and]
    rw [hnp, treeDepth_node]
    simp [treeDepth]
    omega
  | succ jj ih =>
    intro L hL1 hL2 hm
    by_cases hbit : 2 ^ jj &&& m = 0
    · have hnp : newPath k m v (2 ^ (jj + 1)) (jj + 1 + 1) = .node .nil .nil v := by
        simp only [newPath, two_pow_succ_shiftRight]
        rw [if_neg (fun hc => hc hbit)]
      rw [hnp, treeDepth_node]
      simp [treeDepth]
      omega
    · have hL2' : 2 ≤ L := by
        have h := (hm jj (by omega)).mp hbit
        omega
      have hmm : ∀ i, i ≤ jj → (2 ^ i &&& m ≠ 0 ↔ jj < i + (L - 1)) := by
        intro i hi
        rw [hm i (by omega)]
        omega
      have hrec := ih (L - 1) (by omega) (by omega) hmm
      by_cases hkb : k &&& 2 ^ jj ≠ 0
      · have hnp : newPath k m v (2 ^ (jj + 1)) (jj + 1 + 1) =
            .node (newPath k m v (2 ^ jj) (jj + 1)) .nil NGX_RADIX_NO_VALUE := by
          simp only [newPath, two_pow_succ_shiftRight]
          rw [if_pos hbit, if_pos hkb]
        rw [hnp, treeDepth_node]
        have h0 : treeDepth RTree.nil = 0 := rfl
        rw [h0, Nat.max_zero]
        omega
      · have hnp : newPath k m v (2 ^ (jj + 1)) (jj + 1 + 1) =
            .node .nil (newPath k m v (2 ^ jj) (jj + 1)) NGX_RADIX_NO_VALUE := by
          simp only [newPath, two_pow_succ_shiftRight]
          rw [if_pos hbit, if_neg hkb]
        rw [hnp, treeDepth_node]
        have h0 : treeDepth RTree.nil = 0 := rfl
        rw [h0, Nat.zero_max]
        omega

theorem insertGo_bit_zero_shape (k m v : Nat) (fuel : Nat) (r l : RTree) (v0 : Nat) :
    (insertGo k m v 0 fuel (.node r l v0)).2 =
      if v0 ≠ NGX_RADIX_NO_VALUE then .node r l v0 else .node r l v := by
  cases fuel with
  | zero =>
    by_cases hv : v0 = NGX_RADIX_NO_VALUE <;> simp [insertGo, hv]
  | succ f =>
    by_cases hv : v0 = NGX_RADIX_NO_VALUE <;> simp [insertGo, hv, Nat.zero_and]

theorem insertGo_exhaust_shape (k m v bit fuel : Nat) (r l : RTree) (v0 : Nat)
    (hb : bit &&& m = 0) :
    (insertGo k m v bit (fuel + 1) (.node r l v0)).2 =
      if v0 ≠ NGX_RADIX_NO_VALUE then .node r l v0 else .node r l v := by
  by_cases hv : v0 = NGX_RADIX_NO_VALUE <;> simp [insertGo, hb, hv]

theorem treeDepth_insertGo_mask (k m v : Nat) : ∀ j L (r0 l0 : RTree) (v0 : Nat),
    L ≤ j + 1 →
    (∀ i, i ≤ j → (2 ^ i &&& m ≠ 0 ↔ j < i + L)) →
    treeDepth (insertGo k m v (2 ^ j) (j + 2) (.node r0 l0 v0)).2 ≤
      max (treeDepth (.node r0 l0 v0)) (L + 1) := by
  intro j
  induction j with
  | zero =>
    intro L r0 l0 v0 hL1 hm
    by_cases hbit : 2 ^ 0 &&& m = 0
    · rw [show (0:Nat) + 2 = 1 + 1 from rfl]
      have hsh := insertGo_exhaust_shape k m v (2 ^ 0) 1 r0 l0 v0 hbit
      have heq : treeDepth (insertGo k m v (2 ^ 0) (1 + 1) (.node r0 l0 v0)).2 =
          treeDepth (.node r0 l0 v0) := by
        rw [hsh]
        by_cases hv : v0 ≠ NGX_RADIX_NO_VALUE <;> simp [hv, treeDepth_node]
      rw [heq]
      exact Nat.le_max_left _ _
    · have hLeq : L = 1 := by
        have h := (hm 0 (le_refl 0)).mp hbit
        omega
      subst hLeq
      rw [show (0:Nat) + 2 = 1 + 1 from rfl]
      by_cases hkb : k &&& 2 ^ 0 ≠ 0
      · cases r0 with
        | nil =>
          rw [insertGo_step_right_nil k m v (2 ^ 0) 1 l0 v0 hbit hkb]
          dsimp only
          have hnp : newPath k m v (2 ^ 0) 1 = .node .nil .nil v := by
            simp [newPath, Nat.zero_and]
          have hleaf : treeDepth (RTree.node .nil .nil v) = 1 := rfl
          rw [hnp, treeDepth_node (RTree.node .nil .nil v) l0 v0,
            treeDepth_node RTree.nil l0 v0]
          exact max_branch_le _ _ _ 1
            (by rw [hleaf, show treeDepth RTree.nil = 0 from rfl]; decide)
        | node r2 l2 v2 =>
          rw [insertGo_step_right k m v (2 ^ 0) 1 l0 v0 r2 l2 v2 hbit hkb, one_shiftRight]
          dsimp only
          have hsh := insertGo_bit_zero_shape k m v 1 r2 l2 v2
          have heq : treeDepth (insertGo k m v 0 1 (.node r2 l2 v2)).2 =
              treeDepth (.node r2 l2 v2) := by
            rw [hsh]
            by_cases hv : v2 ≠ NGX_RADIX_NO_VALUE <;> simp [hv, treeDepth_node]
          rw [treeDepth_node, heq, ← treeDepth_node]
          exact Nat.le_max_left _ _
      · cases l0 with
        | nil =>
          rw [insertGo_step_left_nil k m v (2 ^ 0) 1 r0 v0 hbit hkb]
          dsimp only
          have hnp : newPath k m v (2 ^ 0) 1 = .node .nil .nil v := by
            simp [newPath, Nat.zero_and]
          have hleaf : treeDepth (RTree.node .nil .nil v) = 1 := rfl
          rw [hnp, treeDepth_node r0 (RTree.node .nil .nil v) v0,
            treeDepth_node r0 RTree.nil v0]
          exact max_branch_le_left _ _ _ 1
            (by rw [hleaf, show treeDepth RTree.nil = 0 from rfl]; decide)
        | node r2 l2 v2 =>
          rw [insertGo_step_left k m v (2 ^ 0) 1 r0 v0 r2 l2 v2 hbit hkb, one_shiftRight]
          dsimp only
          have hsh := insertGo_bit_zero_shape k m v 1 r2 l2 v2
          have heq : treeDepth (insertGo k m v 0 1 (.node r2 l2 v2)).2 =
              treeDepth (.node r2 l2 v2) := by
            rw [hsh]
            by_cases hv : v2 ≠ NGX_RADIX_NO_VALUE <;> simp [hv, treeDepth_node]
          rw [treeDepth_node, heq, ← treeDepth_node]
          exact Nat.le_max_left _ _
  | succ jj ih =>
    intro L r0 l0 v0 hL1 hm
    by_cases hbit : 2 ^ (jj + 1) &&& m = 0
    · rw [show jj + 1 + 2 = (jj + 2) + 1 from rfl]
      have hsh := insertGo_exhaust_shape k m v (2 ^ (jj + 1)) (jj + 2) r0 l0 v0 hbit
      have heq : treeDepth (insertGo k m v (2 ^ (jj + 1)) ((jj + 2) + 1) (.node r0 l0 v0)).2 =
          treeDepth (.node r0 l0 v0) := by
        rw [hsh]
        by_cases hv : v0 ≠ NGX_RADIX_NO_VALUE <;> simp [hv, treeDepth_node]
      rw [heq]
      exact Nat.le_max_left _ _
    · have hge1 : 1 ≤ L := by
        have h := (hm (jj + 1) (le_refl _)).mp hbit
        omega
      have hmm : ∀ i, i ≤ jj → (2 ^ i &&& m ≠ 0 ↔ jj < i + (L - 1)) := by
        intro i hi
        rw [hm i (by omega)]
        omega
      by_cases hkb : k &&& 2 ^ (jj + 1) ≠ 0
      · cases r0 with
        | nil =>
          rw [show jj + 1 + 2 = (jj + 2) + 1 from rfl,
            insertGo_step_right_nil k m v (2 ^ (jj + 1)) (jj + 2) l0 v0 hbit hkb]
          dsimp only
          have hNP : treeDepth (newPath k m v (2 ^ (jj + 1)) (jj + 2)) ≤ L :=
            treeDepth_newPath_mask k m v (jj + 1) L (by omega) (by omega) hm
          rw [treeDepth_node (newPath k m v (2 ^ (jj + 1)) (jj + 2)) l0 v0,
            treeDepth_node RTree.nil l0 v0]
          exact max_branch_le _ _ _ L
            (by rw [show treeDepth RTree.nil = 0 from rfl, Nat.zero_max]; exact hNP)
        | node r2 l2 v2 =>
          rw [show jj + 1 + 2 = (jj + 2) + 1 from rfl,
            insertGo_step_right k m v (2 ^ (jj + 1)) (jj + 2) l0 v0 r2 l2 v2 hbit hkb,
            two_pow_succ_shiftRight]
          dsimp only
          have hrec := ih (L - 1) r2 l2 v2 (by omega) hmm
          have hLm : L - 1 + 1 = L := by omega
          rw [hLm] at hrec
          rw [treeDepth_node (insertGo k m v (2 ^ jj) (jj + 2) (.node r2 l2 v2)).2 l0 v0,
            treeDepth_node (RTree.node r2 l2 v2) l0 v0]
          exact max_branch_le _ _ _ L hrec
      · cases l0 with
        | nil =>
          rw [show jj + 1 + 2 = (jj + 2) + 1 from rfl,
            insertGo_step_left_nil k m v (2 ^ (jj + 1)) (jj + 2) r0 v0 hbit hkb]
          dsimp only
          have hNP : treeDepth (newPath k m v (2 ^ (jj + 1)) (jj + 2)) ≤ L :=
            treeDepth_newPath_mask k m v (jj + 1) L (by omega) (by omega) hm
          rw [treeDepth_node r0 (newPath k m v (2 ^ (jj + 1)) (jj + 2)) v0,
            treeDepth_node r0 RTree.nil v0]
          exact max_branch_le_left _ _ _ L
            (by rw [show treeDepth RTree.nil = 0 from rfl, Nat.zero_max]; exact hNP)
        | node r2 l2 v2 =>
          rw [show jj + 1 + 2 = (jj + 2) + 1 from rfl,
            insertGo_step_left k m v (2 ^ (jj + 1)) (jj + 2) r0 v0 r2 l2 v2 hbit hkb,
            two_pow_succ_shiftRight]
          dsimp only
          have hrec := ih (L - 1) r2 l2 v2 (by omega) hmm
          have hLm : L - 1 + 1 = L := by omega
          rw [hLm] at hrec
          rw [treeDepth_node r0 (insertGo k m v (2 ^ jj) (jj + 2) (.node r2 l2 v2)).2 v0,
            treeDepth_node r0 (RTree.node r2 l2 v2) v0]
          exact max_branch_le_left _ _ _ L hrec

theorem insert32_pw (r0 l0 : RTree) (v0 k m v : Nat) (hm : ContiguousMask m)
    (q : List Bool) :
    valueAtPath (ngx_radix32tree_insert (.node r0 l0 v0) k m v).2 q =
      (if q = pathOfPfx k m
       then ((valueAtPath (.node r0 l0 v0) q).orElse fun _ => toOptVal v)
       else valueAtPath (.node r0 l0 v0) q) := by
  have hml := maskLen_le m
  have hpath : pathOfPfx k m = (bitsDown k (31 + 1)).take (maskLen m) := rfl
  rw [hpath]
  show valueAtPath (insertGo k m v (2 ^ 31) (31 + 2) (.node r0 l0 v0)).2 q = _
  exact insertGo_pw k m v 31 (maskLen m) r0 l0 v0 (by omega)
    (contiguous_mask_cond m hm) q

theorem insert32_depth (r0 l0 : RTree) (v0 k m v : Nat) (hm : ContiguousMask m)
    (hd : treeDepth (.node r0 l0 v0) ≤ 33) :
    treeDepth (ngx_radix32tree_insert (.node r0 l0 v0) k m v).2 ≤ 33 := by
  have hml := maskLen_le m
  have h : treeDepth (insertGo k m v (2 ^ 31) (31 + 2) (.node r0 l0 v0)).2 ≤
      max (treeDepth (.node r0 l0 v0)) (maskLen m + 1) :=
    treeDepth_insertGo_mask k m v 31 (maskLen m) r0 l0 v0 (by omega)
      (contiguous_mask_cond m hm)
  have h2 : max (treeDepth (.node r0 l0 v0)) (maskLen m + 1) ≤ 33 :=
    Nat.max_le.mpr ⟨hd, by omega⟩
  exact le_trans h h2

theorem deleteUp_cons (e : PathEntry) (rest : List PathEntry) :
    deleteUp (e :: rest) =
      if e.other ≠ .nil ∨ e.value ≠ NGX_RADIX_NO_VALUE ∨ rest = [] then
        some (rebuild (detachChild e) rest)
      else deleteUp rest := rfl

theorem delDescend_exhaust (k m bit fuel : Nat) (r l : RTree) (v : Nat)
    (path : List PathEntry) (hb : bit &&& m = 0) :
    delDescend k m bit (fuel + 1) (.node r l v) path = .found (.node r l v) path := by
  simp [delDescend, hb]

theorem delDescend_right (k m bit fuel : Nat) (r l : RTree) (v : Nat)
    (path : List PathEntry) (hb : bit &&& m ≠ 0) (hk : k &&& bit ≠ 0) :
    delDescend k m bit (fuel + 1) (.node r l v) path =
      delDescend k m (bit >>> 1) fuel r (⟨.right, l, v⟩ :: path) := by
  simp [delDescend, hb, hk]

theorem delDescend_left (k m bit fuel : Nat) (r l : RTree) (v : Nat)
    (path : List PathEntry) (hb : bit &&& m ≠ 0) (hk : ¬ k &&& bit ≠ 0) :
    delDescend k m bit (fuel + 1) (.node r l v) path =
      delDescend k m (bit >>> 1) fuel l (⟨.left, r, v⟩ :: path) := by
  simp [delDescend, hb, hk]

theorem delSpec_exhaust (k m bit fuel : Nat) (r l : RTree) (v : Nat)
    (hb : bit &&& m = 0) :
    delSpec k m bit (fuel + 1) (.node r l v) =
      (if r ≠ .nil ∨ l ≠ .nil then
        (if v ≠ NGX_RADIX_NO_VALUE then .kept (.node r l NGX_RADIX_NO_VALUE)
         else .notFound)
       else .pruned) := by
  simp [delSpec, hb]

theorem delSpec_right (k m bit fuel : Nat) (r l : RTree) (v : Nat)
    (hb : bit &&& m ≠ 0) (hk : k &&& bit ≠ 0) :
    delSpec k m bit (fuel + 1) (.node r l v) =
      (match delSpec k m (bit >>> 1) fuel r with
       | .notFound => .notFound
       | .kept r2 => .kept (.node r2 l v)
       | .pruned =>
         if l = .nil ∧ v = NGX_RADIX_NO_VALUE then .pruned
         else .kept (.node .nil l v)) := by
  simp [delSpec, hb, hk]

theorem delSpec_left (k m bit fuel : Nat) (r l : RTree) (v : Nat)
    (hb : bit &&& m ≠ 0) (hk : ¬ k &&& bit ≠ 0) :
    delSpec k m bit (fuel + 1) (.node r l v) =
      (match delSpec k m (bit >>> 1) fuel l with
       | .notFound => .notFound
       | .kept l2 => .kept (.node r l2 v)
       | .pruned =>
         if r = .nil ∧ v = NGX_RADIX_NO_VALUE then .pruned
         else .kept (.node r .nil v)) := by
  simp [delSpec, hb, hk]

theorem delFinish_found_node (t0 r l : RTree) (v : Nat) (path : List PathEntry) :
    delFinish t0 (.found (.node r l v) path) =
      (if r ≠ .nil ∨ l ≠ .nil then
        if v ≠ NGX_RADIX_NO_VALUE then
          some (NGX_OK, rebuild (.node r l NGX_RADIX_NO_VALUE) path)
        else some (NGX_ERROR, t0)
      else
        match deleteUp path with
        | none => none
        | some t2 => some (NGX_OK, t2)) := rfl

theorem delete32_eq_delFinish (t : RTree) (k m : Nat) :
    ngx_radix32tree_delete t k m = delFinish t (delDescend k m (2 ^ 31) 33 t []) := by
  unfold ngx_radix32tree_delete delFinish
  cases h : delDescend k m (2 ^ 31) 33 t [] with
  | notFound => rfl
  | found t2 path =>
    cases t2 with
    | nil => rfl
    | node r l v => rfl

theorem delDescend_delSpec (k m : Nat) (t0 : RTree) :
    ∀ j (t : RTree) (e : PathEntry) (path : List PathEntry),
    delFinish t0 (delDescend k m (2 ^ j) (j + 2) t (e :: path)) =
      (match delSpec k m (2 ^ j) (j + 2) t with
       | .notFound => some (NGX_ERROR, t0)
       | .kept t2 => some (NGX_OK, rebuild t2 (e :: path))
       | .pruned =>
         match deleteUp (e :: path) with
         | none => none
         | some t2 => some (NGX_OK, t2)) := by
  intro j
  induction j with
  | zero =>
    intro t e path
    cases t with
    | nil => simp [delDescend, delSpec, delFinish]
    | node r l v =>
      by_cases hb : 2 ^ 0 &&& m = 0
      · rw [show (0:Nat) + 2 = 1 + 1 from rfl,
          delDescend_exhaust k m (2 ^ 0) 1 r l v _ hb,
          delSpec_exhaust k m (2 ^ 0) 1 r l v hb]
        by_cases hch : r ≠ RTree.nil ∨ l ≠ RTree.nil
        · rw [if_pos hch]
          by_cases hv : v ≠ NGX_RADIX_NO_VALUE
          · rw [if_pos hv]
            simp [delFinish, hch, hv]
          · rw [if_neg hv]
            simp [delFinish, hch, hv]
        · rw [if_neg hch]
          simp [delFinish, hch]
      · by_cases hk : k &&& 2 ^ 0 ≠ 0
        · rw [show (0:Nat) + 2 = 1 + 1 from rfl,
            delDescend_right k m (2 ^ 0) 1 r l v _ hb hk,
            delSpec_right k m (2 ^ 0) 1 r l v hb hk, one_shiftRight]
          cases r with
          | nil => simp [delDescend, delSpec, delFinish]
          | node r2 l2 v2 =>
            rw [delDescend_exhaust k m 0 0 r2 l2 v2 _ (Nat.zero_and m),
              delSpec_exhaust k m 0 0 r2 l2 v2 (Nat.zero_and m)]
            by_cases hch : r2 ≠ RTree.nil ∨ l2 ≠ RTree.nil
            · rw [if_pos hch]
              by_cases hv2 : v2 ≠ NGX_RADIX_NO_VALUE
              · rw [if_pos hv2]
                simp [delFinish, hch, hv2, rebuild, reattach]
              · rw [if_neg hv2]
                simp [delFinish, hch, hv2]
            · rw [delFinish_found_node, if_neg hch, if_neg hch]
              rw [deleteUp_cons]
              dsimp only
              by_cases hlv : l = RTree.nil ∧ v = NGX_RADIX_NO_VALUE
              · rw [if_neg (by simp [hlv.1, hlv.2]), if_pos hlv]
              · have hcond : l ≠ RTree.nil ∨ v ≠ NGX_RADIX_NO_VALUE ∨
                    (e :: path) = [] := by tauto
                rw [if_pos hcond, if_neg hlv]
                simp [detachChild, rebuild, reattach]
        · rw [show (0:Nat) + 2 = 1 + 1 from rfl,
            delDescend_left k m (2 ^ 0) 1 r l v _ hb hk,
            delSpec_left k m (2 ^ 0) 1 r l v hb hk, one_shiftRight]
          cases l with
          | nil => simp [delDescend, delSpec, delFinish]
          | node r2 l2 v2 =>
            rw [delDescend_exhaust k m 0 0 r2 l2 v2 _ (Nat.zero_and m),
              delSpec_exhaust k m 0 0 r2 l2 v2 (Nat.zero_and m)]
            by_cases hch : r2 ≠ RTree.nil ∨ l2 ≠ RTree.nil
            · rw [if_pos hch]
              by_cases hv2 : v2 ≠ NGX_RADIX_NO_VALUE
              · rw [if_pos hv2]
                simp [delFinish, hch, hv2, rebuild, reattach]
              · rw [if_neg hv2]
                simp [delFinish, hch, hv2]
            · rw [delFinish_found_node, if_neg hch, if_neg hch]
              rw [deleteUp_cons]
              dsimp only
              by_cases hlv : r = RTree.nil ∧ v = NGX_RADIX_NO_VALUE
              · rw [if_neg (by simp [hlv.1, hlv.2]), if_pos hlv]
              · have hcond : r ≠ RTree.nil ∨ v ≠ NGX_RADIX_NO_VALUE ∨
                    (e :: path) = [] := by tauto
                rw [if_pos hcond, if_neg hlv]
                simp [detachChild, rebuild, reattach]
  | succ jj ih =>
    intro t e path
    cases t with
    | nil => simp [delDescend, delSpec, delFinish]
    | node r l v =>
      by_cases hb : 2 ^ (jj + 1) &&& m = 0
      · rw [show jj + 1 + 2 = (jj + 2) + 1 from rfl,
          delDescend_exhaust k m (2 ^ (jj + 1)) (jj + 2) r l v _ hb,
          delSpec_exhaust k m (2 ^ (jj + 1)) (jj + 2) r l v hb]
        by_cases hch : r ≠ RTree.nil ∨ l ≠ RTree.nil
        · rw [if_pos hch]
          by_cases hv : v ≠ NGX_RADIX_NO_VALUE
          · rw [if_pos hv]
            simp [delFinish, hch, hv]
          · rw [if_neg hv]
            simp [delFinish, hch, hv]
        · rw [if_neg hch]
          simp [delFinish, hch]
      · by_cases hk : k &&& 2 ^ (jj + 1) ≠ 0
        · rw [show jj + 1 + 2 = (jj + 2) + 1 from rfl,
            delDescend_right k m (2 ^ (jj + 1)) (jj + 2) r l v _ hb hk,
            delSpec_right k m (2 ^ (jj + 1)) (jj + 2) r l v hb hk,
            two_pow_succ_shiftRight]
          rw [ih r ⟨.right, l, v⟩ (e :: path)]
          cases hds : delSpec k m (2 ^ jj) (jj + 2) r with
          | notFound => simp [hds]
          | kept c2 => simp [hds, rebuild, reattach]
          | pruned =>
            simp only [hds]
            rw [deleteUp_cons]
            dsimp only
            by_cases hlv : l = RTree.nil ∧ v = NGX_RADIX_NO_VALUE
            · rw [if_neg (by simp [hlv.1, hlv.2]), if_pos hlv]
            · have hcond : l ≠ RTree.nil ∨ v ≠ NGX_RADIX_NO_VALUE ∨
                  (e :: path) = [] := by tauto
              rw [if_pos hcond, if_neg hlv]
              simp [detachChild, rebuild, reattach]
        · rw [show jj + 1 + 2 = (jj + 2) + 1 from rfl,
            delDescend_left k m (2 ^ (jj + 1)) (jj + 2) r l v _ hb hk,
            delSpec_left k m (2 ^ (jj + 1)) (jj + 2) r l v hb hk,
            two_pow_succ_shiftRight]
          rw [ih l ⟨.left, r, v⟩ (e :: path)]
          cases hds : delSpec k m (2 ^ jj) (jj + 2) l with
          | notFound => simp [hds]
          | kept c2 => simp [hds, rebuild, reattach]
          | pruned =>
            simp only [hds]
            rw [deleteUp_cons]
            dsimp only
            by_cases hlv : r = RTree.nil ∧ v = NGX_RADIX_NO_VALUE
            · rw [if_neg (by simp [hlv.1, hlv.2]), if_pos hlv]
            · have hcond : r ≠ RTree.nil ∨ v ≠ NGX_RADIX_NO_VALUE ∨
                  (e :: path) = [] := by tauto
              rw [if_pos hcond, if_neg hlv]
              simp [detachChild, rebuild, reattach]

theorem delete32_root_exhaust (r l : RTree) (v k m : Nat) (hm1 : 2 ^ 31 &&& m = 0) :
    ngx_radix32tree_delete (.node r l v) k m =
      (if r ≠ .nil ∨ l ≠ .nil then
        (if v ≠ NGX_RADIX_NO_VALUE then some (NGX_OK, .node r l NGX_RADIX_NO_VALUE)
         else some (NGX_ERROR, .node r l v))
       else none) := by
  rw [delete32_eq_delFinish, show (33:Nat) = 32 + 1 from rfl,
    delDescend_exhaust k m (2 ^ 31) 32 r l v [] hm1, delFinish_found_node]
  by_cases hch : r ≠ RTree.nil ∨ l ≠ RTree.nil
  · rw [if_pos hch, if_pos hch]
    by_cases hv : v ≠ NGX_RADIX_NO_VALUE
    · rw [if_pos hv, if_pos hv]
      rfl
    · rw [if_neg hv, if_neg hv]
  · rw [if_neg hch, if_neg hch]
    rfl

theorem delete32_root_right_nil (l : RTree) (v k m : Nat)
    (hm1 : 2 ^ 31 &&& m ≠ 0) (hk : k &&& 2 ^ 31 ≠ 0) :
    ngx_radix32tree_delete (.node .nil l v) k m = some (NGX_ERROR, .node .nil l v) := by
  rw [delete32_eq_delFinish, show (33:Nat) = 32 + 1 from rfl,
    delDescend_right k m (2 ^ 31) 32 .nil l v [] hm1 hk]
  rfl

theorem delete32_root_left_nil (r : RTree) (v k m : Nat)
    (hm1 : 2 ^ 31 &&& m ≠ 0) (hk : ¬ k &&& 2 ^ 31 ≠ 0) :
    ngx_radix32tree_delete (.node r .nil v) k m = some (NGX_ERROR, .node r .nil v) := by
  rw [delete32_eq_delFinish, show (33:Nat) = 32 + 1 from rfl,
    delDescend_left k m (2 ^ 31) 32 r .nil v [] hm1 hk]
  rfl

theorem delete32_root_right (r2 l2 l : RTree) (v2 v k m : Nat)
    (hm1 : 2 ^ 31 &&& m ≠ 0) (hk : k &&& 2 ^ 31 ≠ 0) :
    ngx_radix32tree_delete (.node (.node r2 l2 v2) l v) k m =
      (match delSpec k m (2 ^ 30) 32 (.node r2 l2 v2) with
       | .notFound => some (NGX_ERROR, .node (.node r2 l2 v2) l v)
       | .kept c2 => some (NGX_OK, .node c2 l v)
       | .pruned => some (NGX_OK, .node .nil l v)) := by
  rw [delete32_eq_delFinish, show (33:Nat) = 32 + 1 from rfl,
    delDescend_right k m (2 ^ 31) 32 (.node r2 l2 v2) l v [] hm1 hk,
    two_pow_succ_shiftRight, show (32:Nat) = 30 + 2 from rfl,
    delDescend_delSpec k m (.node (.node r2 l2 v2) l v) 30 (.node r2 l2 v2)
      ⟨.right, l, v⟩ []]
  cases hds : delSpec k m (2 ^ 30) (30 + 2) (.node r2 l2 v2) with
  | notFound => simp only [hds]
  | kept c2 =>
    simp only [hds]
    simp [rebuild, reattach]
  | pruned =>
    simp only [hds]
    simp [deleteUp, detachChild, rebuild]

theorem delete32_root_left (r r2 l2 : RTree) (v2 v k m : Nat)
    (hm1 : 2 ^ 31 &&& m ≠ 0) (hk : ¬ k &&& 2 ^ 31 ≠ 0) :
    ngx_radix32tree_delete (.node r (.node r2 l2 v2) v) k m =
      (match delSpec k m (2 ^ 30) 32 (.node r2 l2 v2) with
       | .notFound => some (NGX_ERROR, .node r (.node r2 l2 v2) v)
       | .kept c2 => some (NGX_OK, .node r c2 v)
       | .pruned => some (NGX_OK, .node r .nil v)) := by
  rw [delete32_eq_delFinish, show (33:Nat) = 32 + 1 from rfl,
    delDescend_left k m (2 ^ 31) 32 r (.node r2 l2 v2) v [] hm1 hk,
    two_pow_succ_shiftRight, show (32:Nat) = 30 + 2 from rfl,
    delDescend_delSpec k m (.node r (.node r2 l2 v2) v) 30 (.node r2 l2 v2)
      ⟨.left, r, v⟩ []]
  cases hds : delSpec k m (2 ^ 30) (30 + 2) (.node r2 l2 v2) with
  | notFound => simp only [hds]
  | kept c2 =>
    simp only [hds]
    simp [rebuild, reattach]
  | pruned =>
    simp only [hds]
    simp [deleteUp, detachChild, rebuild]

theorem delSpec_exhaust_pw (k m bit fuel : Nat) (r l : RTree) (v : Nat)
    (hb : bit &&& m = 0) :
    (match delSpec k m bit (fuel + 1) (.node r l v) with
     | .notFound => valueAtPath (.node r l v) [] = none
     | .kept t2 => t2 ≠ .nil ∧ treeDepth t2 ≤ treeDepth (.node r l v) ∧
         ∀ q, valueAtPath t2 q = (if q = [] then none else valueAtPath (.node r l v) q)
     | .pruned => ∀ q, q ≠ [] → valueAtPath (.node r l v) q = none) := by
  rw [delSpec_exhaust k m bit fuel r l v hb]
  by_cases hch : r ≠ RTree.nil ∨ l ≠ RTree.nil
  · rw [if_pos hch]
    by_cases hv : v ≠ NGX_RADIX_NO_VALUE
    · rw [if_pos hv]
      refine ⟨by simp, ?_, ?_⟩
      · exact le_of_eq (by rw [treeDepth_node, treeDepth_node])
      · intro q
        cases q with
        | nil => simp [valueAtPath_node_nil_path, toOptVal]
        | cons b rest =>
          rw [if_neg (by simp)]
          cases b with
          | true => rw [valueAtPath_node_true, valueAtPath_node_true]
          | false => rw [valueAtPath_node_false, valueAtPath_node_false]
    · rw [if_neg hv]
      have hveq : v = NGX_RADIX_NO_VALUE := by
        by_contra hc
        exact hv hc
      simp [valueAtPath_node_nil_path, toOptVal, hveq]
  · rw [if_neg hch]
    have hr : r = RTree.nil := by
      by_contra hc
      exact hch (Or.inl hc)
    have hl : l = RTree.nil := by
      by_contra hc
      exact hch (Or.inr hc)
    subst hr
    subst hl
    intro q hq
    cases q with
    | nil => exact absurd rfl hq
    | cons b rest =>
      cases b with
      | true => rw [valueAtPath_node_true, valueAtPath_nil]
      | false => rw [valueAtPath_node_false, valueAtPath_nil]

theorem delSpec_lift_right (k m bitc fuelc : Nat) (r l : RTree) (v : Nat)
    (T2 : List Bool)
    (hpw : match delSpec k m bitc fuelc r with
     | .notFound => valueAtPath r T2 = none
     | .kept t2 => t2 ≠ .nil ∧ treeDepth t2 ≤ treeDepth r ∧
         ∀ q, valueAtPath t2 q = (if q = T2 then none else valueAtPath r q)
     | .pruned => ∀ q, q ≠ T2 → valueAtPath r q = none) :
    (match (match delSpec k m bitc fuelc r with
            | .notFound => DelRes.notFound
            | .kept r2 => DelRes.kept (.node r2 l v)
            | .pruned =>
              if l = RTree.nil ∧ v = NGX_RADIX_NO_VALUE then DelRes.pruned
              else DelRes.kept (.node .nil l v)) with
     | .notFound => valueAtPath (.node r l v) (true :: T2) = none
     | .kept t2 => t2 ≠ .nil ∧ treeDepth t2 ≤ treeDepth (.node r l v) ∧
         ∀ q, valueAtPath t2 q =
           (if q = true :: T2 then none else valueAtPath (.node r l v) q)
     | .pruned => ∀ q, q ≠ true :: T2 → valueAtPath (.node r l v) q = none) := by
  cases hds : delSpec k m bitc fuelc r with
  | notFound =>
    rw [hds] at hpw
    dsimp only
    rw [valueAtPath_node_true]
    exact hpw
  | kept c2 =>
    rw [hds] at hpw
    dsimp only
    obtain ⟨hne, hdep, hq⟩ := hpw
    refine ⟨by simp, ?_, ?_⟩
    · rw [treeDepth_node, treeDepth_node]
      have := max_le_max hdep (le_refl (treeDepth l))
      omega
    · intro q
      cases q with
      | nil =>
        rw [if_neg (by simp), valueAtPath_node_nil_path, valueAtPath_node_nil_path]
      | cons b rest =>
        cases b with
        | true =>
          simp only [valueAtPath_node_true]
          rw [hq rest]
          by_cases hr : rest = T2
          · rw [if_pos hr, if_pos (by rw [hr])]
          · rw [if_neg hr, if_neg (by simp [hr])]
        | false =>
          simp only [valueAtPath_node_false]
          rw [if_neg (by simp)]
  | pruned =>
    rw [hds] at hpw
    dsimp only
    by_cases hlv : l = RTree.nil ∧ v = NGX_RADIX_NO_VALUE
    · rw [if_pos hlv]
      intro q hq
      cases q with
      | nil =>
        rw [valueAtPath_node_nil_path]
        simp [toOptVal, hlv.2]
      | cons b rest =>
        cases b with
        | true =>
          rw [valueAtPath_node_true]
          refine hpw rest ?_
          intro hc
          exact hq (by rw [hc])
        | false =>
          rw [valueAtPath_node_false, hlv.1, valueAtPath_nil]
    · rw [if_neg hlv]
      dsimp only
      refine ⟨by simp, ?_, ?_⟩
      · rw [treeDepth_node, treeDepth_node]
        have h0 : treeDepth RTree.nil = 0 := rfl
        have := max_le_max (Nat.zero_le (treeDepth r)) (le_refl (treeDepth l))
        rw [h0]
        omega
      · intro q
        cases q with
        | nil =>
          rw [if_neg (by simp), valueAtPath_node_nil_path, valueAtPath_node_nil_path]
        | cons b rest =>
          cases b with
          | true =>
            simp only [valueAtPath_node_true]
            by_cases hr : rest = T2
            · rw [if_pos (by rw [hr]), valueAtPath_nil]
            · rw [if_neg (by simp [hr]), valueAtPath_nil, hpw rest hr]
          | false =>
            simp only [valueAtPath_node_false]
            rw [if_neg (by simp)]

theorem delSpec_lift_left (k m bitc fuelc : Nat) (r l : RTree) (v : Nat)
    (T2 : List Bool)
    (hpw : match delSpec k m bitc fuelc l with
     | .notFound => valueAtPath l T2 = none
     | .kept t2 => t2 ≠ .nil ∧ treeDepth t2 ≤ treeDepth l ∧
         ∀ q, valueAtPath t2 q = (if q = T2 then none else valueAtPath l q)
     | .pruned => ∀ q, q ≠ T2 → valueAtPath l q = none) :
    (match (match delSpec k m bitc fuelc l with
            | .notFound => DelRes.notFound
            | .kept l2 => DelRes.kept (.node r l2 v)
            | .pruned =>
              if r = RTree.nil ∧ v = NGX_RADIX_NO_VALUE then DelRes.pruned
              else DelRes.kept (.node r .nil v)) with
     | .notFound => valueAtPath (.node r l v) (false :: T2) = none
     | .kept t2 => t2 ≠ .nil ∧ treeDepth t2 ≤ treeDepth (.node r l v) ∧
         ∀ q, valueAtPath t2 q =
           (if q = false :: T2 then none else valueAtPath (.node r l v) q)
     | .pruned => ∀ q, q ≠ false :: T2 → valueAtPath (.node r l v) q = none) := by
  cases hds : delSpec k m bitc fuelc l with
  | notFound =>
    rw [hds] at hpw
    dsimp only
    rw [valueAtPath_node_false]
    exact hpw
  | kept c2 =>
    rw [hds] at hpw
    dsimp only
    obtain ⟨hne, hdep, hq⟩ := hpw
    refine ⟨by simp, ?_, ?_⟩
    · rw [treeDepth_node, treeDepth_node]
      have := max_le_max (le_refl (treeDepth r)) hdep
      omega
    · intro q
      cases q with
      | nil =>
        rw [if_neg (by simp), valueAtPath_node_nil_path, valueAtPath_node_nil_path]
      | cons b rest =>
        cases b with
        | false =>
          simp only [valueAtPath_node_false]
          rw [hq rest]
          by_cases hr : rest = T2
          · rw [if_pos hr, if_pos (by rw [hr])]
          · rw [if_neg hr, if_neg (by simp [hr])]
        | true =>
          simp only [valueAtPath_node_true]
          rw [if_neg (by simp)]
  | pruned =>
    rw [hds] at hpw
    dsimp only
    by_cases hlv : r = RTree.nil ∧ v = NGX_RADIX_NO_VALUE
    · rw [if_pos hlv]
      intro q hq
      cases q with
      | nil =>
        rw [valueAtPath_node_nil_path]
        simp [toOptVal, hlv.2]
      | cons b rest =>
        cases b with
        | false =>
          rw [valueAtPath_node_false]
          refine hpw rest ?_
          intro hc
          exact hq (by rw [hc])
        | true =>
          rw [valueAtPath_node_true, hlv.1, valueAtPath_nil]
    · rw [if_neg hlv]
      dsimp only
      refine ⟨by simp, ?_, ?_⟩
      · rw [treeDepth_node, treeDepth_node]
        have h0 : treeDepth RTree.nil = 0 := rfl
        have := max_le_max (le_refl (treeDepth r)) (Nat.zero_le (treeDepth l))
        rw [h0]
        omega
      · intro q
        cases q with
        | nil =>
          rw [if_neg (by simp), valueAtPath_node_nil_path, valueAtPath_node_nil_path]
        | cons b rest =>
          cases b with
          | false =>
            simp only [valueAtPath_node_false]
            by_cases hr : rest = T2
            · rw [if_pos (by rw [hr]), valueAtPath_nil]
            · rw [if_neg (by simp [hr]), valueAtPath_nil, hpw rest hr]
          | true =>
            simp only [valueAtPath_node_true]
            rw [if_neg (by simp)]

theorem delSpec_pw (k m : Nat) : ∀ j L (r l : RTree) (v : Nat), L ≤ j + 1 →
    (∀ i, i ≤ j → (2 ^ i &&& m ≠ 0 ↔ j < i + L)) →
    (match delSpec k m (2 ^ j) (j + 2) (.node r l v) with
     | .notFound => valueAtPath (.node r l v) ((bitsDown k (j + 1)).take L) = none
     | .kept t2 => t2 ≠ .nil ∧ treeDepth t2 ≤ treeDepth (.node r l v) ∧
         ∀ q, valueAtPath t2 q =
           (if q = (bitsDown k (j + 1)).take L then none
            else valueAtPath (.node r l v) q)
     | .pruned => ∀ q, q ≠ (bitsDown k (j + 1)).take L →
         valueAtPath (.node r l v) q = none) := by
  intro j
  induction j with
  | zero =>
    intro L r l v hL1 hm
    by_cases hbit : 2 ^ 0 &&& m = 0
    · have hL0 : L = 0 := by
        have h := hm 0 (le_refl 0)
        have : ¬ (0 < 0 + L) := fun hc => (h.mpr hc) hbit
        omega
      subst hL0
      simp only [List.take_zero]
      rw [show (0:Nat) + 2 = 1 + 1 from rfl]
      exact delSpec_exhaust_pw k m (2 ^ 0) 1 r l v hbit
    · have hLeq : L = 1 := by
        have h := (hm 0 (le_refl 0)).mp hbit
        omega
      subst hLeq
      have hT : (bitsDown k (0 + 1)).take 1 = [k.testBit 0] := rfl
      rw [show (0:Nat) + 2 = 1 + 1 from rfl]
      by_cases hkb : k &&& 2 ^ 0 ≠ 0
      · have hkbt : k.testBit 0 = true := by
          cases htb : k.testBit 0 with
          | true => rfl
          | false => exact absurd ((land_pow_eq_zero_iff k 0).mpr htb) hkb
        simp only [hT, hkbt]
        rw [delSpec_right k m (2 ^ 0) 1 r l v hbit hkb, one_shiftRight]
        cases r with
        | nil =>
          show valueAtPath (RTree.node RTree.nil l v) (true :: []) = none
          rw [valueAtPath_node_true, valueAtPath_nil]
        | node r2 l2 v2 =>
          exact delSpec_lift_right k m 0 1 (.node r2 l2 v2) l v []
            (delSpec_exhaust_pw k m 0 0 r2 l2 v2 (Nat.zero_and m))
      · have hkbt : k.testBit 0 = false := by
          cases htb : k.testBit 0 with
          | false => rfl
          | true =>
            exfalso
            apply hkb
            intro hc
            rw [(land_pow_eq_zero_iff k 0).mp hc] at htb
            exact Bool.noConfusion htb
        simp only [hT, hkbt]
        rw [delSpec_left k m (2 ^ 0) 1 r l v hbit hkb, one_shiftRight]
        cases l with
        | nil =>
          show valueAtPath (RTree.node r RTree.nil v) (false :: []) = none
          rw [valueAtPath_node_false, valueAtPath_nil]
        | node r2 l2 v2 =>
          exact delSpec_lift_left k m 0 1 r (.node r2 l2 v2) v []
            (delSpec_exhaust_pw k m 0 0 r2 l2 v2 (Nat.zero_and m))
  | succ jj ih =>
    intro L r l v hL1 hm
    by_cases hbit : 2 ^ (jj + 1) &&& m = 0
    · have hL0 : L = 0 := by
        have h := hm (jj + 1) (le_refl _)
        have : ¬ (jj + 1 < jj + 1 + L) := fun hc => (h.mpr hc) hbit
        omega
      subst hL0
      simp only [List.take_zero]
      rw [show jj + 1 + 2 = (jj + 2) + 1 from rfl]
      exact delSpec_exhaust_pw k m (2 ^ (jj + 1)) (jj + 2) r l v hbit
    · have hge1 : 1 ≤ L := by
        have h := (hm (jj + 1) (le_refl _)).mp hbit
        omega
      obtain ⟨L2, rfl⟩ : ∃ L2, L = L2 + 1 := ⟨L - 1, by omega⟩
      have hmm : ∀ i, i ≤ jj → (2 ^ i &&& m ≠ 0 ↔ jj < i + (L2 + 1 - 1)) := by
        intro i hi
        rw [hm i (by omega)]
        omega
      have hT : (bitsDown k (jj + 1 + 1)).take (L2 + 1) =
          k.testBit (jj + 1) :: (bitsDown k (jj + 1)).take L2 := rfl
      rw [show jj + 1 + 2 = (jj + 2) + 1 from rfl]
      by_cases hkb : k &&& 2 ^ (jj + 1) ≠ 0
      · have hkbt : k.testBit (jj + 1) = true := by
          cases htb : k.testBit (jj + 1) with
          | true => rfl
          | false => exact absurd ((land_pow_eq_zero_iff k (jj + 1)).mpr htb) hkb
        simp only [hT, hkbt]
        rw [delSpec_right k m (2 ^ (jj + 1)) (jj + 2) r l v hbit hkb,
          two_pow_succ_shiftRight]
        cases r with
        | nil =>
          show valueAtPath (RTree.node RTree.nil l v)
            (true :: (bitsDown k (jj + 1)).take L2) = none
          rw [valueAtPath_node_true, valueAtPath_nil]
        | node r2 l2 v2 =>
          have hin := ih (L2 + 1 - 1) r2 l2 v2 (by omega) hmm
          simp only [Nat.add_sub_cancel] at hin
          exact delSpec_lift_right k m (2 ^ jj) (jj + 2) (.node r2 l2 v2) l v
            ((bitsDown k (jj + 1)).take L2) hin
      · have hkbt : k.testBit (jj + 1) = false := by
          cases htb : k.testBit (jj + 1) with
          | false => rfl
          | true =>
            exfalso
            apply hkb
            intro hc
            rw [(land_pow_eq_zero_iff k (jj + 1)).mp hc] at htb
            exact Bool.noConfusion htb
        simp only [hT, hkbt]
        rw [delSpec_left k m (2 ^ (jj + 1)) (jj + 2) r l v hbit hkb,
          two_pow_succ_shiftRight]
        cases l with
        | nil =>
          show valueAtPath (RTree.node r RTree.nil v)
            (false :: (bitsDown k (jj + 1)).take L2) = none
          rw [valueAtPath_node_false, valueAtPath_nil]
        | node r2 l2 v2 =>
          have hin := ih (L2 + 1 - 1) r2 l2 v2 (by omega) hmm
          simp only [Nat.add_sub_cancel] at hin
          exact delSpec_lift_left k m (2 ^ jj) (jj + 2) r (.node r2 l2 v2) v
            ((bitsDown k (jj + 1)).take L2) hin

theorem delete32_pw (r l : RTree) (v k m : Nat) (hm : ContiguousMask m)
    (res : Int × RTree) (hdel : ngx_radix32tree_delete (.node r l v) k m = some res) :
    res.2 ≠ RTree.nil ∧ treeDepth res.2 ≤ treeDepth (.node r l v) ∧
      ((res.2 = .node r l v ∧ valueAtPath (.node r l v) (pathOfPfx k m) = none) ∨
       (∀ q, valueAtPath res.2 q =
          (if q = pathOfPfx k m then none else valueAtPath (.node r l v) q))) := by
  have hmc := contiguous_mask_cond m hm
  by_cases hbit : 2 ^ 31 &&& m = 0
  · have hml0 : maskLen m = 0 := by
      have h := hmc 31 (le_refl 31)
      by_contra hc
      exact (h.mpr (by omega)) hbit
    have hT : pathOfPfx k m = [] := by
      unfold pathOfPfx
      rw [hml0, List.take_zero]
    rw [delete32_root_exhaust r l v k m hbit] at hdel
    by_cases hch : r ≠ RTree.nil ∨ l ≠ RTree.nil
    · rw [if_pos hch] at hdel
      by_cases hv : v ≠ NGX_RADIX_NO_VALUE
      · rw [if_pos hv] at hdel
        have hres : res = (NGX_OK, .node r l NGX_RADIX_NO_VALUE) :=
          (Option.some.inj hdel).symm
        subst hres
        refine ⟨by simp, ?_, Or.inr ?_⟩
        · exact le_of_eq (by rw [treeDepth_node, treeDepth_node])
        · intro q
          rw [hT]
          cases q with
          | nil =>
            rw [if_pos rfl]
            simp [valueAtPath_node_nil_path, toOptVal]
          | cons b rest =>
            rw [if_neg (by simp)]
            cases b with
            | true =>
              show valueAtPath (RTree.node r l NGX_RADIX_NO_VALUE) (true :: rest) = _
              rw [valueAtPath_node_true, valueAtPath_node_true]
            | false =>
              show valueAtPath (RTree.node r l NGX_RADIX_NO_VALUE) (false :: rest) = _
              rw [valueAtPath_node_false, valueAtPath_node_false]
      · rw [if_neg hv] at hdel
        have hres : res = (NGX_ERROR, .node r l v) := (Option.some.inj hdel).symm
        subst hres
        refine ⟨by simp, le_refl _, Or.inl ⟨rfl, ?_⟩⟩
        rw [hT, valueAtPath_node_nil_path]
        simp [toOptVal, show v = NGX_RADIX_NO_VALUE from by by_contra hc; exact hv hc]
    · rw [if_neg hch] at hdel
      exact absurd hdel (by simp)
  · have hml1 : 1 ≤ maskLen m := by
      have h := (hmc 31 (le_refl 31)).mp hbit
      omega
    have hmlle := maskLen_le m
    obtain ⟨L2, hL2⟩ : ∃ L2, maskLen m = L2 + 1 := ⟨maskLen m - 1, by omega⟩
    have hmm : ∀ i, i ≤ 30 → (2 ^ i &&& m ≠ 0 ↔ 30 < i + L2) := by
      intro i hi
      rw [hmc i (by omega)]
      omega
    have hT : pathOfPfx k m = k.testBit 31 :: (bitsDown k 31).take L2 := by
      unfold pathOfPfx
      rw [hL2]
      rfl
    by_cases hkb : k &&& 2 ^ 31 ≠ 0
    · have hkbt : k.testBit 31 = true := by
        cases htb : k.testBit 31 with
        | true => rfl
        | false => exact absurd ((land_pow_eq_zero_iff k 31).mpr htb) hkb
      rw [hT, hkbt]
      cases r with
      | nil =>
        rw [delete32_root_right_nil l v k m hbit hkb] at hdel
        have hres : res = (NGX_ERROR, .node RTree.nil l v) := (Option.some.inj hdel).symm
        subst hres
        refine ⟨by simp, le_refl _, Or.inl ⟨rfl, ?_⟩⟩
        rw [valueAtPath_node_true, valueAtPath_nil]
      | node r2 l2 v2 =>
        rw [delete32_root_right r2 l2 l v2 v k m hbit hkb] at hdel
        have hin := delSpec_pw k m 30 L2 r2 l2 v2 (by omega)
          (by intro i hi; rw [hmm i hi])
        rw [show (30:Nat) + 2 = 32 from rfl] at hin
        cases hds : delSpec k m (2 ^ 30) 32 (.node r2 l2 v2) with
        | notFound =>
          rw [hds] at hin
          simp only [hds] at hdel
          have hres : res = (NGX_ERROR, .node (.node r2 l2 v2) l v) :=
            (Option.some.inj hdel).symm
          subst hres
          refine ⟨by simp, le_refl _, Or.inl ⟨rfl, ?_⟩⟩
          rw [valueAtPath_node_true]
          exact hin
        | kept c2 =>
          rw [hds] at hin
          simp only [hds] at hdel
          have hres : res = (NGX_OK, .node c2 l v) := (Option.some.inj hdel).symm
          subst hres
          obtain ⟨hne, hdep, hq⟩ := hin
          refine ⟨by simp, ?_, Or.inr ?_⟩
          · show treeDepth (RTree.node c2 l v) ≤ _
            rw [treeDepth_node, treeDepth_node]
            have := max_le_max hdep (le_refl (treeDepth l))
            omega
          · intro q
            cases q with
            | nil =>
              rw [if_neg (by simp)]
              show valueAtPath (RTree.node c2 l v) [] = _
              rw [valueAtPath_node_nil_path, valueAtPath_node_nil_path]
            | cons b rest =>
              cases b with
              | true =>
                show valueAtPath (RTree.node c2 l v) (true :: rest) = _
                simp only [valueAtPath_node_true]
                rw [hq rest]
                by_cases hr : rest = (bitsDown k 31).take L2
                · rw [if_pos hr, if_pos (by rw [hr])]
                · rw [if_neg (by rw [show (30:Nat) + 1 = 31 from rfl]; exact hr),
                    if_neg (by simp [hr])]
              | false =>
                show valueAtPath (RTree.node c2 l v) (false :: rest) = _
                simp only [valueAtPath_node_false]
                rw [if_neg (by simp)]
        | pruned =>
          rw [hds] at hin
          simp only [hds] at hdel
          have hres : res = (NGX_OK, .node RTree.nil l v) := (Option.some.inj hdel).symm
          subst hres
          refine ⟨by simp, ?_, Or.inr ?_⟩
          · show treeDepth (RTree.node RTree.nil l v) ≤ _
            rw [treeDepth_node, treeDepth_node]
            have h0 : treeDepth RTree.nil = 0 := rfl
            have := max_le_max (Nat.zero_le (treeDepth (.node r2 l2 v2)))
              (le_refl (treeDepth l))
            rw [h0]
            omega
          · intro q
            cases q with
            | nil =>
              rw [if_neg (by simp)]
              show valueAtPath (RTree.node RTree.nil l v) [] = _
              rw [valueAtPath_node_nil_path, valueAtPath_node_nil_path]
            | cons b rest =>
              cases b with
              | true =>
                show valueAtPath (RTree.node RTree.nil l v) (true :: rest) = _
                simp only [valueAtPath_node_true]
                rw [valueAtPath_nil]
                by_cases hr : rest = (bitsDown k 31).take L2
                · rw [if_pos (by rw [hr])]
                · rw [if_neg (by simp [hr]),
                    hin rest (by rw [show (30:Nat) + 1 = 31 from rfl]; exact hr)]
              | false =>
                show valueAtPath (RTree.node RTree.nil l v) (false :: rest) = _
                simp only [valueAtPath_node_false]
                rw [if_neg (by simp)]
    · have hkbt : k.testBit 31 = false := by
        cases htb : k.testBit 31 with
        | false => rfl
        | true =>
          exfalso
          apply hkb
          intro hc
          rw [(land_pow_eq_zero_iff k 31).mp hc] at htb
          exact Bool.noConfusion htb
      rw [hT, hkbt]
      cases l with
      | nil =>
        rw [delete32_root_left_nil r v k m hbit hkb] at hdel
        have hres : res = (NGX_ERROR, .node r RTree.nil v) := (Option.some.inj hdel).symm
        subst hres
        refine ⟨by simp, le_refl _, Or.inl ⟨rfl, ?_⟩⟩
        rw [valueAtPath_node_false, valueAtPath_nil]
      | node r2 l2 v2 =>
        rw [delete32_root_left r r2 l2 v2 v k m hbit hkb] at hdel
        have hin := delSpec_pw k m 30 L2 r2 l2 v2 (by omega)
          (by intro i hi; rw [hmm i hi])
        rw [show (30:Nat) + 2 = 32 from rfl] at hin
        cases hds : delSpec k m (2 ^ 30) 32 (.node r2 l2 v2) with
        | notFound =>
          rw [hds] at hin
          simp only [hds] at hdel
          have hres : res = (NGX_ERROR, .node r (.node r2 l2 v2) v) :=
            (Option.some.inj hdel).symm
          subst hres
          refine ⟨by simp, le_refl _, Or.inl ⟨rfl, ?_⟩⟩
          rw [valueAtPath_node_false]
          exact hin
        | kept c2 =>
          rw [hds] at hin
          simp only [hds] at hdel
          have hres : res = (NGX_OK, .node r c2 v) := (Option.some.inj hdel).symm
          subst hres
          obtain ⟨hne, hdep, hq⟩ := hin
          refine ⟨by simp, ?_, Or.inr ?_⟩
          · show treeDepth (RTree.node r c2 v) ≤ _
            rw [treeDepth_node, treeDepth_node]
            have := max_le_max (le_refl (treeDepth r)) hdep
            omega
          · intro q
            cases q with
            | nil =>
              rw [if_neg (by simp)]
              show valueAtPath (RTree.node r c2 v) [] = _
              rw [valueAtPath_node_nil_path, valueAtPath_node_nil_path]
            | cons b rest =>
              cases b with
              | false =>
                show valueAtPath (RTree.node r c2 v) (false :: rest) = _
                simp only [valueAtPath_node_false]
                rw [hq rest]
                by_cases hr : rest = (bitsDown k 31).take L2
                · rw [if_pos hr, if_pos (by rw [hr])]
                · rw [if_neg (by rw [show (30:Nat) + 1 = 31 from rfl]; exact hr),
                    if_neg (by simp [hr])]
              | true =>
                show valueAtPath (RTree.node r c2 v) (true :: rest) = _
                simp only [valueAtPath_node_true]
                rw [if_neg (by simp)]
        | pruned =>
          rw [hds] at hin
          simp only [hds] at hdel
          have hres : res = (NGX_OK, .node r RTree.nil v) := (Option.some.inj hdel).symm
          subst hres
          refine ⟨by simp, ?_, Or.inr ?_⟩
          · show treeDepth (RTree.node r RTree.nil v) ≤ _
            rw [treeDepth_node, treeDepth_node]
            have h0 : treeDepth RTree.nil = 0 := rfl
            have := max_le_max (le_refl (treeDepth r))
              (Nat.zero_le (treeDepth (.node r2 l2 v2)))
            rw [h0]
            omega
          · intro q
            cases q with
            | nil =>
              rw [if_neg (by simp)]
              show valueAtPath (RTree.node r RTree.nil v) [] = _
              rw [valueAtPath_node_nil_path, valueAtPath_node_nil_path]
            | cons b rest =>
              cases b with
              | false =>
                show valueAtPath (RTree.node r RTree.nil v) (false :: rest) = _
                simp only [valueAtPath_node_false]
                rw [valueAtPath_nil]
                by_cases hr : rest = (bitsDown k 31).take L2
                · rw [if_pos (by rw [hr])]
                · rw [if_neg (by simp [hr]),
                    hin rest (by rw [show (30:Nat) + 1 = 31 from rfl]; exact hr)]
              | true =>
                show valueAtPath (RTree.node r RTree.nil v) (true :: rest) = _
                simp only [valueAtPath_node_true]
                rw [if_neg (by simp)]

theorem lookupStore_none_iff (p : List Bool) : ∀ s : List (Nat × Nat × Nat),
    lookupStore s p = none ↔ ∀ e ∈ s, pathOfPfx e.1 e.2.1 ≠ p := by
  intro s
  induction s with
  | nil => simp [lookupStore]
  | cons e rest ih =>
    by_cases hp : pathOfPfx e.1 e.2.1 = p
    · simp [lookupStore, hp]
    · simp only [lookupStore, if_neg hp]
      rw [ih]
      constructor
      · intro h e2 he2
        rcases List.mem_cons.mp he2 with h1 | h1
        · rw [h1]; exact hp
        · exact h e2 h1
      · intro h e2 he2
        exact h e2 (List.mem_cons_of_mem e he2)

theorem lookupStore_some_exists (p : List Bool) (w : Nat) :
    ∀ s : List (Nat × Nat × Nat), lookupStore s p = some w →
    ∃ e ∈ s, pathOfPfx e.1 e.2.1 = p ∧ e.2.2 = w := by
  intro s
  induction s with
  | nil => intro h; simp [lookupStore] at h
  | cons e rest ih =>
    intro h
    by_cases hp : pathOfPfx e.1 e.2.1 = p
    · rw [lookupStore, if_pos hp] at h
      exact ⟨e, List.mem_cons_self e rest, hp, Option.some.inj h⟩
    · rw [lookupStore, if_neg hp] at h
      obtain ⟨e2, he2, h1, h2⟩ := ih h
      exact ⟨e2, List.mem_cons_of_mem e he2, h1, h2⟩

theorem lookupStore_uniq_mem : ∀ s : List (Nat × Nat × Nat), StoreUniq s →
    ∀ e ∈ s, lookupStore s (pathOfPfx e.1 e.2.1) = some e.2.2 := by
  intro s
  induction s with
  | nil => intro _ e he; simp at he
  | cons e0 rest ih =>
    intro hu e he
    have hu2 := List.pairwise_cons.mp hu
    rcases List.mem_cons.mp he with h1 | h1
    · subst h1
      rw [lookupStore, if_pos rfl]
    · rw [lookupStore, if_neg ?_]
      · exact ih hu2.2 e h1
      · intro hc
        exact hu2.1 e h1 hc

theorem lookup_filter_del (k m : Nat) (hm : ContiguousMask m) (hk : k &&& m = k) :
    ∀ s : List (Nat × Nat × Nat), StoreWF s → ∀ q,
    lookupStore (s.filter fun e => !decide (e.1 = k ∧ e.2.1 = m)) q =
      (if q = pathOfPfx k m then none else lookupStore s q) := by
  intro s
  induction s with
  | nil =>
    intro _ q
    by_cases hq : q = pathOfPfx k m <;> simp [lookupStore, hq]
  | cons e rest ih =>
    intro hwf q
    have hwfe := hwf e (List.mem_cons_self e rest)
    have hwfrest : StoreWF rest := fun e2 he2 => hwf e2 (List.mem_cons_of_mem e he2)
    by_cases hmatch : e.1 = k ∧ e.2.1 = m
    · have hfilter : (e :: rest).filter (fun e => !decide (e.1 = k ∧ e.2.1 = m)) =
          rest.filter (fun e => !decide (e.1 = k ∧ e.2.1 = m)) := by
        rw [List.filter_cons]
        simp [hmatch.1, hmatch.2]
      rw [hfilter, ih hwfrest q]
      by_cases hq : q = pathOfPfx k m
      · rw [if_pos hq, if_pos hq]
      · rw [if_neg hq, if_neg hq, lookupStore]
        rw [if_neg ?_]
        intro hc
        rw [hmatch.1, hmatch.2] at hc
        exact hq hc.symm
    · have hfilter : (e :: rest).filter (fun e => !decide (e.1 = k ∧ e.2.1 = m)) =
          e :: rest.filter (fun e => !decide (e.1 = k ∧ e.2.1 = m)) := by
        rw [List.filter_cons]
        simp [hmatch]
      rw [hfilter]
      have hpne : pathOfPfx e.1 e.2.1 ≠ pathOfPfx k m := by
        intro hc
        have := pathOfPfx_inj hwfe.2.1 hm hwfe.2.2.1 hk hc
        exact hmatch ⟨this.1, this.2⟩
      by_cases hq : q = pathOfPfx k m
      · rw [if_pos hq, lookupStore, if_neg (by rw [hq]; exact hpne)]
        rw [ih hwfrest q, if_pos hq]
      · rw [if_neg hq, lookupStore, lookupStore]
        by_cases hpq : pathOfPfx e.1 e.2.1 = q
        · rw [if_pos hpq, if_pos hpq]
        · rw [if_neg hpq, if_neg hpq, ih hwfrest q, if_neg hq]

theorem delete32_pw_all (r l : RTree) (v k m : Nat) (hm : ContiguousMask m)
    (res : Int × RTree) (hdel : ngx_radix32tree_delete (.node r l v) k m = some res) :
    res.2 ≠ RTree.nil ∧ treeDepth res.2 ≤ treeDepth (.node r l v) ∧
      ∀ q, valueAtPath res.2 q =
        (if q = pathOfPfx k m then none else valueAtPath (.node r l v) q) := by
  obtain ⟨h1, h2, h3⟩ := delete32_pw r l v k m hm res hdel
  refine ⟨h1, h2, ?_⟩
  rcases h3 with ⟨heq, hnone⟩ | hpw
  · intro q
    rw [heq]
    by_cases hq : q = pathOfPfx k m
    · rw [if_pos hq, hq]
      exact hnone
    · rw [if_neg hq]
  · exact hpw

theorem runOps_inv : ∀ (ops : List ROp) (s : List (Nat × Nat × Nat))
    (r l : RTree) (v : Nat) (t2 : RTree),
    OpsWF s ops → StoreWF s → StoreUniq s → TreeInv s (.node r l v) →
    treeDepth (.node r l v) ≤ 33 →
    runOps (.node r l v) ops = some t2 →
    (∃ r2 l2 v2, t2 = RTree.node r2 l2 v2) ∧ StoreWF (ops.foldl storeStep s) ∧
      StoreUniq (ops.foldl storeStep s) ∧ TreeInv (ops.foldl storeStep s) t2 ∧
      treeDepth t2 ≤ 33 := by
  intro ops
  induction ops with
  | nil =>
    intro s r l v t2 _ hwf hu hinv hd hrun
    have ht2 : t2 = RTree.node r l v := (Option.some.inj hrun).symm
    subst ht2
    exact ⟨⟨r, l, v, rfl⟩, hwf, hu, hinv, hd⟩
  | cons op rest ih =>
    intro s r l v t2 hops hwf hu hinv hd hrun
    cases op with
    | ins k m vv =>
      obtain ⟨hk32, hcm, hcanon, hvne, hnp, hopsrest⟩ := hops
      have hcons : storeStep s (ROp.ins k m vv) = (k, m, vv) :: s := by
        show (if ∃ e ∈ s, e.1 = k ∧ e.2.1 = m then s else (k, m, vv) :: s) =
          (k, m, vv) :: s
        rw [if_neg ?_]
        intro hc
        obtain ⟨e, he, hee⟩ := hc
        exact hnp e he hee
      have hpnew : ∀ e ∈ s, pathOfPfx e.1 e.2.1 ≠ pathOfPfx k m := by
        intro e he hc
        have hwfe := hwf e he
        have := pathOfPfx_inj hwfe.2.1 hcm hwfe.2.2.1 hcanon hc
        exact hnp e he ⟨this.1, this.2⟩
      have hlooknone : lookupStore s (pathOfPfx k m) = none :=
        (lookupStore_none_iff (pathOfPfx k m) s).mpr hpnew
      have hrun2 : runOps (ngx_radix32tree_insert (.node r l v) k m vv).2 rest =
          some t2 := hrun
      have hne := insertGo_snd_ne_nil k m vv 33 (2 ^ 31) r l v
      cases htt : (ngx_radix32tree_insert (.node r l v) k m vv).2 with
      | nil => exact absurd htt hne
      | node r2 l2 v2 =>
        rw [htt] at hrun2
        have hwf2 : StoreWF ((k, m, vv) :: s) := by
          intro e he
          rcases List.mem_cons.mp he with h1 | h1
          · rw [h1]
            exact ⟨hk32, hcm, hcanon, hvne⟩
          · exact hwf e h1
        have hu2 : StoreUniq ((k, m, vv) :: s) := by
          refine List.pairwise_cons.mpr ⟨?_, hu⟩
          intro e he hc
          exact hpnew e he hc.symm
        have hlk : ∀ q, lookupStore ((k, m, vv) :: s) q =
            (if pathOfPfx k m = q then some vv else lookupStore s q) := fun q => rfl
        have hinv2 : TreeInv ((k, m, vv) :: s) (.node r2 l2 v2) := by
          intro q
          rw [← htt, insert32_pw r l v k m vv hcm q, hlk q]
          by_cases hq : q = pathOfPfx k m
          · rw [if_pos hq, if_pos hq.symm, hinv q, hq, hlooknone]
            show toOptVal vv = some vv
            simp [toOptVal, hvne]
          · rw [if_neg hq, if_neg (fun hc => hq hc.symm)]
            exact hinv q
        have hd2 : treeDepth (RTree.node r2 l2 v2) ≤ 33 := by
          rw [← htt]
          exact insert32_depth r l v k m vv hcm hd
        rw [hcons] at hopsrest
        simp only [List.foldl_cons]
        rw [hcons]
        exact ih ((k, m, vv) :: s) r2 l2 v2 t2 hopsrest hwf2 hu2 hinv2 hd2 hrun2
    | del k m =>
      obtain ⟨hk32, hcm, hcanon, hopsrest⟩ := hops
      have hrun2 : (match ngx_radix32tree_delete (.node r l v) k m with
          | none => none
          | some r2 => runOps r2.2 rest) = some t2 := hrun
      cases hdel : ngx_radix32tree_delete (.node r l v) k m with
      | none =>
        simp only [hdel] at hrun2
        exact absurd hrun2 (by simp)
      | some res =>
        simp only [hdel] at hrun2
        obtain ⟨hne, hdep, hpw⟩ := delete32_pw_all r l v k m hcm res hdel
        cases hres : res.2 with
        | nil => exact absurd hres hne
        | node r2 l2 v2 =>
          rw [hres] at hrun2 hpw hdep
          have hwf2 : StoreWF (s.filter fun e => !decide (e.1 = k ∧ e.2.1 = m)) :=
            fun e he => hwf e (List.mem_of_mem_filter he)
          have hu2 : StoreUniq (s.filter fun e => !decide (e.1 = k ∧ e.2.1 = m)) :=
            List.Pairwise.sublist (List.filter_sublist s) hu
          have hinv2 : TreeInv (s.filter fun e => !decide (e.1 = k ∧ e.2.1 = m))
              (.node r2 l2 v2) := by
            intro q
            rw [hpw q, lookup_filter_del k m hcm hcanon s hwf q]
            by_cases hq : q = pathOfPfx k m
            · rw [if_pos hq, if_pos hq]
            · rw [if_neg hq, if_neg hq]
              exact hinv q
          have hd2 : treeDepth (RTree.node r2 l2 v2) ≤ 33 := le_trans hdep hd
          simp only [List.foldl_cons]
          have hfs : storeStep s (ROp.del k m) =
              s.filter (fun e => !decide (e.1 = k ∧ e.2.1 = m)) := rfl
          rw [hfs]
          rw [hfs] at hopsrest
          exact ih _ r2 l2 v2 t2 hopsrest hwf2 hu2 hinv2 hd2 hrun2

theorem deepestHit_none_spec : ∀ (path : List Bool) (f : List Bool → Option Nat),
    deepestHit f path = none → ∀ n, n ≤ path.length → f (path.take n) = none := by
  intro path
  induction path with
  | nil =>
    intro f h n _
    simpa [List.take_nil] using h
  | cons b rest ih =>
    intro f h n hn
    cases hin : deepestHit (fun q => f (b :: q)) rest with
    | some v2 =>
      rw [show deepestHit f (b :: rest) =
          (deepestHit (fun q => f (b :: q)) rest).orElse (fun _ => f []) from rfl,
        hin] at h
      exact absurd h (by simp [some_orElse_val])
    | none =>
      have h2 : f [] = none := by
        rw [show deepestHit f (b :: rest) =
            (deepestHit (fun q => f (b :: q)) rest).orElse (fun _ => f []) from rfl,
          hin, none_orElse_val] at h
        exact h
      cases n with
      | zero => exact h2
      | succ n2 =>
        show f (b :: rest.take n2) = none
        exact ih (fun q => f (b :: q)) hin n2 (by simpa using hn)

theorem deepestHit_some_spec : ∀ (path : List Bool) (f : List Bool → Option Nat)
    (val : Nat), deepestHit f path = some val →
    ∃ n, n ≤ path.length ∧ f (path.take n) = some val ∧
      ∀ n2, n < n2 → n2 ≤ path.length → f (path.take n2) = none := by
  intro path
  induction path with
  | nil =>
    intro f val h
    refine ⟨0, le_refl _, by simpa using h, ?_⟩
    intro n2 h1 h2
    exact absurd h1 (by simp at h2; omega)
  | cons b rest ih =>
    intro f val h
    rw [show deepestHit f (b :: rest) =
        (deepestHit (fun q => f (b :: q)) rest).orElse (fun _ => f []) from rfl] at h
    cases hin : deepestHit (fun q => f (b :: q)) rest with
    | some v2 =>
      rw [hin, some_orElse_val] at h
      have hv : v2 = val := Option.some.inj h
      subst hv
      obtain ⟨n, hn1, hn2, hn3⟩ := ih (fun q => f (b :: q)) v2 hin
      refine ⟨n + 1, by simpa using hn1, hn2, ?_⟩
      intro n2 h1 h2
      cases n2 with
      | zero => omega
      | succ n3 =>
        show f (b :: rest.take n3) = none
        exact hn3 n3 (by omega) (by simpa using h2)
    | none =>
      rw [hin, none_orElse_val] at h
      refine ⟨0, by omega, h, ?_⟩
      intro n2 h1 h2
      cases n2 with
      | zero => omega
      | succ n3 =>
        show f (b :: rest.take n3) = none
        exact deepestHit_none_spec rest (fun q => f (b :: q)) hin n3 (by simpa using h2)

theorem lpmBest_spec (k : Nat) : ∀ s : List (Nat × Nat × Nat),
    (match lpmBest k s with
     | none => ∀ e ∈ s, ¬ (k &&& e.2.1 = e.1)
     | some e => e ∈ s ∧ k &&& e.2.1 = e.1 ∧
         ∀ e2 ∈ s, k &&& e2.2.1 = e2.1 → maskLen e2.2.1 ≤ maskLen e.2.1) := by
  intro s
  induction s with
  | nil =>
    intro e he
    simp at he
  | cons e rest ih =>
    have hstep : lpmBest k (e :: rest) =
        (if k &&& e.2.1 = e.1 then
          (match lpmBest k rest with
           | none => some e
           | some e2 =>
             if maskLen e2.2.1 < maskLen e.2.1 then some e else some e2)
         else lpmBest k rest) := rfl
    by_cases hme : k &&& e.2.1 = e.1
    · rw [hstep, if_pos hme]
      cases hb : lpmBest k rest with
      | none =>
        rw [hb] at ih
        refine ⟨List.mem_cons_self e rest, hme, ?_⟩
        intro e2 he2 hm2
        rcases List.mem_cons.mp he2 with h1 | h1
        · rw [h1]
        · exact absurd hm2 (ih e2 h1)
      | some e0 =>
        rw [hb] at ih
        obtain ⟨hmem0, hm0, hmax0⟩ := ih
        dsimp only
        by_cases hcmp : maskLen e0.2.1 < maskLen e.2.1
        · rw [if_pos hcmp]
          refine ⟨List.mem_cons_self e rest, hme, ?_⟩
          intro e2 he2 hm2
          rcases List.mem_cons.mp he2 with h1 | h1
          · rw [h1]
          · have := hmax0 e2 h1 hm2
            omega
        · rw [if_neg hcmp]
          refine ⟨List.mem_cons_of_mem e hmem0, hm0, ?_⟩
          intro e2 he2 hm2
          rcases List.mem_cons.mp he2 with h1 | h1
          · rw [h1]
            omega
          · exact hmax0 e2 h1 hm2
    · rw [hstep, if_neg hme]
      cases hb : lpmBest k rest with
      | none =>
        rw [hb] at ih
        intro e2 he2
        rcases List.mem_cons.mp he2 with h1 | h1
        · rw [h1]
          exact hme
        · exact ih e2 h1
      | some e0 =>
        rw [hb] at ih
        obtain ⟨hmem0, hm0, hmax0⟩ := ih
        refine ⟨List.mem_cons_of_mem e hmem0, hm0, ?_⟩
        intro e2 he2 hm2
        rcases List.mem_cons.mp he2 with h1 | h1
        · rw [h1] at hm2
          exact absurd hm2 hme
        · exact hmax0 e2 h1 hm2

theorem uniq_path_eq : ∀ s : List (Nat × Nat × Nat), StoreUniq s →
    ∀ e1 ∈ s, ∀ e2 ∈ s,
    pathOfPfx e1.1 e1.2.1 = pathOfPfx e2.1 e2.2.1 → e1 = e2 := by
  intro s
  induction s with
  | nil => intro _ e1 he1; simp at he1
  | cons e rest ih =>
    intro hu e1 he1 e2 he2 hp
    have hu2 := List.pairwise_cons.mp hu
    rcases List.mem_cons.mp he1 with h1 | h1 <;>
      rcases List.mem_cons.mp he2 with h2 | h2
    · rw [h1, h2]
    · subst h1
      exact absurd hp (hu2.1 e2 h2)
    · subst h2
      exact absurd hp.symm (hu2.1 e1 h1)
    · exact ih hu2.2 e1 h1 e2 h2 hp

theorem lpm_agree (k : Nat) (s : List (Nat × Nat × Nat))
    (hwf : StoreWF s) (hu : StoreUniq s) :
    (deepestHit (lookupStore s) (bitsDown k 32)).getD NGX_RADIX_NO_VALUE =
      lpmValue s k := by
  cases hdh : deepestHit (lookupStore s) (bitsDown k 32) with
  | none =>
    have hnone := deepestHit_none_spec (bitsDown k 32) (lookupStore s) hdh
    have hnomatch : ∀ e ∈ s, ¬ (k &&& e.2.1 = e.1) := by
      intro e he hme
      have hwfe := hwf e he
      have hml := maskLen_le e.2.1
      have htake : (bitsDown k 32).take (maskLen e.2.1) = pathOfPfx e.1 e.2.1 := by
        have h1 : k &&& topMask (maskLen e.2.1) = e.1 := by
          rw [← hwfe.2.1.2]
          exact hme
        have h2 := (match_iff_take k e.1 (maskLen e.2.1) hml
          (by rw [← hwfe.2.1.2]; exact hwfe.2.2.1)).mp h1
        unfold pathOfPfx
        exact h2
      have hlk := lookupStore_uniq_mem s hu e he
      rw [← htake] at hlk
      rw [hnone (maskLen e.2.1) (by rw [bitsDown_length]; exact hml)] at hlk
      exact Option.noConfusion hlk
    have hbest := lpmBest_spec k s
    unfold lpmValue
    cases hb : lpmBest k s with
    | none => rfl
    | some e0 =>
      rw [hb] at hbest
      exact absurd hbest.2.1 (hnomatch e0 hbest.1)
  | some val =>
    obtain ⟨n, hn1, hn2, hn3⟩ :=
      deepestHit_some_spec (bitsDown k 32) (lookupStore s) val hdh
    obtain ⟨e1, he1, hpe1, hve1⟩ := lookupStore_some_exists _ val _ hn2
    have hwfe1 := hwf e1 he1
    have hlen : maskLen e1.2.1 = n := by
      have hll := congrArg List.length hpe1
      rw [pathOfPfx_length, List.length_take, bitsDown_length] at hll
      rw [bitsDown_length] at hn1
      omega
    have hmatch1 : k &&& e1.2.1 = e1.1 := by
      have htk : (bitsDown k 32).take (maskLen e1.2.1) =
          (bitsDown e1.1 32).take (maskLen e1.2.1) := by
        have hun : pathOfPfx e1.1 e1.2.1 = (bitsDown e1.1 32).take (maskLen e1.2.1) :=
          rfl
        rw [hun] at hpe1
        rw [hlen, ← hpe1, hlen]
      have h2 := (match_iff_take k e1.1 (maskLen e1.2.1) (maskLen_le _)
        (by rw [← hwfe1.2.1.2]; exact hwfe1.2.2.1)).mpr htk
      rw [← hwfe1.2.1.2] at h2
      exact h2
    have hmax : ∀ e2 ∈ s, k &&& e2.2.1 = e2.1 → maskLen e2.2.1 ≤ n := by
      intro e2 he2 hm2
      by_contra hc
      have hwfe2 := hwf e2 he2
      have hml2 := maskLen_le e2.2.1
      have htake2 : (bitsDown k 32).take (maskLen e2.2.1) = pathOfPfx e2.1 e2.2.1 := by
        have h1 : k &&& topMask (maskLen e2.2.1) = e2.1 := by
          rw [← hwfe2.2.1.2]
          exact hm2
        have h2 := (match_iff_take k e2.1 (maskLen e2.2.1) hml2
          (by rw [← hwfe2.2.1.2]; exact hwfe2.2.2.1)).mp h1
        unfold pathOfPfx
        exact h2
      have hlk2 := lookupStore_uniq_mem s hu e2 he2
      rw [← htake2] at hlk2
      rw [hn3 (maskLen e2.2.1) (by omega) (by rw [bitsDown_length]; exact hml2)] at hlk2
      exact Option.noConfusion hlk2
    have hbest := lpmBest_spec k s
    unfold lpmValue
    cases hb : lpmBest k s with
    | none =>
      rw [hb] at hbest
      exact absurd hmatch1 (hbest e1 he1)
    | some e0 =>
      rw [hb] at hbest
      obtain ⟨hmem0, hm0, hmax0⟩ := hbest
      have hle1 : maskLen e1.2.1 ≤ maskLen e0.2.1 := hmax0 e1 he1 hmatch1
      have hle2 : maskLen e0.2.1 ≤ n := hmax e0 hmem0 hm0
      have heqn : maskLen e0.2.1 = n := by omega
      have htake0 : (bitsDown k 32).take (maskLen e0.2.1) = pathOfPfx e0.1 e0.2.1 := by
        have hwfe0 := hwf e0 hmem0
        have h1 : k &&& topMask (maskLen e0.2.1) = e0.1 := by
          rw [← hwfe0.2.1.2]
          exact hm0
        have h2 := (match_iff_take k e0.1 (maskLen e0.2.1) (maskLen_le _)
          (by rw [← hwfe0.2.1.2]; exact hwfe0.2.2.1)).mp h1
        unfold pathOfPfx
        exact h2
      have hpp : pathOfPfx e0.1 e0.2.1 = pathOfPfx e1.1 e1.2.1 := by
        rw [← htake0, heqn]
        exact hpe1.symm
      have he01 : e0 = e1 := uniq_path_eq s hu e0 hmem0 e1 he1 hpp
      show val = e0.2.2
      rw [he01]
      exact hve1.symm

/-- Claim C1, counterexample to the claim as stated.  The claim quantifies
over every sequence of insert/delete operations on distinct contiguous-mask
CIDR prefixes with values other than `NGX_RADIX_NO_VALUE`, and asserts that
`ngx_radix32tree_find` then returns the longest-prefix match.  The
well-formed sequence `C1crashOps` — insert the zero-mask prefix at the root
of the freshly created empty tree, then delete it — makes
`ngx_radix32tree_delete` reach the leaf-detach loop with the childless root
as target and dereference the root's `NULL` parent (`runOps` returns
`none`), so after this sequence `find` does not return at all. -/
theorem C1_counterexample :
    OpsWF [] C1crashOps ∧
    runOps (ngx_radix_tree_create 0) C1crashOps = none := by
  constructor
  · decide
  · decide

/-- Claim C1 (amended): for every well-formed operation sequence — distinct
CIDR prefixes, contiguous high-bit masks, canonical keys, values other than
`NGX_RADIX_NO_VALUE` — that runs to completion on the initially empty tree
(`preallocate = 0`) without tripping the null-parent dereference of
`ngx_radix32tree_delete`, and for every 32-bit key `k`,
`ngx_radix32tree_find` returns the value of the longest stored prefix
`(p, m)` with `k &&& m = p`, or `NGX_RADIX_NO_VALUE` if no stored prefix
matches. -/
theorem C1_amended_find_lpm (ops : List ROp) (t : RTree)
    (hwf : OpsWF [] ops) (hrun : runOps (ngx_radix_tree_create 0) ops = some t)
    (k : Nat) (_hk : k < 2 ^ 32) :
    ngx_radix32tree_find t k = lpmValue (modelStore ops) k := by
  have hcreate : ngx_radix_tree_create 0 = RTree.node .nil .nil NGX_RADIX_NO_VALUE := by
    unfold ngx_radix_tree_create
    rw [if_pos rfl]
  rw [hcreate] at hrun
  have hinv0 : TreeInv [] (.node .nil .nil NGX_RADIX_NO_VALUE) := by
    intro q
    cases q with
    | nil => simp [valueAtPath_node_nil_path, toOptVal, lookupStore]
    | cons b rest =>
      cases b with
      | true => rw [valueAtPath_node_true, valueAtPath_nil]; rfl
      | false => rw [valueAtPath_node_false, valueAtPath_nil]; rfl
  obtain ⟨⟨r2, l2, v2, ht2⟩, hwfS, huS, hinvS, hdS⟩ :=
    runOps_inv ops [] .nil .nil NGX_RADIX_NO_VALUE t hwf
      (by intro e he; simp at he) List.Pairwise.nil hinv0
      (by
        have h1 : treeDepth (RTree.node RTree.nil RTree.nil NGX_RADIX_NO_VALUE) = 1 :=
          rfl
        omega)
      hrun
  subst ht2
  rw [find32_deepest _ k hdS,
    deepestHit_congr (bitsDown k 32) _ (lookupStore (modelStore ops)) hinvS]
  exact lpm_agree k (modelStore ops) hwfS huS

/-- Witness for the amended claim C1 at a concrete input: insert the
prefixes 192.0.0.0/8 (value 1) and 192.168.0.0/16 (value 2); `find` on
192.168.0.1 returns the value of the longer match. -/
theorem C1_amended_find_lpm_witness :
    ngx_radix32tree_find ((runOps (ngx_radix_tree_create 0) C1ops).getD RTree.nil)
        0xC0A80001 =
      lpmValue (modelStore C1ops) 0xC0A80001 :=
  C1_amended_find_lpm C1ops
    ((runOps (ngx_radix_tree_create 0) C1ops).getD RTree.nil)
    (by decide) (by decide) 0xC0A80001 (by decide)

end NginxVerify
